import Mathlib

/-!
Verification of the fuel-core transaction-pool core (`txpool_v2`).

The development shallowly embeds the pool orchestrator from
`crates/services/txpool_v2/src/pool.rs` and the ratio-tip-gas selection
algorithm from
`crates/services/txpool_v2/src/selection_algorithms/ratio_tip_gas.rs`.
Machine integers (`u64`, `usize`) are modelled as `Nat` with explicit
clamping for the saturating operations the source uses.  Subsystems of
the repository whose sources are not available here (the graph storage,
the collision manager, the configuration and error types) are modelled
from the specification; each such definition carries a doc comment
starting with `Modelled from the spec:`.
-/

deriving instance DecidableEq for Except

namespace TxPool

/-- Largest value of a Rust `u64`. -/
def U64MAX : Nat := 2 ^ 64 - 1

/-- Largest value of a Rust `usize` (the target is 64-bit). -/
def USIZEMAX : Nat := 2 ^ 64 - 1

/-- Rust `u64::saturating_add`: addition clamped at `u64::MAX`. -/
def satAdd64 (a b : Nat) : Nat := min (a + b) U64MAX

/-- Rust `usize::saturating_add`: addition clamped at `usize::MAX`. -/
def satAddUsize (a b : Nat) : Nat := min (a + b) USIZEMAX

/-- Rust unsigned `saturating_sub` agrees with truncated `Nat` subtraction. -/
def satSub (a b : Nat) : Nat := a - b

/-- Rust `Ord::cmp` on unsigned integers. -/
def cmpNat (a b : Nat) : Ordering :=
  if a < b then .lt else if a = b then .eq else .gt

/-- Comparison of `num_rational::Ratio::<u64>::new(n1, d1)` with
`Ratio::new(n2, d2)`.  For positive denominators the exact rational order
agrees with cross multiplication, which is what we use. -/
def ratioCmp (n1 d1 n2 d2 : Nat) : Ordering := cmpNat (n1 * d2) (n2 * d1)

/-- Strict `>` on ratios via cross multiplication (`Ratio` ordering). -/
def ratioGtB (n1 d1 n2 d2 : Nat) : Bool := decide (n2 * d1 < n1 * d2)

/-- A pool transaction, as observed by the pool core.  The transaction is
opaque to the core; only the attributes used by `pool.rs` and
`ratio_tip_gas.rs` are kept.  Unconfirmed-UTXO inputs are pairs
`(producer transaction id, output index)`; message inputs are nonces. -/
structure PoolTx where
  tx_id : Nat
  tip : Nat
  max_gas : Nat
  metered_bytes_size : Nat
  utxo_inputs : List (Nat × Nat)
  message_inputs : List Nat
  blob_id : Option Nat
  max_fee_limit : Nat
deriving DecidableEq

/-- Pool-internal record for each admitted transaction (`StorageData`). -/
structure StorageData where
  transaction : PoolTx
  creation_instant : Nat
  dependents_cumulative_tip : Nat
  dependents_cumulative_gas : Nat
  dependents_cumulative_bytes_size : Nat
  number_dependents_in_chain : Nat
  parents : List Nat
  children : List Nat
deriving DecidableEq

/-- Key used to sort transactions by tip/gas ratio (`ratio_tip_gas.rs`).
The ratio is kept unreduced as a numerator/denominator pair; all
comparisons use the exact rational order. -/
structure Key where
  ratio_num : Nat
  ratio_den : Nat
  creation_instant : Nat
  tx_id : Nat
deriving DecidableEq

/-- Embeds `impl Ord for Key` from `ratio_tip_gas.rs`: first the tip/gas
ratio, then the creation instant reversed, finally the transaction id. -/
def keyCmp (a b : Key) : Ordering :=
  let cmp := ratioCmp a.ratio_num a.ratio_den b.ratio_num b.ratio_den
  if cmp = .eq then
    let instant_cmp := cmpNat b.creation_instant a.creation_instant
    if instant_cmp = .eq then cmpNat a.tx_id b.tx_id else instant_cmp
  else cmp

/-- Embeds `RatioTipGasSelection::key`: the sort key of a stored entry. -/
def selectionKey (d : StorageData) : Key :=
  { ratio_num := d.transaction.tip
    ratio_den := d.transaction.max_gas
    creation_instant := d.creation_instant
    tx_id := d.transaction.tx_id }

/-!  The selection index.  The source keeps
`executable_transactions_sorted_tip_gas_ratio : BTreeMap<Reverse<Key>, StorageIndex>`;
we model it as an association list sorted strictly descending by `keyCmp`,
which is exactly the iteration order of that map. -/

/-- Insertion into the descending-sorted selection index, matching
`BTreeMap::insert` (an equal key has its value replaced). -/
def orderedInsert : List (Key × Nat) → Key → Nat → List (Key × Nat)
  | [], k, i => [(k, i)]
  | (k0, i0) :: rest, k, i =>
    match keyCmp k k0 with
    | .gt => (k, i) :: (k0, i0) :: rest
    | .eq => (k, i) :: rest
    | .lt => (k0, i0) :: orderedInsert rest k i

/-- Removal from the selection index, matching `BTreeMap::remove` (the
unique entry whose key compares equal is dropped, if any). -/
def orderedRemove : List (Key × Nat) → Key → List (Key × Nat)
  | [], _ => []
  | (k0, i0) :: rest, k =>
    if keyCmp k k0 = .eq then rest else (k0, i0) :: orderedRemove rest k

/-!  Storage of the dependency graph.  The concrete `GraphStorage` is not
among the provided sources; following the spec (section 4.4) we model it
as an arena of `StorageData` records addressed by dense integer indices,
held as an association list. -/

/-- Storage arena: list of `(StorageIndex, StorageData)` pairs. -/
abbrev Entries := List (Nat × StorageData)

/-- Modelled from the spec: `Storage::get`, lookup of a record by index. -/
def getEntry (entries : Entries) (i : Nat) : Option StorageData :=
  (entries.find? (fun e => e.1 = i)).map (·.2)

/-- Modelled from the spec: `Storage::has_dependencies`, true when the
record exists and its parent set is non-empty. -/
def hasDependencies (entries : Entries) (i : Nat) : Bool :=
  match getEntry entries i with
  | some d => !d.parents.isEmpty
  | none => false

/-- Drops every reference to the indices in `s` from a record's parent and
child links (used when those indices are removed from the arena). -/
def unlink (s : List Nat) (d : StorageData) : StorageData :=
  { d with parents := d.parents.filter (fun j => !s.contains j)
           children := d.children.filter (fun j => !s.contains j) }

/-- Removes every index in `s` from the arena and unlinks them from the
surviving records. -/
def removeIds (s : List Nat) (entries : Entries) : Entries :=
  (entries.filter (fun e => !s.contains e.1)).map (fun e => (e.1, unlink s e.2))

/-- Modelled from the spec: `Storage::remove` for a dependency-free
record, as used by `gather_best_txs`.  The record is dropped and its
links to surviving records are severed (so a child whose last parent is
removed becomes executable). -/
def removeEntry (entries : Entries) (i : Nat) : Entries := removeIds [i] entries

/-- Modelled from the spec: collects the subtree (the index and all
records transitively reachable through `children`); fuel-bounded
worklist walk. -/
def downClosure (entries : Entries) : Nat → List Nat → List Nat → List Nat
  | 0, acc, _ => acc
  | _ + 1, acc, [] => acc
  | fuel + 1, acc, f :: rest =>
    if acc.contains f then downClosure entries fuel acc rest
    else
      downClosure entries fuel (f :: acc)
        (rest ++ ((getEntry entries f).elim [] (·.children)))

/-- Modelled from the spec: collects all ancestors (transitively reachable
upward from the given parent set, inclusive); fuel-bounded worklist walk. -/
def upClosure (entries : Entries) : Nat → List Nat → List Nat → List Nat
  | 0, acc, _ => acc
  | _ + 1, acc, [] => acc
  | fuel + 1, acc, f :: rest =>
    if acc.contains f then upClosure entries fuel acc rest
    else
      upClosure entries fuel (f :: acc)
        (rest ++ ((getEntry entries f).elim [] (·.parents)))

/-- Fuel that always suffices for the worklist walks above. -/
def closureFuel (entries : Entries) : Nat :=
  (entries.length + 1) * (entries.length + 1)

/-- Subtracts a removed root's subtree aggregates from a surviving
ancestor record (helper of `removeSubtree`). -/
def decrementAncestors (ancestors : List Nat) (rootCum : Option StorageData)
    (e : Nat × StorageData) : Nat × StorageData :=
  if ancestors.contains e.1 then
    (e.1, { e.2 with
      dependents_cumulative_tip :=
        satSub e.2.dependents_cumulative_tip
          (rootCum.elim 0 (·.dependents_cumulative_tip))
      dependents_cumulative_gas :=
        satSub e.2.dependents_cumulative_gas
          (rootCum.elim 0 (·.dependents_cumulative_gas))
      dependents_cumulative_bytes_size :=
        satSub e.2.dependents_cumulative_bytes_size
          (rootCum.elim 0 (·.dependents_cumulative_bytes_size))
      number_dependents_in_chain :=
        satSub e.2.number_dependents_in_chain
          (rootCum.elim 0 (·.number_dependents_in_chain)) })
  else e

/-- Modelled from the spec:
`Storage::remove_transaction_and_dependents_subtree`.  Removes the subtree
rooted at `root`, decrements the subtree aggregates of every surviving
ancestor by the root's subtree aggregates, and returns the removed
records together with the new arena. -/
def removeSubtree (entries : Entries) (root : Nat) :
    List StorageData × Entries :=
  let sub := downClosure entries (closureFuel entries) [] [root]
  let rootCum := getEntry entries root
  let ancestors :=
    upClosure entries (closureFuel entries) []
      ((rootCum.elim [] (·.parents)))
  let removed := (entries.filter (fun e => sub.contains e.1)).map (·.2)
  let remaining :=
    (removeIds sub entries).map (decrementAncestors ancestors rootCum)
  (removed, remaining)

/-- A transaction checked by the storage (`CheckedTransaction`): the
transaction together with its resolved in-pool dependencies. -/
structure CheckedTx where
  tx : PoolTx
  all_dependencies : List Nat
deriving DecidableEq

/-- Modelled from the spec: dependency resolution inside
`Storage::can_store_transaction` — the parents are the pool transactions
that produced an unconfirmed UTXO this transaction spends. -/
def computeParents (entries : Entries) (tx : PoolTx) : List Nat :=
  (tx.utxo_inputs.filterMap (fun inp =>
    (entries.find? (fun e => e.2.transaction.tx_id = inp.1)).map (·.1))).dedup

/-- Modelled from the spec: length of the longest parent chain above an
index (fuel-bounded). -/
def chainHeight (entries : Entries) : Nat → Nat → Nat
  | 0, _ => 0
  | fuel + 1, i =>
    match getEntry entries i with
    | none => 1
    | some d => 1 + (d.parents.map (chainHeight entries fuel)).foldr max 0

/-- Modelled from the spec: the error kinds surfaced by the pool (the
`error.rs` module is not among the provided sources; constructors follow
the spec's section 7 table). -/
inductive Error where
  | Database
  | ZeroMaxGas
  | DuplicateTxId (txId : Nat)
  | Blacklisted
  | NotInsertedBlobIdAlreadyTaken (blobId : Nat)
  | NotInsertedInputsInvalid
  | NotInsertedCollisionIsDependency
  | Collided (txId : Nat)
  | NotInsertedLimitHit
  | ChainTooLong
  | GasPriceNotFound
deriving DecidableEq

/-- Modelled from the spec: the read-only persistent-storage view used
during admission. -/
structure View where
  coins : List (Nat × Nat)
  messages : List Nat
  spent_messages : List Nat
  blobs : List Nat
deriving DecidableEq

/-- Pool limits (`pool_limits.{max_txs, max_gas, max_bytes_size}`). -/
structure PoolLimits where
  max_txs : Nat
  max_gas : Nat
  max_bytes_size : Nat
deriving DecidableEq

/-- Modelled from the spec: the pool configuration (the `config.rs`
module is not among the provided sources); the blacklist is abstracted
to a set of banned transaction ids. -/
structure Config where
  utxo_validation : Bool
  max_block_gas : Nat
  max_txs_chain_count : Nat
  pool_limits : PoolLimits
  blacklisted_tx_ids : List Nat
deriving DecidableEq

/-- Modelled from the spec: `Storage::can_store_transaction` — resolves
the dependencies of the candidate within the pool and enforces
`max_txs_chain_count`. -/
def canStoreTransaction (entries : Entries) (cfg : Config) (tx : PoolTx) :
    Except Error CheckedTx :=
  let parents := computeParents entries tx
  let height :=
    1 + (parents.map (chainHeight entries (entries.length + 1))).foldr max 0
  if height > cfg.max_txs_chain_count then .error .ChainTooLong
  else .ok { tx := tx, all_dependencies := parents }

/-- Modelled from the spec: `CollisionManager::find_collisions` — the
pool transactions that claim a resource the candidate also claims: an
unconfirmed-UTXO double spend (the producing transaction is itself in the
pool), a message double spend, or a blob-creation conflict. -/
def findCollisions (entries : Entries) (tx : PoolTx) : List Nat :=
  (entries.filter (fun e =>
    tx.utxo_inputs.any (fun inp =>
      e.2.transaction.utxo_inputs.contains inp
        && entries.any (fun e2 => e2.2.transaction.tx_id = inp.1))
    || tx.message_inputs.any (fun n => e.2.transaction.message_inputs.contains n)
    || (match tx.blob_id, e.2.transaction.blob_id with
        | some b1, some b2 => b1 = b2
        | _, _ => false))).map (·.1)

/-- Subtree tip aggregate of a collider, defaulting to zero for a missing
record. -/
def subtreeTip (entries : Entries) (i : Nat) : Nat :=
  (getEntry entries i).elim 0 (·.dependents_cumulative_tip)

/-- Subtree gas aggregate of a collider, defaulting to zero for a missing
record. -/
def subtreeGas (entries : Entries) (i : Nat) : Nat :=
  (getEntry entries i).elim 0 (·.dependents_cumulative_gas)

/-- Transaction id of a stored record, defaulting to zero. -/
def entryTxId (entries : Entries) (i : Nat) : Nat :=
  (getEntry entries i).elim 0 (·.transaction.tx_id)

/-- Modelled from the spec: `check_collision_requirements` (in
`pool/collisions.rs`, not among the provided sources).  A candidate with
dependencies may not displace anything; otherwise its `tip / max_gas`
ratio must strictly exceed the `subtree_tip / subtree_gas` ratio of every
collider, a tie rejecting the candidate. -/
def checkCollisionRequirements (entries : Entries) (tx : PoolTx)
    (has_dependencies : Bool) : List Nat → Except Error Unit
  | [] => .ok ()
  | c :: rest =>
    if has_dependencies then .error (.Collided (entryTxId entries c))
    else if ratioGtB tx.tip tx.max_gas (subtreeTip entries c) (subtreeGas entries c)
    then checkCollisionRequirements entries tx has_dependencies rest
    else .error (.Collided (entryTxId entries c))

/-- Modelled from the spec: `Storage::validate_inputs`.  Under
`utxo_validation` each spent coin must exist (in the pool or in the
persistent view) and each spent message must exist and be unspent;
otherwise the persistent checks are skipped. -/
def validateInputs (entries : Entries) (tx : PoolTx) (view : View)
    (utxo_validation : Bool) : Except Error Unit :=
  if utxo_validation then
    if tx.utxo_inputs.all (fun inp =>
        entries.any (fun e => e.2.transaction.tx_id = inp.1)
          || view.coins.contains inp)
      && tx.message_inputs.all (fun n =>
          view.messages.contains n && !view.spent_messages.contains n)
    then .ok () else .error .NotInsertedInputsInvalid
  else .ok ()

/-- Embeds `Pool::check_blob_does_not_exist`: a blob transaction whose
blob id already exists in persistent storage is rejected. -/
def checkBlobDoesNotExist (tx : PoolTx) (persistent_storage : View) :
    Except Error Unit :=
  match tx.blob_id with
  | some blobId =>
    if persistent_storage.blobs.contains blobId
    then .error (.NotInsertedBlobIdAlreadyTaken blobId) else .ok ()
  | none => .ok ()

/-- The fresh record built by `Storage::store_transaction` for an admitted
transaction: subtree aggregates start at the transaction's own values. -/
def newStorageData (checked : CheckedTx) (instant : Nat) : StorageData :=
  { transaction := checked.tx
    creation_instant := instant
    dependents_cumulative_tip := checked.tx.tip
    dependents_cumulative_gas := checked.tx.max_gas
    dependents_cumulative_bytes_size := checked.tx.metered_bytes_size
    number_dependents_in_chain := 1
    parents := checked.all_dependencies
    children := [] }

/-- Registers the fresh index as a child of each parent and adds the
candidate's values to every ancestor record (helper of
`storeTransaction`). -/
def propagateStore (deps ancestors : List Nat) (tx : PoolTx) (next : Nat)
    (e : Nat × StorageData) : Nat × StorageData :=
  let d := if deps.contains e.1
           then { e.2 with children := e.2.children ++ [next] } else e.2
  if ancestors.contains e.1 then
    (e.1, { d with
      dependents_cumulative_tip :=
        satAdd64 d.dependents_cumulative_tip tx.tip
      dependents_cumulative_gas :=
        satAdd64 d.dependents_cumulative_gas tx.max_gas
      dependents_cumulative_bytes_size :=
        satAddUsize d.dependents_cumulative_bytes_size tx.metered_bytes_size
      number_dependents_in_chain :=
        satAddUsize d.number_dependents_in_chain 1 })
  else (e.1, d)

/-- Modelled from the spec: `Storage::store_transaction`.  Inserts the
record at the fresh index, registers it as a child of each parent, and
propagates the aggregate deltas upward through all ancestors. -/
def storeTransaction (entries : Entries) (next : Nat) (checked : CheckedTx)
    (instant : Nat) : Entries :=
  let ancestors :=
    upClosure entries (closureFuel entries) [] checked.all_dependencies
  entries.map
      (propagateStore checked.all_dependencies ancestors checked.tx next)
    ++ [(next, newStorageData checked instant)]

/-- Removal of a binding from the `tx_id → storage_id` map (`HashMap::remove`
drops at most one binding). -/
def removeById : List (Nat × Nat) → Nat → List (Nat × Nat)
  | [], _ => []
  | (k, v) :: rest, i => if k = i then rest else (k, v) :: removeById rest i

/-- The pool state (`Pool` in `pool.rs`).  The field `exec_sorted` is the
selection index `executable_transactions_sorted_tip_gas_ratio`, kept in
iteration order (descending `keyCmp`); `view` is the latest persistent
view the provider would return, `none` when the provider fails. -/
structure Pool where
  config : Config
  view : Option View
  entries : Entries
  next_free_index : Nat
  exec_sorted : List (Key × Nat)
  tx_id_to_storage_id : List (Nat × Nat)
  current_gas : Nat
  current_bytes_size : Nat
deriving DecidableEq

/-- Embeds the result of the space check (`SpaceCheckResult` payload). -/
structure NotEnoughSpace where
  gas_left : Nat
  bytes_left : Nat
  txs_left : Nat
deriving DecidableEq

/-- Embeds `SpaceCheckResult` from `pool.rs`. -/
inductive SpaceCheckResult where
  | EnoughSpace
  | NotEnoughSpace (left : TxPool.NotEnoughSpace)
deriving DecidableEq

/-- Embeds `Pool::can_fit_into_pool`: the projected aggregates (saturating
additions) must all stay within the limits; a candidate with dependencies
is refused outright when they do not. -/
def Pool.can_fit_into_pool (p : Pool) (checked : CheckedTx) :
    Except Error SpaceCheckResult :=
  let tx := checked.tx
  let gas_left := satAdd64 p.current_gas tx.max_gas
  let bytes_left := satAddUsize p.current_bytes_size tx.metered_bytes_size
  let txs_left := satAddUsize p.tx_id_to_storage_id.length 1
  if gas_left ≤ p.config.pool_limits.max_gas
      ∧ bytes_left ≤ p.config.pool_limits.max_bytes_size
      ∧ txs_left ≤ p.config.pool_limits.max_txs
  then .ok .EnoughSpace
  else if !checked.all_dependencies.isEmpty then .error .NotInsertedLimitHit
  else .ok (.NotEnoughSpace ⟨gas_left, bytes_left, txs_left⟩)

/-- Embeds `RatioTipGasSelection::get_less_worth_txs`: the values of the
selection index iterated in reverse, i.e. ascending key order. -/
def Pool.get_less_worth_txs (p : Pool) : List Nat :=
  p.exec_sorted.reverse.map (·.2)

/-- Embeds the `while` loop of `Pool::find_free_space`: while a projected
aggregate still exceeds its limit, take the next less-worth executable
transaction; skip dependencies of the candidate and stale indices; fail
when the iterator is exhausted or the victim's subtree ratio strictly
exceeds the candidate's `tip / max_gas` ratio; otherwise subtract the
victim's subtree aggregates (saturating) and mark it for removal. -/
def findFreeSpaceLoop (limits : PoolLimits) (entries : Entries)
    (deps : List Nat) (tip gas : Nat) :
    List Nat → Nat → Nat → Nat → Except Error (List Nat)
  | sorted, gas_left, bytes_left, txs_left =>
    if gas_left > limits.max_gas ∨ bytes_left > limits.max_bytes_size
        ∨ txs_left > limits.max_txs then
      match sorted with
      | [] => .error .NotInsertedLimitHit
      | storage_id :: rest =>
        if deps.contains storage_id then
          findFreeSpaceLoop limits entries deps tip gas rest
            gas_left bytes_left txs_left
        else
          match getEntry entries storage_id with
          | none =>
            findFreeSpaceLoop limits entries deps tip gas rest
              gas_left bytes_left txs_left
          | some storage_data =>
            if ratioGtB storage_data.dependents_cumulative_tip
                storage_data.dependents_cumulative_gas tip gas
            then .error .NotInsertedLimitHit
            else
              match findFreeSpaceLoop limits entries deps tip gas rest
                (satSub gas_left storage_data.dependents_cumulative_gas)
                (satSub bytes_left storage_data.dependents_cumulative_bytes_size)
                (satSub txs_left storage_data.number_dependents_in_chain) with
              | .error e => .error e
              | .ok l => .ok (storage_id :: l)
    else .ok []

/-- Embeds `Pool::find_free_space`, wiring the loop to the candidate's
per-transaction ratio and the less-worth iterator. -/
def Pool.find_free_space (p : Pool) (left : NotEnoughSpace)
    (checked : CheckedTx) : Except Error (List Nat) :=
  findFreeSpaceLoop p.config.pool_limits p.entries checked.all_dependencies
    checked.tx.tip checked.tx.max_gas p.get_less_worth_txs
    left.gas_left left.bytes_left left.txs_left

/-- Embeds `CanStoreTransaction`: the outcome of a successful admission
check, carrying the checked transaction, the space victims, and the
colliders to displace. -/
structure CanStore where
  checked_transaction : CheckedTx
  transactions_to_remove : List Nat
  collisions : List Nat
deriving DecidableEq

/-- Embeds `Pool::can_insert_transaction`: the admission pipeline, each
step fatal on failure, in the order of the source. -/
def Pool.can_insert_transaction (p : Pool) (tx : PoolTx) :
    Except Error CanStore :=
  match p.view with
  | none => .error .Database
  | some persistent_storage =>
    if tx.max_gas = 0 then .error .ZeroMaxGas
    else if (p.tx_id_to_storage_id.find? (fun e => e.1 = tx.tx_id)).isSome
    then .error (.DuplicateTxId tx.tx_id)
    else if p.config.blacklisted_tx_ids.contains tx.tx_id
    then .error .Blacklisted
    else match checkBlobDoesNotExist tx persistent_storage with
    | .error e => .error e
    | .ok _ =>
      match validateInputs p.entries tx persistent_storage
          p.config.utxo_validation with
      | .error e => .error e
      | .ok _ =>
        let collisions := findCollisions p.entries tx
        match canStoreTransaction p.entries p.config tx with
        | .error e => .error e
        | .ok checked =>
          if collisions.any (fun c => checked.all_dependencies.contains c)
          then .error .NotInsertedCollisionIsDependency
          else
            match checkCollisionRequirements p.entries tx
                (!checked.all_dependencies.isEmpty) collisions with
            | .error e => .error e
            | .ok _ =>
              match p.can_fit_into_pool checked with
              | .error e => .error e
              | .ok .EnoughSpace => .ok ⟨checked, [], collisions⟩
              | .ok (.NotEnoughSpace left) =>
                match p.find_free_space left checked with
                | .error e => .error e
                | .ok txs => .ok ⟨checked, txs, collisions⟩

/-- Embeds `Pool::update_components_and_caches_on_removal`: for each
removed record, subtract its per-transaction values from the aggregates
(saturating), drop its id from the map, and drop its key from the
selection index. -/
def Pool.update_on_removal (p : Pool) (removed : List StorageData) : Pool :=
  removed.foldl (fun q d =>
    { q with
      current_gas := satSub q.current_gas d.transaction.max_gas
      current_bytes_size :=
        satSub q.current_bytes_size d.transaction.metered_bytes_size
      tx_id_to_storage_id :=
        removeById q.tx_id_to_storage_id d.transaction.tx_id
      exec_sorted := orderedRemove q.exec_sorted (selectionKey d) }) p

/-- Embeds the removal loops in `Pool::insert`: remove the subtree of each
root in turn, updating components and caches after each subtree. -/
def Pool.removeMany (p : Pool) : List Nat → Pool × List StorageData
  | [] => (p, [])
  | r :: rest =>
    let res := removeSubtree p.entries r
    let q := (Pool.update_on_removal { p with entries := res.2 } res.1)
    let tail := q.removeMany rest
    (tail.1, res.1 ++ tail.2)

/-- The pool after `Pool::insert` has displaced the space victims and
the colliders: the state from which the candidate is stored. -/
def Pool.afterRemovals (p : Pool) (can : CanStore) : Pool :=
  ((p.removeMany can.transactions_to_remove).1.removeMany can.collisions).1

/-- The records displaced by `Pool::insert`: the space victims' subtrees
followed by the colliders' subtrees. -/
def Pool.insertRemoved (p : Pool) (can : CanStore) : List StorageData :=
  (p.removeMany can.transactions_to_remove).2
    ++ ((p.removeMany can.transactions_to_remove).1.removeMany
        can.collisions).2

/-- The commit step of `Pool::insert`: store the candidate at the fresh
index, update both aggregates (saturating) and the id map. -/
def Pool.insertCommit (p : Pool) (can : CanStore) (now : Nat) : Pool :=
  let q := p.afterRemovals can
  let tx0 := can.checked_transaction.tx
  let storage_id := q.next_free_index
  { q with
    entries :=
      storeTransaction q.entries storage_id can.checked_transaction now
    next_free_index := storage_id + 1
    current_gas := satAdd64 q.current_gas tx0.max_gas
    current_bytes_size :=
      satAddUsize q.current_bytes_size tx0.metered_bytes_size
    tx_id_to_storage_id :=
      q.tx_id_to_storage_id ++ [(tx0.tx_id, storage_id)] }

/-- Embeds `Pool::insert`: run the admission check, displace the space
victims and the colliders with their subtrees, store the candidate,
update the aggregates and the map, and register the candidate with the
selection algorithm when it is executable.  Returns the displaced
transactions.  The creation instant is taken as a parameter (the source
reads the ambient clock). -/
def Pool.insert (p : Pool) (tx : PoolTx) (now : Nat) :
    Except Error (Pool × List PoolTx) :=
  match p.can_insert_transaction tx with
  | .error e => .error e
  | .ok can =>
    let has_dependencies := !can.checked_transaction.all_dependencies.isEmpty
    let q2 := p.insertCommit can now
    let q3 :=
      if has_dependencies then q2
      else { q2 with
        exec_sorted := orderedInsert q2.exec_sorted
          (selectionKey (newStorageData can.checked_transaction now))
          (p.afterRemovals can).next_free_index }
    .ok (q3, (p.insertRemoved can).map (·.transaction))

/-- The pool state after an insertion attempt: unchanged when the
admission pipeline fails (`insert` takes `&mut self` but performs no
mutation before `can_insert_transaction` succeeds). -/
def Pool.afterInsert (p : Pool) (tx : PoolTx) (now : Nat) : Pool :=
  match p.insert tx now with
  | .ok r => r.1
  | .error _ => p

/-- Embeds `tx_is_gas_price_valid` from `ratio_tip_gas.rs`.  Every
transaction kind runs the same check: compute the max fee from the
current gas price and fee parameters and compare it with the
`max_fee_limit` policy; a failed fee computation rejects.  `Modelled from
the spec:` the external fee computation
(`TransactionFee::checked_from_tx` of fuel-vm) is abstracted as the
oracle `maxFee`, fixed for the duration of one `gather_best_txs` call. -/
def tx_is_gas_price_valid (maxFee : PoolTx → Option Nat) (tx : PoolTx) :
    Bool :=
  match maxFee tx with
  | none => false
  | some max_fee_from_gas_price => max_fee_from_gas_price ≤ tx.max_fee_limit

/-- Embeds `Constraints` for block extraction.  `Modelled from the spec:`
the `selection_algorithms` module root is not among the provided sources;
the fields are those `gather_best_txs` reads, and `pool.rs` populates only
the gas bound (`max_block_gas`), so the extraction call leaves size and
count unbounded. -/
structure Constraints where
  max_gas : Nat
  maximum_block_size : Nat
  maximum_txs : Nat
deriving DecidableEq

/-- State threaded through one pass of the `for` loop inside
`gather_best_txs`:  remaining budgets, the mutated storage, the keys of
selected transactions (`clean_up_list`), the stale keys
(`transactions_to_remove`), the indices to promote, and the selected
records in order. -/
structure PassState where
  gas_left : Nat
  space_left : Nat
  nb_left : Nat
  entries : Entries
  clean_up_list : List Key
  transactions_to_remove : List Key
  transactions_to_promote : List Nat
  result : List StorageData
deriving DecidableEq

/-- Embeds one pass of the `for` loop in `gather_best_txs` over a
snapshot of the selection index: stale keys are marked for removal,
fee-invalid and non-fitting transactions are skipped, and a selected
transaction is deducted from the budgets, removed from storage, appended
to the result, and its now-parentless children are marked for
promotion. -/
def gatherPass (maxFee : PoolTx → Option Nat) :
    List (Key × Nat) → PassState → PassState
  | [], st => st
  | (key, storage_id) :: rest, st =>
    match getEntry st.entries storage_id with
    | none =>
      gatherPass maxFee rest
        { st with transactions_to_remove := st.transactions_to_remove ++ [key] }
    | some stored =>
      if !tx_is_gas_price_valid maxFee stored.transaction then
        gatherPass maxFee rest st
      else if stored.transaction.max_gas > st.gas_left
          ∨ stored.transaction.metered_bytes_size > st.space_left then
        gatherPass maxFee rest st
      else
        let dependents := stored.children
        let entries2 := removeEntry st.entries storage_id
        let promote := dependents.filter (fun d => !hasDependencies entries2 d)
        gatherPass maxFee rest
          { gas_left := satSub st.gas_left stored.transaction.max_gas
            space_left :=
              satSub st.space_left stored.transaction.metered_bytes_size
            nb_left := satSub st.nb_left 1
            entries := entries2
            clean_up_list := st.clean_up_list ++ [key]
            transactions_to_remove := st.transactions_to_remove
            transactions_to_promote := st.transactions_to_promote ++ promote
            result := st.result ++ [stored] }

/-- Embeds the `while` loop of `gather_best_txs`: run a pass over the
selection index, delete the stale keys, stop when nothing was selected
and nothing promoted, otherwise delete the consumed keys, insert the
promoted transactions, and iterate.  Returns the selected records with
the final selection index and storage.  The fuel argument dominates the
number of iterations; every productive iteration removes at least one
record from storage, so `entries.length + 1` suffices. -/
def gatherLoop (maxFee : PoolTx → Option Nat) :
    Nat → List (Key × Nat) → Entries → Nat → Nat → Nat →
    List StorageData × List (Key × Nat) × Entries
  | 0, sorted, entries, _, _, _ => ([], sorted, entries)
  | fuel + 1, sorted, entries, gas_left, space_left, nb_left =>
    if gas_left > 0 ∧ nb_left > 0 ∧ space_left > 0 ∧ ¬sorted.isEmpty then
      let st := gatherPass maxFee sorted
        { gas_left := gas_left, space_left := space_left, nb_left := nb_left
          entries := entries, clean_up_list := [], transactions_to_remove := []
          transactions_to_promote := [], result := [] }
      let sorted1 := st.transactions_to_remove.foldl orderedRemove sorted
      if st.clean_up_list.isEmpty ∧ st.transactions_to_promote.isEmpty then
        (st.result, sorted1, st.entries)
      else
        let sorted2 := st.clean_up_list.foldl orderedRemove sorted1
        let sorted3 := st.transactions_to_promote.foldl (fun s i =>
          match getEntry st.entries i with
          | some d => orderedInsert s (selectionKey d) i
          | none => s) sorted2
        let tail := gatherLoop maxFee fuel sorted3 st.entries
          st.gas_left st.space_left st.nb_left
        (st.result ++ tail.1, tail.2.1, tail.2.2)
    else ([], sorted, entries)

/-- Embeds `RatioTipGasSelection::gather_best_txs` applied to a selection
index and a storage. -/
def gatherBestTxs (maxFee : PoolTx → Option Nat) (c : Constraints)
    (sorted : List (Key × Nat)) (entries : Entries) :
    List StorageData × List (Key × Nat) × Entries :=
  gatherLoop maxFee (entries.length + 1) sorted entries
    c.max_gas c.maximum_block_size c.maximum_txs

/-- Embeds `Pool::extract_transactions_for_block`: delegate to the
selection algorithm under the `max_block_gas` constraint, then update the
components and caches for each removed record. -/
def Pool.extract_transactions_for_block (p : Pool)
    (maxFee : PoolTx → Option Nat) : Pool × List PoolTx :=
  let r := gatherBestTxs maxFee
    { max_gas := p.config.max_block_gas
      maximum_block_size := USIZEMAX
      maximum_txs := USIZEMAX }
    p.exec_sorted p.entries
  let p1 := { p with exec_sorted := r.2.1, entries := r.2.2 }
  (p1.update_on_removal r.1, r.1.map (·.transaction))

/-- Repeated extraction until a call returns no transaction, as in the
stability test: returns the final pool together with everything
extracted, in extraction order. -/
def drainLoop (maxFee : PoolTx → Option Nat) :
    Nat → Pool → Pool × List PoolTx
  | 0, p => (p, [])
  | fuel + 1, p =>
    let r := p.extract_transactions_for_block maxFee
    if r.2.isEmpty then (r.1, [])
    else
      let tail := drainLoop maxFee fuel r.1
      (tail.1, r.2 ++ tail.2)

/-- The multiset of transactions currently held in storage. -/
def poolTxs (p : Pool) : List PoolTx := p.entries.map (·.2.transaction)

/-- Sum of `max_gas` over the records of an arena. -/
def sumGas (entries : Entries) : Nat :=
  (entries.map (·.2.transaction.max_gas)).sum

/-- Sum of `metered_bytes_size` over the records of an arena. -/
def sumBytes (entries : Entries) : Nat :=
  (entries.map (·.2.transaction.metered_bytes_size)).sum

/-!  Concrete fixtures used by witnesses and counterexamples. -/

/-- A persistent view with nothing in it. -/
def sampleView : View :=
  { coins := [], messages := [], spent_messages := [], blobs := [] }

/-- A benign configuration for concrete runs. -/
def sampleConfig : Config where
  utxo_validation := false
  max_block_gas := 1000
  max_txs_chain_count := 8
  pool_limits := { max_txs := 10, max_gas := 10000, max_bytes_size := 10000 }
  blacklisted_tx_ids := []

/-- The empty pool over `sampleConfig`. -/
def emptyPool : Pool where
  config := sampleConfig
  view := some sampleView
  entries := []
  next_free_index := 0
  exec_sorted := []
  tx_id_to_storage_id := []
  current_gas := 0
  current_bytes_size := 0

/-- A script-like transaction with the given id, tip, gas, size and
inputs. -/
def mkTx (id tip gas sz : Nat) (utxos : List (Nat × Nat))
    (msgs : List Nat) : PoolTx where
  tx_id := id
  tip := tip
  max_gas := gas
  metered_bytes_size := sz
  utxo_inputs := utxos
  message_inputs := msgs
  blob_id := none
  max_fee_limit := 100

/-- A fee oracle under which every transaction is gas-price valid. -/
def feeZero : PoolTx → Option Nat := fun _ => some 0

/-!  Basic facts about the comparators. -/

theorem cmpNat_eq_iff {a b : Nat} : cmpNat a b = .eq ↔ a = b := by
  rcases Nat.lt_trichotomy a b with h | h | h
  · have h2 : a ≠ b := by omega
    simp [cmpNat, h, h2]
  · simp [cmpNat, h]
  · have h1 : ¬a < b := by omega
    have h2 : a ≠ b := by omega
    simp [cmpNat, h1, h2]

theorem cmpNat_gt_iff {a b : Nat} : cmpNat a b = .gt ↔ b < a := by
  rcases Nat.lt_trichotomy a b with h | h | h
  · simp [cmpNat, h]
    omega
  · simp [cmpNat, h]
  · have h1 : ¬a < b := by omega
    have h2 : a ≠ b := by omega
    simp [cmpNat, h1, h2, h]

theorem cmpNat_lt_iff {a b : Nat} : cmpNat a b = .lt ↔ a < b := by
  rcases Nat.lt_trichotomy a b with h | h | h
  · simp [cmpNat, h]
  · simp [cmpNat, h]
  · have h1 : ¬a < b := by omega
    have h2 : a ≠ b := by omega
    simp [cmpNat, h1, h2]

/-- Two executable transactions with equal tip/gas ratio and equal
creation instant, inserted with ids 1 and 2 at the same instant. -/
def tiePool : Pool :=
  (emptyPool.afterInsert (mkTx 1 1 1 10 [] []) 5).afterInsert
    (mkTx 2 1 1 10 [] []) 5

/-- C2, counterexample.  On a pool holding two executable transactions
with equal tip/gas ratio (both `1/1`) and equal creation instant (both
`5`), `gather_best_txs` selects the transaction with the
lexicographically HIGHER id (2) before the lower one (1), so the claimed
order `[1, 2]` does not occur. -/
theorem c2_counterexample :
    (tiePool.extract_transactions_for_block feeZero).2.map PoolTx.tx_id
        = [2, 1]
      ∧ [2, 1] ≠ ([1, 2] : List Nat) := by
  constructor
  · decide
  · decide

/-- C2, amended.  In `gather_best_txs` the selection index is walked in
descending `Key::cmp` order, so among executable transactions with equal
tip/gas ratio the one with the earlier `creation_instant` is selected
first, and among those with equal `creation_instant` the one with the
lexicographically GREATER `tx_id` is selected first (its key compares
greater). -/
theorem c2_selection_tie_breaks (k1 k2 : Key)
    (hd1 : 0 < k1.ratio_den) (hd2 : 0 < k2.ratio_den)
    (hr : k1.ratio_num * k2.ratio_den = k2.ratio_num * k1.ratio_den) :
    (k1.creation_instant < k2.creation_instant → keyCmp k1 k2 = .gt)
    ∧ (k1.creation_instant = k2.creation_instant → k2.tx_id < k1.tx_id →
        keyCmp k1 k2 = .gt) := by
  have hcmp : ratioCmp k1.ratio_num k1.ratio_den k2.ratio_num k2.ratio_den
      = .eq := by
    simp [ratioCmp, cmpNat_eq_iff, hr]
  constructor
  · intro hins
    have h2 : cmpNat k2.creation_instant k1.creation_instant = .gt :=
      cmpNat_gt_iff.mpr hins
    simp [keyCmp, hcmp, h2]
  · intro heq htx
    have h2 : cmpNat k2.creation_instant k1.creation_instant = .eq :=
      cmpNat_eq_iff.mpr heq.symm
    have h3 : cmpNat k1.tx_id k2.tx_id = .gt := cmpNat_gt_iff.mpr htx
    simp [keyCmp, hcmp, h2, h3]

/-- Witness for `c2_selection_tie_breaks` at concrete keys. -/
theorem c2_selection_tie_breaks_witness :
    keyCmp ⟨1, 1, 4, 7⟩ ⟨1, 1, 5, 9⟩ = .gt
      ∧ keyCmp ⟨1, 1, 5, 2⟩ ⟨1, 1, 5, 1⟩ = .gt :=
  ⟨(c2_selection_tie_breaks ⟨1, 1, 4, 7⟩ ⟨1, 1, 5, 9⟩ (by decide) (by decide)
      (by decide)).1 (by decide),
   (c2_selection_tie_breaks ⟨1, 1, 5, 2⟩ ⟨1, 1, 5, 1⟩ (by decide) (by decide)
      (by decide)).2 rfl (by decide)⟩

/-- A pool holding a single transaction with id 1. -/
def singlePool : Pool := emptyPool.afterInsert (mkTx 1 10 100 50 [] []) 0

/-- C4.  Every failing insert leaves the pool unchanged (no mutation
happens before `can_insert_transaction` succeeds), and inserting a
transaction whose id is already in the pool fails with `DuplicateTxId`
(provided the pipeline reaches the duplicate check: the persistent view
is available and the transaction has non-zero gas). -/
theorem c4_insert_error_unchanged (p : Pool) (tx : PoolTx) (now : Nat) :
    (∀ e, p.insert tx now = .error e → p.afterInsert tx now = p)
    ∧ (∀ v, p.view = some v → tx.max_gas ≠ 0 →
        tx.tx_id ∈ p.tx_id_to_storage_id.map (·.1) →
        p.insert tx now = .error (.DuplicateTxId tx.tx_id)) := by
  constructor
  · intro e he
    simp [Pool.afterInsert, he]
  · intro v hv h0 hmem
    have hfind : (p.tx_id_to_storage_id.find? (fun e => e.1 = tx.tx_id)).isSome
        = true := by
      rw [List.find?_isSome]
      rcases List.mem_map.mp hmem with ⟨e, hel, hee⟩
      exact ⟨e, hel, by simp [hee]⟩
    simp [Pool.insert, Pool.can_insert_transaction, hv, h0, hfind]

/-- Witness for `c4_insert_error_unchanged`: re-inserting id 1 into
`singlePool` fails with `DuplicateTxId 1` and leaves the pool unchanged. -/
theorem c4_insert_error_unchanged_witness :
    singlePool.insert (mkTx 1 3 100 50 [] []) 2 = .error (.DuplicateTxId 1)
      ∧ singlePool.afterInsert (mkTx 1 3 100 50 [] []) 2 = singlePool := by
  have h := c4_insert_error_unchanged singlePool (mkTx 1 3 100 50 [] []) 2
  have hdup := h.2 sampleView (by decide) (by decide) (by decide)
  exact ⟨hdup, h.1 _ hdup⟩

/-- When the first eight steps of the admission pipeline succeed, the
outcome of `can_insert_transaction` is decided by the collision
requirement and the space check, as in the source. -/
theorem can_insert_pipeline_tail (p : Pool) (tx : PoolTx) (v : View)
    (checked : CheckedTx) (cs : List Nat)
    (hv : p.view = some v) (h0 : tx.max_gas ≠ 0)
    (hdup : tx.tx_id ∉ p.tx_id_to_storage_id.map (·.1))
    (hbl : tx.tx_id ∉ p.config.blacklisted_tx_ids)
    (hblob : checkBlobDoesNotExist tx v = .ok ())
    (hval : validateInputs p.entries tx v p.config.utxo_validation = .ok ())
    (hcols : findCollisions p.entries tx = cs)
    (hcs : canStoreTransaction p.entries p.config tx = .ok checked)
    (hnocoldep :
      cs.any (fun c => checked.all_dependencies.contains c) = false) :
    p.can_insert_transaction tx =
      match checkCollisionRequirements p.entries tx
          (!checked.all_dependencies.isEmpty) cs with
      | .error e => .error e
      | .ok _ =>
        match p.can_fit_into_pool checked with
        | .error e => .error e
        | .ok .EnoughSpace => .ok ⟨checked, [], cs⟩
        | .ok (.NotEnoughSpace left) =>
          match p.find_free_space left checked with
          | .error e => .error e
          | .ok txs => .ok ⟨checked, txs, cs⟩ := by
  have hfind : p.tx_id_to_storage_id.find? (fun e => e.1 = tx.tx_id)
      = none := by
    rw [List.find?_eq_none]
    intro x hx
    simp only [decide_eq_true_eq]
    intro hx1
    exact hdup (List.mem_map.mpr ⟨x, hx, hx1⟩)
  have hblB : p.config.blacklisted_tx_ids.contains tx.tx_id = false := by
    simpa using hbl
  simp only [Pool.can_insert_transaction, hv, h0, if_false, hfind,
    Option.isSome_none, Bool.false_eq_true, hblB, hblob, hval, hcols, hcs,
    hnocoldep, ite_false, ite_true]

/-- A successful `canStoreTransaction` returns the candidate itself as
the checked transaction. -/
theorem canStore_tx_eq {entries : Entries} {cfg : Config} {tx : PoolTx}
    {checked : CheckedTx}
    (hcs : canStoreTransaction entries cfg tx = .ok checked) :
    checked.tx = tx := by
  simp only [canStoreTransaction] at hcs
  split at hcs
  · exact absurd hcs (by simp)
  · simp only [Except.ok.injEq] at hcs
    rw [← hcs]

/-- C6.  A candidate with dependencies whose admission would exceed a
pool limit (the projected saturating totals of gas, bytes or count
overshoot `pool_limits`) is rejected with `NotInsertedLimitHit` before
any eviction, leaving the pool unchanged; the hypotheses state that the
pipeline steps before the space check succeed and that the candidate has
no collisions. -/
theorem c6_dependent_candidate_never_evicts (p : Pool) (tx : PoolTx)
    (now : Nat) (v : View) (checked : CheckedTx)
    (hv : p.view = some v) (h0 : tx.max_gas ≠ 0)
    (hdup : tx.tx_id ∉ p.tx_id_to_storage_id.map (·.1))
    (hbl : tx.tx_id ∉ p.config.blacklisted_tx_ids)
    (hblob : checkBlobDoesNotExist tx v = .ok ())
    (hval : validateInputs p.entries tx v p.config.utxo_validation = .ok ())
    (hcols : findCollisions p.entries tx = [])
    (hcs : canStoreTransaction p.entries p.config tx = .ok checked)
    (hdeps : checked.all_dependencies ≠ [])
    (hlimit : ¬(satAdd64 p.current_gas tx.max_gas
          ≤ p.config.pool_limits.max_gas
        ∧ satAddUsize p.current_bytes_size tx.metered_bytes_size
          ≤ p.config.pool_limits.max_bytes_size
        ∧ satAddUsize p.tx_id_to_storage_id.length 1
          ≤ p.config.pool_limits.max_txs)) :
    p.insert tx now = .error .NotInsertedLimitHit
      ∧ p.afterInsert tx now = p := by
  have htx : checked.tx = tx := canStore_tx_eq hcs
  have hdepsB : checked.all_dependencies.isEmpty = false := by
    cases hC : checked.all_dependencies with
    | nil => exact absurd hC hdeps
    | cons a l => simp
  have hfit : p.can_fit_into_pool checked = .error .NotInsertedLimitHit := by
    unfold Pool.can_fit_into_pool
    rw [htx, if_neg hlimit]
    simp [hdepsB]
  have hcan := can_insert_pipeline_tail p tx v checked [] hv h0 hdup hbl
    hblob hval hcols hcs (by simp)
  have hccr : checkCollisionRequirements p.entries tx
      (!checked.all_dependencies.isEmpty) [] = .ok () := rfl
  simp only [hccr, hfit] at hcan
  have hins : p.insert tx now = .error .NotInsertedLimitHit := by
    simp only [Pool.insert, hcan]
  exact ⟨hins, by simp [Pool.afterInsert, hins]⟩

/-- A pool limited to a single transaction slot, holding transaction 1. -/
def tinyPool : Pool :=
  ({ emptyPool with
    config := { sampleConfig with
      pool_limits :=
        { max_txs := 1, max_gas := 10000, max_bytes_size := 10000 } } }
      : Pool).afterInsert (mkTx 1 5 100 10 [] []) 0

/-- Witness for `c6_dependent_candidate_never_evicts`: a one-slot pool
holding transaction 1; the dependent transaction 2 (spending output
`(1, 0)`) overflows `max_txs = 1` and is rejected with no eviction. -/
theorem c6_dependent_candidate_never_evicts_witness :
    tinyPool.insert (mkTx 2 10 100 10 [(1, 0)] []) 1
        = .error .NotInsertedLimitHit
      ∧ tinyPool.afterInsert (mkTx 2 10 100 10 [(1, 0)] []) 1 = tinyPool :=
  c6_dependent_candidate_never_evicts tinyPool (mkTx 2 10 100 10 [(1, 0)] [])
    1 sampleView ⟨mkTx 2 10 100 10 [(1, 0)] [], [0]⟩ (by decide) (by decide)
    (by decide) (by decide) (by rfl) (by rfl) (by decide) (by rfl)
    (by decide) (by decide)

/-- A collision requirement check that succeeds certifies that the
candidate's tip/gas ratio strictly exceeds the subtree ratio of every
collider. -/
theorem checkColReq_ok_strict {entries : Entries} {tx : PoolTx} {b : Bool}
    {l : List Nat}
    (h : checkCollisionRequirements entries tx b l = .ok ()) :
    ∀ c ∈ l, ratioGtB tx.tip tx.max_gas (subtreeTip entries c)
      (subtreeGas entries c) = true := by
  induction l with
  | nil => intro c hc; cases hc
  | cons a l ih =>
    intro c hc
    unfold checkCollisionRequirements at h
    split at h
    · cases h
    · split at h
      · rcases List.mem_cons.mp hc with rfl | hc2
        · assumption
        · exact ih h c hc2
      · cases h

/-- A candidate with dependencies fails the collision requirement check
whenever there is a collider at all. -/
theorem checkColReq_deps_error {entries : Entries} {tx : PoolTx}
    {l : List Nat} (hne : l ≠ []) :
    ∃ cid, checkCollisionRequirements entries tx true l
      = .error (.Collided cid) := by
  cases l with
  | nil => cases hne rfl
  | cons a l => exact ⟨entryTxId entries a, rfl⟩

/-- A collider whose subtree ratio is not strictly below the candidate's
ratio makes the collision requirement check fail with `Collided`. -/
theorem checkColReq_tie_error {entries : Entries} {tx : PoolTx}
    {l : List Nat} (c : Nat) (hc : c ∈ l)
    (heq : ratioGtB tx.tip tx.max_gas (subtreeTip entries c)
      (subtreeGas entries c) = false) :
    ∃ cid, checkCollisionRequirements entries tx false l
      = .error (.Collided cid) := by
  induction l with
  | nil => cases hc
  | cons a l ih =>
    rcases List.mem_cons.mp hc with rfl | hc2
    · exact ⟨entryTxId entries c, by simp [checkCollisionRequirements, heq]⟩
    · by_cases hA : ratioGtB tx.tip tx.max_gas (subtreeTip entries a)
          (subtreeGas entries a) = true
      · rcases ih hc2 with ⟨cid, hcid⟩
        exact ⟨cid, by simp [checkCollisionRequirements, hA, hcid]⟩
      · exact ⟨entryTxId entries a, by
          simp only [Bool.not_eq_true] at hA
          simp [checkCollisionRequirements, hA]⟩

/-- An admission check that fails makes `insert` fail with the same
error. -/
theorem insert_of_can_insert_error {p : Pool} {tx : PoolTx} {now : Nat}
    {e : Error} (h : p.can_insert_transaction tx = .error e) :
    p.insert tx now = .error e := by
  simp only [Pool.insert, h]

/-- C1.  For an insert whose candidate collides with pool transactions
(the pipeline otherwise passing): a candidate with dependencies fails
with `Collided`; a successful insert certifies that the candidate's
`tip / max_gas` ratio strictly exceeds the `subtree_tip / subtree_gas`
ratio of every collider; and for a dependency-free candidate an equal
ratio with any collider makes the insert fail with `Collided`. -/
theorem c1_collision_resolution (p : Pool) (tx : PoolTx) (now : Nat)
    (v : View) (checked : CheckedTx) (cs : List Nat)
    (hv : p.view = some v) (h0 : tx.max_gas ≠ 0)
    (hdup : tx.tx_id ∉ p.tx_id_to_storage_id.map (·.1))
    (hbl : tx.tx_id ∉ p.config.blacklisted_tx_ids)
    (hblob : checkBlobDoesNotExist tx v = .ok ())
    (hval : validateInputs p.entries tx v p.config.utxo_validation = .ok ())
    (hcols : findCollisions p.entries tx = cs)
    (hcs : canStoreTransaction p.entries p.config tx = .ok checked)
    (hnocoldep :
      cs.any (fun c => checked.all_dependencies.contains c) = false)
    (hne : cs ≠ []) :
    (checked.all_dependencies ≠ [] →
      ∃ cid, p.insert tx now = .error (.Collided cid))
    ∧ (∀ p2 rem, p.insert tx now = .ok (p2, rem) →
        ∀ c ∈ cs, ratioGtB tx.tip tx.max_gas (subtreeTip p.entries c)
          (subtreeGas p.entries c) = true)
    ∧ (checked.all_dependencies = [] →
        ∀ c ∈ cs, tx.tip * subtreeGas p.entries c
            = subtreeTip p.entries c * tx.max_gas →
        ∃ cid, p.insert tx now = .error (.Collided cid)) := by
  have hcan := can_insert_pipeline_tail p tx v checked cs hv h0 hdup hbl
    hblob hval hcols hcs hnocoldep
  refine ⟨?_, ?_, ?_⟩
  · intro hdeps
    have hb : (!checked.all_dependencies.isEmpty) = true := by
      cases hC : checked.all_dependencies with
      | nil => exact absurd hC hdeps
      | cons a l => simp
    rcases @checkColReq_deps_error p.entries tx cs hne
      with ⟨cid, hcr⟩
    rw [hb] at hcan
    simp only [hcr] at hcan
    exact ⟨cid, insert_of_can_insert_error hcan⟩
  · intro p2 rem hok
    cases hcr : checkCollisionRequirements p.entries tx
        (!checked.all_dependencies.isEmpty) cs with
    | error e =>
      simp only [hcr] at hcan
      rw [@insert_of_can_insert_error p tx now _ hcan] at hok
      cases hok
    | ok u =>
      cases u
      exact checkColReq_ok_strict hcr
  · intro hdeps c hc heq
    have hb : (!checked.all_dependencies.isEmpty) = false := by
      rw [hdeps]; simp
    have hgt : ratioGtB tx.tip tx.max_gas (subtreeTip p.entries c)
        (subtreeGas p.entries c) = false := by
      simp only [ratioGtB, decide_eq_false_iff_not]
      omega
    rcases @checkColReq_tie_error p.entries tx cs c hc hgt
      with ⟨cid, hcr⟩
    rw [hb] at hcan
    simp only [hcr] at hcan
    exact ⟨cid, insert_of_can_insert_error hcan⟩

/-- A pool holding a single executable transaction spending message 7. -/
def msgPool : Pool := emptyPool.afterInsert (mkTx 1 1 100 10 [] [7]) 0

/-- Witness for `c1_collision_resolution`: inserting a dependency-free
candidate that spends the same message with an equal tip/gas ratio fails
with `Collided`. -/
theorem c1_collision_resolution_witness :
    ∃ cid, msgPool.insert (mkTx 2 1 100 10 [] [7]) 1
      = .error (.Collided cid) :=
  (c1_collision_resolution msgPool (mkTx 2 1 100 10 [] [7]) 1 sampleView
      ⟨mkTx 2 1 100 10 [] [7], []⟩ [0] (by decide) (by decide) (by decide)
      (by decide) (by rfl) (by rfl) (by decide) (by rfl) (by decide)
      (by decide)).2.2 rfl 0 (by decide) (by decide)

/-- Total `max_gas` of a list of selected records. -/
def sumTxGas (l : List StorageData) : Nat :=
  (l.map (·.transaction.max_gas)).sum

theorem sumTxGas_append (a b : List StorageData) :
    sumTxGas (a ++ b) = sumTxGas a + sumTxGas b := by
  simp [sumTxGas]

/-- Through one pass of `gather_best_txs`, the selected gas plus the
remaining gas budget is conserved: a transaction is only selected when it
fits the remaining budget, so the saturating subtraction is exact. -/
theorem gatherPass_gas_invariant (maxFee : PoolTx → Option Nat)
    (l : List (Key × Nat)) :
    ∀ st : PassState,
      sumTxGas (gatherPass maxFee l st).result
          + (gatherPass maxFee l st).gas_left
        = sumTxGas st.result + st.gas_left := by
  induction l with
  | nil => intro st; rfl
  | cons kv l ih =>
    intro st
    obtain ⟨key, storage_id⟩ := kv
    rcases hget : getEntry st.entries storage_id with _ | stored
    · simp only [gatherPass, hget]
      exact ih { st with
        transactions_to_remove := st.transactions_to_remove ++ [key] }
    · simp only [gatherPass, hget]
      split
      · exact ih st
      · split
        · exact ih st
        · rename_i hfit
          rw [ih]
          simp only [sumTxGas, List.map_append, List.sum_append,
            List.map_cons, List.map_nil, List.sum_cons, List.sum_nil, satSub]
          omega

/-- Through the `while` loop of `gather_best_txs`, the total gas of the
result never exceeds the initial gas budget. -/
theorem gatherLoop_gas_bound (maxFee : PoolTx → Option Nat) :
    ∀ (fuel : Nat) (sorted : List (Key × Nat)) (entries : Entries)
      (g s n : Nat),
      sumTxGas (gatherLoop maxFee fuel sorted entries g s n).1 ≤ g := by
  intro fuel
  induction fuel with
  | zero => intro sorted entries g s n; simp [gatherLoop, sumTxGas]
  | succ fuel ih =>
    intro sorted entries g s n
    have hpass := gatherPass_gas_invariant maxFee sorted
      { gas_left := g, space_left := s, nb_left := n
        entries := entries, clean_up_list := [], transactions_to_remove := []
        transactions_to_promote := [], result := [] }
    simp only [gatherLoop]
    generalize hst : gatherPass maxFee sorted
      { gas_left := g, space_left := s, nb_left := n
        entries := entries, clean_up_list := [], transactions_to_remove := []
        transactions_to_promote := [], result := [] } = st at hpass ⊢
    simp only [sumTxGas, List.map_nil, List.sum_nil, Nat.zero_add] at hpass
    split
    · split
      · simp only [sumTxGas] at hpass ⊢
        omega
      · rw [sumTxGas_append]
        have htail : ∀ s3, sumTxGas (gatherLoop maxFee fuel s3 st.entries
            st.gas_left st.space_left st.nb_left).1 ≤ st.gas_left :=
          fun s3 => ih s3 st.entries st.gas_left st.space_left st.nb_left
        refine le_trans (Nat.add_le_add_left (htail _) _) ?_
        simp only [sumTxGas] at hpass ⊢
        omega
    · simp [sumTxGas]

/-- C7.  The total `max_gas` of the transactions returned by one call to
`extract_transactions_for_block` never exceeds the configured
`max_block_gas`: each transaction is selected only when it fits the
remaining gas budget at that moment. -/
theorem c7_block_gas_bound (p : Pool) (maxFee : PoolTx → Option Nat) :
    ((p.extract_transactions_for_block maxFee).2.map (·.max_gas)).sum
      ≤ p.config.max_block_gas := by
  have h := gatherLoop_gas_bound maxFee (p.entries.length + 1) p.exec_sorted
    p.entries p.config.max_block_gas USIZEMAX USIZEMAX
  simp only [Pool.extract_transactions_for_block, gatherBestTxs]
  simpa [sumTxGas, List.map_map, Function.comp] using h

/-- A successful insert leaves both aggregates clamped within the machine
bounds: the final update is a saturating addition. -/
theorem insert_ok_agg_bound {p : Pool} {tx : PoolTx} {now : Nat}
    {r : Pool × List PoolTx} (h : p.insert tx now = .ok r) :
    r.1.current_gas ≤ U64MAX ∧ r.1.current_bytes_size ≤ USIZEMAX := by
  simp only [Pool.insert] at h
  cases hcan : p.can_insert_transaction tx with
  | error e => rw [hcan] at h; cases h
  | ok can =>
    rw [hcan] at h
    simp only [Except.ok.injEq] at h
    rw [← h]
    split
    · exact ⟨Nat.min_le_right _ _, Nat.min_le_right _ _⟩
    · exact ⟨Nat.min_le_right _ _, Nat.min_le_right _ _⟩

/-- Updating components on removal only decreases the aggregates. -/
theorem update_on_removal_agg_le (l : List StorageData) :
    ∀ q : Pool, (q.update_on_removal l).current_gas ≤ q.current_gas
      ∧ (q.update_on_removal l).current_bytes_size ≤ q.current_bytes_size := by
  induction l with
  | nil => intro q; exact ⟨le_refl _, le_refl _⟩
  | cons d l ih =>
    intro q
    refine ⟨le_trans (ih _).1 (Nat.sub_le _ _),
      le_trans (ih _).2 (Nat.sub_le _ _)⟩

/-- A pool whose gas limit is `u64::MAX`, after inserting a transaction
of `max_gas = u64::MAX` and then one of `max_gas = 10`: the saturating
addition clamps `current_gas`. -/
def overflowPool : Pool :=
  (({ emptyPool with
    config := { sampleConfig with
      pool_limits :=
        { max_txs := 10, max_gas := U64MAX, max_bytes_size := 10000 } } }
      : Pool).afterInsert (mkTx 1 0 U64MAX 1 [] []) 0).afterInsert
    (mkTx 2 0 10 1 [] []) 1

/-- C10.  The pool aggregates are maintained with saturating arithmetic:
starting from aggregates within the `u64`/`usize` ranges, any insert
(successful or failing) and any extraction leaves them within range, so
no overflow or underflow is possible; and near the bound the aggregates
clamp instead of wrapping, which makes them inexact — in `overflowPool`
the stored gas sum is `u64::MAX + 10` while `current_gas` is clamped to
`u64::MAX`. -/
theorem c10_saturating_aggregates (p : Pool) (tx : PoolTx) (now : Nat)
    (maxFee : PoolTx → Option Nat)
    (hg : p.current_gas ≤ U64MAX) (hb : p.current_bytes_size ≤ USIZEMAX) :
    ((p.afterInsert tx now).current_gas ≤ U64MAX
      ∧ (p.afterInsert tx now).current_bytes_size ≤ USIZEMAX)
    ∧ ((p.extract_transactions_for_block maxFee).1.current_gas ≤ U64MAX
      ∧ (p.extract_transactions_for_block maxFee).1.current_bytes_size
          ≤ USIZEMAX)
    ∧ (overflowPool.current_gas = U64MAX
      ∧ sumGas overflowPool.entries = U64MAX + 10) := by
  refine ⟨?_, ?_, by decide, by decide⟩
  · cases hins : p.insert tx now with
    | error e => simp only [Pool.afterInsert, hins]; exact ⟨hg, hb⟩
    | ok r =>
      simp only [Pool.afterInsert, hins]
      exact insert_ok_agg_bound hins
  · refine ⟨le_trans (update_on_removal_agg_le _ _).1 ?_,
      le_trans (update_on_removal_agg_le _ _).2 ?_⟩
    · exact hg
    · exact hb

/-- Witness for `c10_saturating_aggregates` at the empty pool. -/
theorem c10_saturating_aggregates_witness :
    (emptyPool.afterInsert (mkTx 1 1 2 3 [] []) 0).current_gas ≤ U64MAX :=
  ((c10_saturating_aggregates emptyPool (mkTx 1 1 2 3 [] []) 0 feeZero
    (by decide) (by decide)).1).1

/-!  Multiset views of the arena, used for the accounting proofs. -/

/-- The multiset of transactions of an arena. -/
def txsM (entries : Entries) : Multiset PoolTx :=
  (entries.map (·.2.transaction) : List PoolTx)

/-- The multiset of transactions of a list of records. -/
def dataTxsM (l : List StorageData) : Multiset PoolTx :=
  (l.map (·.transaction) : List PoolTx)

/-- The records of `entries` whose index belongs to `s`. -/
def removedPart (s : List Nat) (entries : Entries) : List StorageData :=
  (entries.filter (fun e => s.contains e.1)).map (·.2)

theorem txsM_cons (e : Nat × StorageData) (entries : Entries) :
    txsM (e :: entries) = e.2.transaction ::ₘ txsM entries := rfl

theorem dataTxsM_cons (d : StorageData) (l : List StorageData) :
    dataTxsM (d :: l) = d.transaction ::ₘ dataTxsM l := rfl

/-- Removing the indices in `s` splits the arena's transactions into the
surviving part and the removed part. -/
theorem removeIds_split (s : List Nat) (entries : Entries) :
    txsM (removeIds s entries) + dataTxsM (removedPart s entries)
      = txsM entries := by
  induction entries with
  | nil => rfl
  | cons e rest ih =>
    by_cases hc : e.1 ∈ s
    · have h1 : removeIds s (e :: rest) = removeIds s rest := by
        simp [removeIds, hc]
      have h2 : removedPart s (e :: rest) = e.2 :: removedPart s rest := by
        simp [removedPart, hc]
      rw [h1, h2, dataTxsM_cons, Multiset.add_cons, ih]
      rfl
    · have h1 : removeIds s (e :: rest)
          = (e.1, unlink s e.2) :: removeIds s rest := by
        simp [removeIds, hc]
      have h2 : removedPart s (e :: rest) = removedPart s rest := by
        simp [removedPart, hc]
      rw [h1, h2, txsM_cons]
      show e.2.transaction ::ₘ txsM (removeIds s rest)
          + dataTxsM (removedPart s rest) = _
      rw [Multiset.cons_add, ih]
      rfl

/-- Removing indices keeps the index column a sublist of the original. -/
theorem removeIds_fst_sublist (s : List Nat) (entries : Entries) :
    ((removeIds s entries).map (·.1)).Sublist (entries.map (·.1)) := by
  induction entries with
  | nil => simp [removeIds]
  | cons e rest ih =>
    by_cases hc : e.1 ∈ s
    · have h1 : removeIds s (e :: rest) = removeIds s rest := by
        simp [removeIds, hc]
      rw [h1]
      exact ih.cons _
    · have h1 : removeIds s (e :: rest)
          = (e.1, unlink s e.2) :: removeIds s rest := by
        simp [removeIds, hc]
      rw [h1]
      simpa using ih.cons₂ e.1

/-- A pointwise index- and transaction-preserving map leaves both arena
views unchanged. -/
theorem txsM_map_preserve (g : Nat × StorageData → Nat × StorageData)
    (h1 : ∀ e, (g e).1 = e.1)
    (h2 : ∀ e, (g e).2.transaction = e.2.transaction) (l : Entries) :
    txsM (l.map g) = txsM l ∧ (l.map g).map (·.1) = l.map (·.1) := by
  induction l with
  | nil => exact ⟨rfl, rfl⟩
  | cons e rest ih =>
    constructor
    · rw [List.map_cons, txsM_cons, txsM_cons, h2, (ih).1]
    · rw [List.map_cons, List.map_cons, List.map_cons, h1, (ih).2]

theorem decrementAncestors_preserve (ancestors : List Nat)
    (rootCum : Option StorageData) (e : Nat × StorageData) :
    (decrementAncestors ancestors rootCum e).1 = e.1
    ∧ (decrementAncestors ancestors rootCum e).2.transaction
        = e.2.transaction := by
  unfold decrementAncestors
  split
  · exact ⟨rfl, rfl⟩
  · exact ⟨rfl, rfl⟩

theorem propagateStore_preserve (deps ancestors : List Nat) (tx : PoolTx)
    (next : Nat) (e : Nat × StorageData) :
    (propagateStore deps ancestors tx next e).1 = e.1
    ∧ (propagateStore deps ancestors tx next e).2.transaction
        = e.2.transaction := by
  unfold propagateStore
  dsimp only
  constructor
  · split
    · rfl
    · rfl
  · split
    · dsimp only
      split
      · rfl
      · rfl
    · dsimp only
      split
      · rfl
      · rfl

theorem txsM_append (a b : Entries) : txsM (a ++ b) = txsM a + txsM b := by
  simp [txsM]

/-- The survivors of `removeSubtree` carry the arena transactions minus
the removed ones, and their indices form a sublist of the original. -/
theorem removeSubtree_spec (entries : Entries) (root : Nat) :
    txsM (removeSubtree entries root).2
        + dataTxsM (removeSubtree entries root).1 = txsM entries
    ∧ (((removeSubtree entries root).2.map (·.1)).Sublist
        (entries.map (·.1))) := by
  have hp := txsM_map_preserve
    (decrementAncestors (upClosure entries (closureFuel entries) []
      (((getEntry entries root).elim [] (·.parents))))
      (getEntry entries root))
    (fun e => (decrementAncestors_preserve _ _ e).1)
    (fun e => (decrementAncestors_preserve _ _ e).2)
    (removeIds (downClosure entries (closureFuel entries) [] [root]) entries)
  simp only [removeSubtree]
  refine ⟨?_, ?_⟩
  · rw [hp.1]
    exact removeIds_split _ entries
  · rw [hp.2]
    exact removeIds_fst_sublist _ entries

/-- Storing a transaction appends its record: the arena transactions gain
the candidate and the index column gains the fresh index. -/
theorem storeTransaction_spec (entries : Entries) (next : Nat)
    (checked : CheckedTx) (instant : Nat) :
    txsM (storeTransaction entries next checked instant)
        = checked.tx ::ₘ txsM entries
    ∧ (storeTransaction entries next checked instant).map (·.1)
        = entries.map (·.1) ++ [next] := by
  have hp := txsM_map_preserve
    (propagateStore checked.all_dependencies
      (upClosure entries (closureFuel entries) [] checked.all_dependencies)
      checked.tx next)
    (fun e => (propagateStore_preserve _ _ _ _ e).1)
    (fun e => (propagateStore_preserve _ _ _ _ e).2)
    entries
  simp only [storeTransaction]
  constructor
  · rw [txsM_append, hp.1]
    show txsM entries + (checked.tx ::ₘ 0) = _
    rw [Multiset.add_cons, add_zero]
  · rw [List.map_append, hp.2]
    rfl

/-- Total `metered_bytes_size` of a list of selected records. -/
def sumTxBytes (l : List StorageData) : Nat :=
  (l.map (·.transaction.metered_bytes_size)).sum

theorem dataTxsM_append (a b : List StorageData) :
    dataTxsM (a ++ b) = dataTxsM a + dataTxsM b := by
  simp [dataTxsM]

/-- Dropping a binding from the map erases its id from the id column. -/
theorem removeById_fst (m : List (Nat × Nat)) (t : Nat) :
    (removeById m t).map (·.1) = (m.map (·.1)).erase t := by
  induction m with
  | nil => rfl
  | cons kv rest ih =>
    obtain ⟨k, v⟩ := kv
    by_cases hk : k = t
    · subst hk
      simp [removeById, List.erase_cons]
    · simp [removeById, hk, List.erase_cons, ih]

/-- Folding list erasure over removed records subtracts their ids as a
multiset. -/
theorem foldl_erase_multiset (l : List StorageData) :
    ∀ ids : List Nat,
      ((l.foldl (fun ids d => ids.erase d.transaction.tx_id) ids
          : List Nat) : Multiset Nat)
        = (ids : Multiset Nat)
          - ((l.map (·.transaction.tx_id) : List Nat) : Multiset Nat) := by
  induction l with
  | nil => intro ids; simp
  | cons d l ih =>
    intro ids
    rw [List.foldl_cons, ih, List.map_cons, ← Multiset.cons_coe,
      Multiset.sub_cons, ← Multiset.coe_erase]

/-- Field-level description of `update_components_and_caches_on_removal`:
aggregates drop by the removed totals, the arena and configuration are
untouched, and the map loses the removed ids. -/
theorem update_on_removal_spec (l : List StorageData) :
    ∀ q : Pool,
      (q.update_on_removal l).current_gas = q.current_gas - sumTxGas l
      ∧ (q.update_on_removal l).current_bytes_size
          = q.current_bytes_size - sumTxBytes l
      ∧ (q.update_on_removal l).entries = q.entries
      ∧ (q.update_on_removal l).config = q.config
      ∧ (q.update_on_removal l).view = q.view
      ∧ (q.update_on_removal l).next_free_index = q.next_free_index
      ∧ (q.update_on_removal l).tx_id_to_storage_id.map (·.1)
          = l.foldl (fun ids d => ids.erase d.transaction.tx_id)
              (q.tx_id_to_storage_id.map (·.1)) := by
  induction l with
  | nil =>
    intro q
    refine ⟨?_, ?_, rfl, rfl, rfl, rfl, rfl⟩
    · simp [Pool.update_on_removal, sumTxGas]
    · simp [Pool.update_on_removal, sumTxBytes]
  | cons d l ih =>
    intro q
    obtain ⟨hg, hb, he, hc, hv, hn, hm⟩ := ih
      { q with
        current_gas := satSub q.current_gas d.transaction.max_gas
        current_bytes_size :=
          satSub q.current_bytes_size d.transaction.metered_bytes_size
        tx_id_to_storage_id :=
          removeById q.tx_id_to_storage_id d.transaction.tx_id
        exec_sorted := orderedRemove q.exec_sorted (selectionKey d) }
    simp only [Pool.update_on_removal, List.foldl_cons] at hg hb he hc hv hn hm ⊢
    refine ⟨?_, ?_, he, hc, hv, hn, ?_⟩
    · rw [hg]
      simp only [sumTxGas, List.map_cons, List.sum_cons, satSub]
      omega
    · rw [hb]
      simp only [sumTxBytes, List.map_cons, List.sum_cons, satSub]
      omega
    · rw [hm, removeById_fst]

theorem sumTxBytes_append (a b : List StorageData) :
    sumTxBytes (a ++ b) = sumTxBytes a + sumTxBytes b := by
  simp [sumTxBytes]

/-- Field-level description of the removal loops of `Pool::insert`: each
root's subtree leaves the arena, the caches lose exactly the removed
records, and nothing else changes. -/
theorem removeMany_spec (roots : List Nat) :
    ∀ p : Pool, (p.entries.map (·.1)).Nodup →
      txsM (p.removeMany roots).1.entries + dataTxsM (p.removeMany roots).2
          = txsM p.entries
      ∧ (((p.removeMany roots).1.entries.map (·.1)).Sublist
          (p.entries.map (·.1)))
      ∧ (p.removeMany roots).1.config = p.config
      ∧ (p.removeMany roots).1.view = p.view
      ∧ (p.removeMany roots).1.next_free_index = p.next_free_index
      ∧ (p.removeMany roots).1.current_gas
          = p.current_gas - sumTxGas (p.removeMany roots).2
      ∧ (p.removeMany roots).1.current_bytes_size
          = p.current_bytes_size - sumTxBytes (p.removeMany roots).2
      ∧ ((p.removeMany roots).1.tx_id_to_storage_id.map (·.1) : Multiset Nat)
          = (p.tx_id_to_storage_id.map (·.1) : Multiset Nat)
            - (((p.removeMany roots).2.map (·.transaction.tx_id) : List Nat)
                : Multiset Nat) := by
  induction roots with
  | nil =>
    intro p hnd
    refine ⟨?_, ?_, rfl, rfl, rfl, ?_, ?_, ?_⟩
    · show txsM p.entries + dataTxsM [] = txsM p.entries
      rw [show dataTxsM [] = 0 from rfl, add_zero]
    · exact List.Sublist.refl _
    · show p.current_gas = p.current_gas - sumTxGas []
      simp [sumTxGas]
    · show p.current_bytes_size = p.current_bytes_size - sumTxBytes []
      simp [sumTxBytes]
    · show ((p.tx_id_to_storage_id.map (·.1) : List Nat) : Multiset Nat)
        = ((p.tx_id_to_storage_id.map (·.1) : List Nat) : Multiset Nat)
          - ((([] : List StorageData).map (·.transaction.tx_id)
              : List Nat) : Multiset Nat)
      simp
  | cons r rest ih =>
    intro p hnd
    obtain ⟨hs1, hs2⟩ := removeSubtree_spec p.entries r
    obtain ⟨hu1, hu2, hu3, hu4, hu5, hu6, hu7⟩ :=
      update_on_removal_spec (removeSubtree p.entries r).1
        { p with entries := (removeSubtree p.entries r).2 }
    have hndq : (((Pool.update_on_removal
        { p with entries := (removeSubtree p.entries r).2 }
        (removeSubtree p.entries r).1).entries).map (·.1)).Nodup := by
      rw [hu3]
      exact hs2.nodup hnd
    obtain ⟨ih1, ih2, ih3, ih4, ih5, ih6, ih7, ih8⟩ := ih _ hndq
    rw [hu3] at ih1 ih2
    have hqids : ((Pool.update_on_removal
        { p with entries := (removeSubtree p.entries r).2 }
        (removeSubtree p.entries r).1).tx_id_to_storage_id.map (·.1)
          : Multiset Nat)
        = (p.tx_id_to_storage_id.map (·.1) : Multiset Nat)
          - (((removeSubtree p.entries r).1.map (·.transaction.tx_id)
              : List Nat) : Multiset Nat) := by
      rw [hu7]
      exact foldl_erase_multiset _ _
    simp only [Pool.removeMany]
    refine ⟨?_, ?_, ?_, ?_, ?_, ?_, ?_, ?_⟩
    · rw [dataTxsM_append]
      rw [show txsM ((Pool.update_on_removal
          { p with entries := (removeSubtree p.entries r).2 }
          (removeSubtree p.entries r).1).removeMany rest).1.entries
          + (dataTxsM (removeSubtree p.entries r).1
            + dataTxsM ((Pool.update_on_removal
              { p with entries := (removeSubtree p.entries r).2 }
              (removeSubtree p.entries r).1).removeMany rest).2)
        = (txsM ((Pool.update_on_removal
            { p with entries := (removeSubtree p.entries r).2 }
            (removeSubtree p.entries r).1).removeMany rest).1.entries
          + dataTxsM ((Pool.update_on_removal
            { p with entries := (removeSubtree p.entries r).2 }
            (removeSubtree p.entries r).1).removeMany rest).2)
          + dataTxsM (removeSubtree p.entries r).1 from by
        rw [add_comm (dataTxsM (removeSubtree p.entries r).1), ← add_assoc]]
      rw [ih1]
      exact hs1
    · exact ih2.trans hs2
    · exact ih3.trans hu4
    · exact ih4.trans hu5
    · exact ih5.trans hu6
    · rw [ih6, hu1, sumTxGas_append]
      dsimp only
      omega
    · rw [ih7, hu2, sumTxBytes_append]
      dsimp only
      omega
    · rw [ih8, hqids, List.map_append]
      rw [show (((removeSubtree p.entries r).1.map (·.transaction.tx_id)
            ++ ((Pool.update_on_removal
              { p with entries := (removeSubtree p.entries r).2 }
              (removeSubtree p.entries r).1).removeMany
                rest).2.map (·.transaction.tx_id) : List Nat) : Multiset Nat)
          = ((removeSubtree p.entries r).1.map (·.transaction.tx_id)
              : List Nat)
            + (((Pool.update_on_removal
              { p with entries := (removeSubtree p.entries r).2 }
              (removeSubtree p.entries r).1).removeMany
                rest).2.map (·.transaction.tx_id) : List Nat) from rfl]
      rw [tsub_tsub]

/-- A successful admission check hands back the candidate itself inside
the checked transaction. -/
theorem can_insert_ok_tx {p : Pool} {tx : PoolTx} {can : CanStore}
    (h : p.can_insert_transaction tx = .ok can) :
    can.checked_transaction.tx = tx := by
  simp only [Pool.can_insert_transaction] at h
  split at h
  · cases h
  · split at h
    · cases h
    · split at h
      · cases h
      · split at h
        · cases h
        · split at h
          · cases h
          · split at h
            · cases h
            · split at h
              · cases h
              · rename_i checked hcs
                split at h
                · cases h
                · split at h
                  · cases h
                  · split at h
                    · cases h
                    · simp only [Except.ok.injEq] at h
                      rw [← h]
                      exact canStore_tx_eq hcs
                    · split at h
                      · cases h
                      · simp only [Except.ok.injEq] at h
                        rw [← h]
                        exact canStore_tx_eq hcs

/-- The state built by a successful `insert`, spelled out. -/
theorem insert_ok_eq {p : Pool} {tx : PoolTx} {now : Nat}
    {r : Pool × List PoolTx} (hins : p.insert tx now = .ok r) :
    ∃ can, p.can_insert_transaction tx = .ok can
      ∧ r = (if (!can.checked_transaction.all_dependencies.isEmpty)
             then p.insertCommit can now
             else { p.insertCommit can now with
               exec_sorted := orderedInsert (p.insertCommit can now).exec_sorted
                 (selectionKey (newStorageData can.checked_transaction now))
                 (p.afterRemovals can).next_free_index },
             (p.insertRemoved can).map (·.transaction)) := by
  simp only [Pool.insert] at hins
  cases hcan : p.can_insert_transaction tx with
  | error e => rw [hcan] at hins; cases hins
  | ok can =>
    rw [hcan] at hins
    simp only [Except.ok.injEq] at hins
    exact ⟨can, rfl, hins.symm⟩

/-- With distinct indices, the part removed for a present index is
exactly its record. -/
theorem removedPart_single {entries : Entries} {i : Nat}
    {stored : StorageData} (hnd : (entries.map (·.1)).Nodup)
    (hget : getEntry entries i = some stored) :
    removedPart [i] entries = [stored] := by
  induction entries with
  | nil => cases hget
  | cons e rest ih =>
    simp only [List.map_cons, List.nodup_cons] at hnd
    by_cases he : e.1 = i
    · have hg2 : getEntry (e :: rest) i = some e.2 := by
        simp [getEntry, List.find?_cons, he]
      rw [hg2] at hget
      have hstored : stored = e.2 := by
        simpa using hget.symm
      have hni : ∀ x ∈ rest, x.1 ≠ i := by
        intro x hx hxi
        exact hnd.1 (List.mem_map.mpr ⟨x, hx, by rw [hxi, he]⟩)
      have hrest : List.filter (fun e => [i].contains e.1) rest = [] := by
        rw [List.filter_eq_nil_iff]
        intro a ha
        simp [hni a ha]
      have hcond : ([i].contains e.1) = true := by simp [he]
      show (List.filter (fun e => [i].contains e.1) (e :: rest)).map (·.2)
          = [stored]
      rw [List.filter_cons, hcond]
      simp only [if_true, List.map_cons, hstored]
      simp only [List.cons.injEq, true_and]
      rw [List.map_eq_nil_iff]
      rw [List.filter_eq_nil_iff]
      intro a ha
      simp [hni a ha]
    · have hg2 : getEntry (e :: rest) i = getEntry rest i := by
        simp [getEntry, List.find?_cons, he]
      rw [hg2] at hget
      have ih2 := ih hnd.2 hget
      have hcond : ([i].contains e.1) = false := by simp [he]
      show (List.filter (fun e => [i].contains e.1) (e :: rest)).map (·.2)
          = [stored]
      rw [List.filter_cons, hcond]
      simpa [removedPart] using ih2

/-- Removing a present index from an arena with distinct indices takes
out exactly its record. -/
theorem removeEntry_txs {entries : Entries} {i : Nat} {stored : StorageData}
    (hnd : (entries.map (·.1)).Nodup)
    (hget : getEntry entries i = some stored) :
    stored.transaction ::ₘ txsM (removeEntry entries i) = txsM entries
    ∧ ((removeEntry entries i).map (·.1)).Sublist (entries.map (·.1)) := by
  constructor
  · have h := removeIds_split [i] entries
    rw [removedPart_single hnd hget] at h
    rw [show dataTxsM [stored] = stored.transaction ::ₘ 0 from rfl] at h
    rw [Multiset.add_cons, add_zero] at h
    exact h
  · exact removeIds_fst_sublist [i] entries

/-- One pass of `gather_best_txs` removes from storage exactly the
records it appends to the result. -/
theorem gatherPass_entries_spec (maxFee : PoolTx → Option Nat)
    (l : List (Key × Nat)) :
    ∀ st : PassState, (st.entries.map (·.1)).Nodup →
      ∃ added : List StorageData,
        (gatherPass maxFee l st).result = st.result ++ added
        ∧ txsM (gatherPass maxFee l st).entries + dataTxsM added
            = txsM st.entries
        ∧ ((gatherPass maxFee l st).entries.map (·.1)).Sublist
            (st.entries.map (·.1)) := by
  induction l with
  | nil =>
    intro st hnd
    exact ⟨[], by simp [gatherPass], by
      rw [show gatherPass maxFee [] st = st from rfl,
        show dataTxsM [] = 0 from rfl, add_zero], List.Sublist.refl _⟩
  | cons kv l ih =>
    intro st hnd
    obtain ⟨key, storage_id⟩ := kv
    rcases hget : getEntry st.entries storage_id with _ | stored
    · simp only [gatherPass, hget]
      exact ih { st with
        transactions_to_remove := st.transactions_to_remove ++ [key] } hnd
    · simp only [gatherPass, hget]
      split
      · exact ih st hnd
      · split
        · exact ih st hnd
        · have hrem := removeEntry_txs hnd hget
          obtain ⟨added2, h1, h2, h3⟩ := ih
            { gas_left := satSub st.gas_left stored.transaction.max_gas
              space_left :=
                satSub st.space_left stored.transaction.metered_bytes_size
              nb_left := satSub st.nb_left 1
              entries := removeEntry st.entries storage_id
              clean_up_list := st.clean_up_list ++ [key]
              transactions_to_remove := st.transactions_to_remove
              transactions_to_promote := st.transactions_to_promote
                ++ stored.children.filter
                  (fun d => !hasDependencies
                    (removeEntry st.entries storage_id) d)
              result := st.result ++ [stored] }
            (hrem.2.nodup hnd)
          refine ⟨stored :: added2, ?_, ?_, h3.trans hrem.2⟩
          · rw [h1, List.append_assoc]
            rfl
          · rw [dataTxsM_cons, Multiset.add_cons, h2]
            exact hrem.1

/-- The `while` loop of `gather_best_txs` removes from storage exactly
the records it returns, and only shrinks the index set. -/
theorem gatherLoop_entries_spec (maxFee : PoolTx → Option Nat) :
    ∀ (fuel : Nat) (sorted : List (Key × Nat)) (entries : Entries)
      (g s n : Nat), (entries.map (·.1)).Nodup →
      txsM (gatherLoop maxFee fuel sorted entries g s n).2.2
          + dataTxsM (gatherLoop maxFee fuel sorted entries g s n).1
        = txsM entries
      ∧ ((gatherLoop maxFee fuel sorted entries g s n).2.2.map
          (·.1)).Sublist (entries.map (·.1)) := by
  intro fuel
  induction fuel with
  | zero =>
    intro sorted entries g s n hnd
    refine ⟨?_, .refl _⟩
    show txsM entries + dataTxsM [] = txsM entries
    rw [show dataTxsM [] = 0 from rfl, add_zero]
  | succ fuel ih =>
    intro sorted entries g s n hnd
    obtain ⟨added, hres, htxs, hsub⟩ := gatherPass_entries_spec maxFee sorted
      { gas_left := g, space_left := s, nb_left := n
        entries := entries, clean_up_list := [], transactions_to_remove := []
        transactions_to_promote := [], result := [] } hnd
    simp only [List.nil_append] at hres
    simp only [gatherLoop]
    generalize hst : gatherPass maxFee sorted
      { gas_left := g, space_left := s, nb_left := n
        entries := entries, clean_up_list := [], transactions_to_remove := []
        transactions_to_promote := [], result := [] } = st at hres htxs hsub
    have hndst : (st.entries.map (·.1)).Nodup := hsub.nodup hnd
    split
    · split
      · rw [hres]
        exact ⟨htxs, hsub⟩
      · obtain ⟨ihtxs, ihsub⟩ := ih ((st.transactions_to_promote.foldl
            (fun s i =>
              match getEntry st.entries i with
              | some d => orderedInsert s (selectionKey d) i
              | none => s)
            (st.clean_up_list.foldl orderedRemove
              (st.transactions_to_remove.foldl orderedRemove sorted))))
          st.entries st.gas_left st.space_left st.nb_left hndst
        refine ⟨?_, ihsub.trans hsub⟩
        rw [hres, dataTxsM_append]
        rw [show ∀ (a b c : Multiset PoolTx), a + (b + c) = a + c + b from
          fun a b c => by
            rw [add_comm b c, add_assoc]]
        rw [ihtxs]
        exact htxs
    · refine ⟨?_, .refl _⟩
      show txsM entries + dataTxsM [] = txsM entries
      rw [show dataTxsM [] = 0 from rfl, add_zero]

/-- Sum and length consequences of a split of the arena transactions. -/
theorem sums_of_split {e1 : Entries} {l : List StorageData} {e2 : Entries}
    (h : txsM e1 + dataTxsM l = txsM e2) :
    sumGas e1 + sumTxGas l = sumGas e2
    ∧ sumBytes e1 + sumTxBytes l = sumBytes e2
    ∧ e1.length + l.length = e2.length
    ∧ ((e1.map (·.2.transaction.tx_id) : List Nat) : Multiset Nat)
        + ((l.map (·.transaction.tx_id) : List Nat) : Multiset Nat)
      = ((e2.map (·.2.transaction.tx_id) : List Nat) : Multiset Nat) := by
  refine ⟨?_, ?_, ?_, ?_⟩
  · have hg := congrArg (fun m => (Multiset.map (·.max_gas) m).sum) h
    simpa [txsM, dataTxsM, Multiset.map_add, Multiset.sum_add,
      Multiset.sum_coe, List.map_map, Function.comp, sumGas, sumTxGas]
      using hg
  · have hg := congrArg
      (fun m => (Multiset.map (·.metered_bytes_size) m).sum) h
    simpa [txsM, dataTxsM, Multiset.map_add, Multiset.sum_add,
      Multiset.sum_coe, List.map_map, Function.comp, sumBytes, sumTxBytes]
      using hg
  · have hg := congrArg Multiset.card h
    simpa [txsM, dataTxsM, Multiset.card_add] using hg
  · have hg := congrArg (Multiset.map (·.tx_id)) h
    simpa [txsM, dataTxsM, Multiset.map_add, List.map_map, Function.comp]
      using hg

/-- Sum and id consequences of storing one more transaction. -/
theorem sums_of_store {e1 e2 : Entries} {t : PoolTx}
    (h : txsM e1 = t ::ₘ txsM e2) :
    sumGas e1 = t.max_gas + sumGas e2
    ∧ sumBytes e1 = t.metered_bytes_size + sumBytes e2
    ∧ ((e1.map (·.2.transaction.tx_id) : List Nat) : Multiset Nat)
        = t.tx_id ::ₘ ((e2.map (·.2.transaction.tx_id) : List Nat)
            : Multiset Nat) := by
  refine ⟨?_, ?_, ?_⟩
  · have hg := congrArg (fun m => (Multiset.map (·.max_gas) m).sum) h
    simpa [txsM, Multiset.map_cons, Multiset.sum_cons, Multiset.sum_coe,
      List.map_map, Function.comp, sumGas] using hg
  · have hg := congrArg
      (fun m => (Multiset.map (·.metered_bytes_size) m).sum) h
    simpa [txsM, Multiset.map_cons, Multiset.sum_cons, Multiset.sum_coe,
      List.map_map, Function.comp, sumBytes] using hg
  · have hg := congrArg (Multiset.map (·.tx_id)) h
    simpa [txsM, Multiset.map_cons, List.map_map, Function.comp] using hg

/-- The aggregate invariant of the pool (invariant I1 of the spec,
strengthened with the arena-index bookkeeping needed to maintain it):
`current_gas` and `current_bytes_size` are the exact sums over the stored
transactions, the `tx_id → storage_id` map holds exactly the stored ids,
the arena indices are distinct, and all of them are below the next free
index. -/
structure AggInv (p : Pool) : Prop where
  gas_exact : p.current_gas = sumGas p.entries
  bytes_exact : p.current_bytes_size = sumBytes p.entries
  map_ids : (p.tx_id_to_storage_id.map (·.1) : Multiset Nat)
      = ((p.entries.map (·.2.transaction.tx_id) : List Nat) : Multiset Nat)
  idx_nodup : (p.entries.map (·.1)).Nodup
  idx_lt : ∀ i ∈ p.entries.map (·.1), i < p.next_free_index

/-- The count aggregate: the map has exactly one binding per stored
transaction. -/
theorem AggInv.count {p : Pool} (h : AggInv p) :
    p.tx_id_to_storage_id.length = p.entries.length := by
  have hc := congrArg Multiset.card h.map_ids
  simpa using hc

/-- The empty pool satisfies the aggregate invariant. -/
theorem AggInv.empty : AggInv emptyPool := by
  constructor
  · rfl
  · rfl
  · rfl
  · exact List.nodup_nil
  · intro i hi; cases hi

/-- The aggregate invariant ignores the selection index. -/
theorem AggInv_exec_irrel {q : Pool} (x : List (Key × Nat)) (h : AggInv q) :
    AggInv { q with exec_sorted := x } := by
  obtain ⟨h1, h2, h3, h4, h5⟩ := h
  exact ⟨h1, h2, h3, h4, h5⟩

/-- Extraction preserves the aggregate invariant: the removed records are
deducted exactly from the aggregates and the map. -/
theorem extract_preserves_AggInv (p : Pool) (maxFee : PoolTx → Option Nat)
    (h : AggInv p) :
    AggInv (p.extract_transactions_for_block maxFee).1 := by
  obtain ⟨hsplit, hsub⟩ := gatherLoop_entries_spec maxFee
    (p.entries.length + 1) p.exec_sorted p.entries p.config.max_block_gas
    USIZEMAX USIZEMAX h.idx_nodup
  obtain ⟨hgs, hbs, hls, hids⟩ := sums_of_split hsplit
  obtain ⟨hu1, hu2, hu3, hu4, hu5, hu6, hu7⟩ := update_on_removal_spec
    (gatherLoop maxFee (p.entries.length + 1) p.exec_sorted p.entries
      p.config.max_block_gas USIZEMAX USIZEMAX).1
    { p with
      exec_sorted := (gatherLoop maxFee (p.entries.length + 1) p.exec_sorted
        p.entries p.config.max_block_gas USIZEMAX USIZEMAX).2.1
      entries := (gatherLoop maxFee (p.entries.length + 1) p.exec_sorted
        p.entries p.config.max_block_gas USIZEMAX USIZEMAX).2.2 }
  simp only [Pool.extract_transactions_for_block, gatherBestTxs]
  constructor
  · rw [hu1, hu3]
    dsimp only
    rw [h.gas_exact]
    omega
  · rw [hu2, hu3]
    dsimp only
    rw [h.bytes_exact]
    omega
  · have hmap := congrArg (fun l : List Nat => (l : Multiset Nat)) hu7
    dsimp only at hmap
    rw [foldl_erase_multiset] at hmap
    rw [hmap, hu3, h.map_ids]
    dsimp only
    rw [← hids, add_tsub_cancel_right]
  · rw [hu3]
    exact hsub.nodup h.idx_nodup
  · intro i hi
    rw [hu6]
    rw [hu3] at hi
    dsimp only at hi ⊢
    exact h.idx_lt i (hsub.subset hi)

/-- The commit step of a successful insert preserves the aggregate
invariant, provided the new exact totals stay within the machine bounds
(so the saturating additions are exact). -/
theorem insertCommit_preserves_AggInv (p : Pool) (can : CanStore) (now : Nat)
    (h : AggInv p)
    (hgas : sumGas p.entries + can.checked_transaction.tx.max_gas ≤ U64MAX)
    (hbytes : sumBytes p.entries
        + can.checked_transaction.tx.metered_bytes_size ≤ USIZEMAX) :
    AggInv (p.insertCommit can now) := by
  obtain ⟨m11, m12, m13, m14, m15, m16, m17, m18⟩ :=
    removeMany_spec can.transactions_to_remove p h.idx_nodup
  have hnd1 := m12.nodup h.idx_nodup
  obtain ⟨m21, m22, m23, m24, m25, m26, m27, m28⟩ :=
    removeMany_spec can.collisions (p.removeMany can.transactions_to_remove).1
      hnd1
  obtain ⟨s1g, s1b, s1l, s1i⟩ := sums_of_split m11
  obtain ⟨s2g, s2b, s2l, s2i⟩ := sums_of_split m21
  obtain ⟨st1, st2⟩ := storeTransaction_spec
    ((p.removeMany can.transactions_to_remove).1.removeMany
      can.collisions).1.entries
    ((p.removeMany can.transactions_to_remove).1.removeMany
      can.collisions).1.next_free_index
    can.checked_transaction now
  obtain ⟨c1, c2, c3⟩ := sums_of_store st1
  have hnd2 := m22.nodup hnd1
  have hnext : ∀ i ∈ (((p.removeMany can.transactions_to_remove).1.removeMany
      can.collisions).1.entries.map (·.1)),
      i < ((p.removeMany can.transactions_to_remove).1.removeMany
        can.collisions).1.next_free_index := by
    intro i hi
    rw [m25, m15]
    exact h.idx_lt i (m12.subset (m22.subset hi))
  simp only [Pool.insertCommit, Pool.afterRemovals]
  constructor
  · show satAdd64 _ _ = sumGas (storeTransaction _ _ _ _)
    rw [c1, m26, m16, h.gas_exact]
    rw [show satAdd64 ((sumGas p.entries - sumTxGas
        (p.removeMany can.transactions_to_remove).2)
        - sumTxGas ((p.removeMany can.transactions_to_remove).1.removeMany
            can.collisions).2)
        can.checked_transaction.tx.max_gas
      = min (((sumGas p.entries - sumTxGas
          (p.removeMany can.transactions_to_remove).2)
          - sumTxGas ((p.removeMany can.transactions_to_remove).1.removeMany
              can.collisions).2)
          + can.checked_transaction.tx.max_gas) U64MAX from rfl]
    omega
  · show satAddUsize _ _ = sumBytes (storeTransaction _ _ _ _)
    rw [c2, m27, m17, h.bytes_exact]
    rw [show ∀ a b, satAddUsize a b = min (a + b) USIZEMAX from
      fun a b => rfl]
    omega
  · show ((_ ++ [(can.checked_transaction.tx.tx_id, _)]).map (·.1)
        : Multiset Nat) = _
    rw [List.map_append]
    rw [show ∀ (a : List (Nat × Nat)) (b : Nat × Nat),
        ((a.map (·.1) ++ [b].map (·.1) : List Nat) : Multiset Nat)
          = ((a.map (·.1) : List Nat) : Multiset Nat) + (b.1 ::ₘ 0) from ?_]
    · rw [m28, m18, h.map_ids, ← s1i, add_tsub_cancel_right, ← s2i,
        add_tsub_cancel_right]
      rw [Multiset.add_cons, add_zero, c3]
    · intro a b
      rfl
  · show ((storeTransaction _ _ _ _).map (·.1)).Nodup
    rw [st2, List.nodup_append]
    refine ⟨hnd2, List.nodup_singleton _, ?_⟩
    intro i hi hmem
    have : i = ((p.removeMany can.transactions_to_remove).1.removeMany
        can.collisions).1.next_free_index := by simpa using hmem
    have hlt := hnext i hi
    omega
  · intro i hi
    show i < _ + 1
    rw [st2] at hi
    rcases List.mem_append.mp hi with hi2 | hi2
    · have := hnext i hi2
      omega
    · have : i = ((p.removeMany can.transactions_to_remove).1.removeMany
          can.collisions).1.next_free_index := by simpa using hi2
      omega

/-- A successful or failing insert preserves the aggregate invariant,
provided the new exact totals stay within the machine bounds. -/
theorem insert_preserves_AggInv (p : Pool) (tx : PoolTx) (now : Nat)
    (h : AggInv p)
    (hgas : sumGas p.entries + tx.max_gas ≤ U64MAX)
    (hbytes : sumBytes p.entries + tx.metered_bytes_size ≤ USIZEMAX) :
    AggInv (p.afterInsert tx now) := by
  cases hins : p.insert tx now with
  | error e =>
    simp only [Pool.afterInsert, hins]
    exact h
  | ok r =>
    simp only [Pool.afterInsert, hins]
    obtain ⟨can, hcan, hr⟩ := insert_ok_eq hins
    have htx := can_insert_ok_tx hcan
    have hcommit : AggInv (p.insertCommit can now) :=
      insertCommit_preserves_AggInv p can now h (by rw [htx]; exact hgas)
        (by rw [htx]; exact hbytes)
    rw [hr]
    split
    · exact hcommit
    · exact AggInv_exec_irrel _ hcommit

/-- C3, counterexample.  `overflowPool` is reached from the empty pool by
two inserts; after the second insert the saturating addition clamps
`current_gas` at `u64::MAX`, so it no longer equals the exact sum of
`max_gas` over the live transactions (`u64::MAX + 10`). -/
theorem c3_counterexample :
    overflowPool.current_gas ≠ sumGas overflowPool.entries
      ∧ overflowPool.current_gas = U64MAX
      ∧ sumGas overflowPool.entries = U64MAX + 10 := by
  refine ⟨by decide, by decide, by decide⟩

/-- C3, amended.  After any insert and any block extraction from a state
satisfying the aggregate invariant, the aggregates remain exact —
`current_gas` and `current_bytes_size` equal the sums over the live
transactions and the id map has exactly one binding per stored
transaction — provided the exact totals stay within the `u64`/`usize`
ranges so that the saturating updates do not clamp. -/
theorem c3_aggregates_exact (p : Pool) (tx : PoolTx) (now : Nat)
    (maxFee : PoolTx → Option Nat) (hinv : AggInv p)
    (hgas : sumGas p.entries + tx.max_gas ≤ U64MAX)
    (hbytes : sumBytes p.entries + tx.metered_bytes_size ≤ USIZEMAX) :
    (AggInv (p.afterInsert tx now)
      ∧ (p.afterInsert tx now).tx_id_to_storage_id.length
          = (p.afterInsert tx now).entries.length)
    ∧ (AggInv (p.extract_transactions_for_block maxFee).1
      ∧ (p.extract_transactions_for_block
          maxFee).1.tx_id_to_storage_id.length
        = (p.extract_transactions_for_block maxFee).1.entries.length) := by
  have h1 := insert_preserves_AggInv p tx now hinv hgas hbytes
  have h2 := extract_preserves_AggInv p maxFee hinv
  exact ⟨⟨h1, h1.count⟩, ⟨h2, h2.count⟩⟩

/-- Witness for `c3_aggregates_exact` at the empty pool. -/
theorem c3_aggregates_exact_witness :
    AggInv (emptyPool.afterInsert (mkTx 1 1 2 3 [] []) 0) :=
  ((c3_aggregates_exact emptyPool (mkTx 1 1 2 3 [] []) 0 feeZero
    AggInv.empty (by decide) (by decide)).1).1

/-- Subtree byte aggregate of a stored record, defaulting to zero. -/
def subtreeBytes (entries : Entries) (i : Nat) : Nat :=
  (getEntry entries i).elim 0 (·.dependents_cumulative_bytes_size)

/-- Subtree chain count of a stored record, defaulting to zero. -/
def subtreeCount (entries : Entries) (i : Nat) : Nat :=
  (getEntry entries i).elim 0 (·.number_dependents_in_chain)

/-- Total subtree gas of a list of victims. -/
def sumSubGas (entries : Entries) (l : List Nat) : Nat :=
  (l.map (subtreeGas entries)).sum

/-- Total subtree bytes of a list of victims. -/
def sumSubBytes (entries : Entries) (l : List Nat) : Nat :=
  (l.map (subtreeBytes entries)).sum

/-- Total subtree chain count of a list of victims. -/
def sumSubCount (entries : Entries) (l : List Nat) : Nat :=
  (l.map (subtreeCount entries)).sum

/-- The condition driving the `while` loop of `find_free_space`: some
projected aggregate still exceeds its limit. -/
def overLimit (limits : PoolLimits) (g b t : Nat) : Prop :=
  g > limits.max_gas ∨ b > limits.max_bytes_size ∨ t > limits.max_txs

/-- Characterization of the `find_free_space` loop for a dependency-free
candidate over an iterator whose indices are all live: on success the
victims form a sublist of the iterator (taken in its order), each
victim's subtree ratio does not exceed the candidate's, and the projected
aggregates fit; on failure the error is `NotInsertedLimitHit`, reached
after consuming a prefix of not-exceeding victims that still leaves a
limit exceeded, with the iterator either exhausted or stopped at a victim
of strictly greater subtree ratio. -/
theorem findFreeSpaceLoop_spec (limits : PoolLimits) (entries : Entries)
    (tip gas : Nat) :
    ∀ (l : List Nat) (g b t : Nat),
      (∀ i ∈ l, ∃ d, getEntry entries i = some d) →
      (∀ vs, findFreeSpaceLoop limits entries [] tip gas l g b t = .ok vs →
        vs.Sublist l
        ∧ (∀ v ∈ vs, subtreeTip entries v * gas ≤ tip * subtreeGas entries v)
        ∧ ¬overLimit limits (g - sumSubGas entries vs)
            (b - sumSubBytes entries vs) (t - sumSubCount entries vs))
      ∧ (∀ e, findFreeSpaceLoop limits entries [] tip gas l g b t
            = .error e →
          e = .NotInsertedLimitHit
          ∧ ∃ pre suf, l = pre ++ suf
            ∧ (∀ v ∈ pre,
                subtreeTip entries v * gas ≤ tip * subtreeGas entries v)
            ∧ overLimit limits (g - sumSubGas entries pre)
                (b - sumSubBytes entries pre) (t - sumSubCount entries pre)
            ∧ (suf = [] ∨ ∃ j rest2, suf = j :: rest2
                ∧ tip * subtreeGas entries j
                    < subtreeTip entries j * gas)) := by
  intro l
  induction l with
  | nil =>
    intro g b t hlive
    by_cases hover : overLimit limits g b t
    · have heq : findFreeSpaceLoop limits entries [] tip gas [] g b t
          = .error .NotInsertedLimitHit := by
        rw [findFreeSpaceLoop,
          if_pos (show g > limits.max_gas ∨ b > limits.max_bytes_size
            ∨ t > limits.max_txs from hover)]
      constructor
      · intro vs hvs
        rw [heq] at hvs
        cases hvs
      · intro e he
        rw [heq] at he
        injection he with he
        refine ⟨he.symm, [], [], rfl, ?_, ?_, Or.inl rfl⟩
        · intro v hv
          cases hv
        · simpa [sumSubGas, sumSubBytes, sumSubCount] using hover
    · have heq : findFreeSpaceLoop limits entries [] tip gas [] g b t
          = .ok [] := by
        rw [findFreeSpaceLoop,
          if_neg (show ¬(g > limits.max_gas ∨ b > limits.max_bytes_size
            ∨ t > limits.max_txs) from hover)]
      constructor
      · intro vs hvs
        rw [heq] at hvs
        injection hvs with hvs
        rw [← hvs]
        refine ⟨.refl _, ?_, ?_⟩
        · intro v hv
          cases hv
        · simpa [sumSubGas, sumSubBytes, sumSubCount] using hover
      · intro e he
        rw [heq] at he
        cases he
  | cons i rest ih =>
    intro g b t hlive
    obtain ⟨d, hd⟩ := hlive i (List.mem_cons_self i rest)
    have hlive2 : ∀ j ∈ rest, ∃ d2, getEntry entries j = some d2 :=
      fun j hj => hlive j (List.mem_cons_of_mem i hj)
    have e1 : subtreeTip entries i = d.dependents_cumulative_tip := by
      simp [subtreeTip, hd]
    have e2 : subtreeGas entries i = d.dependents_cumulative_gas := by
      simp [subtreeGas, hd]
    have e3 : subtreeBytes entries i = d.dependents_cumulative_bytes_size :=
      by simp [subtreeBytes, hd]
    have e4 : subtreeCount entries i = d.number_dependents_in_chain := by
      simp [subtreeCount, hd]
    by_cases hover : overLimit limits g b t
    · have hstep : findFreeSpaceLoop limits entries [] tip gas (i :: rest)
          g b t
          = (if ratioGtB d.dependents_cumulative_tip
                d.dependents_cumulative_gas tip gas
             then .error .NotInsertedLimitHit
             else
               match findFreeSpaceLoop limits entries [] tip gas rest
                   (satSub g d.dependents_cumulative_gas)
                   (satSub b d.dependents_cumulative_bytes_size)
                   (satSub t d.number_dependents_in_chain) with
               | .error e => .error e
               | .ok l2 => .ok (i :: l2)) := by
        rw [findFreeSpaceLoop,
          if_pos (show g > limits.max_gas ∨ b > limits.max_bytes_size
            ∨ t > limits.max_txs from hover)]
        rw [show (([] : List Nat).contains i) = false from rfl]
        simp only [Bool.false_eq_true, if_false]
        rw [hd]
      by_cases hratio : ratioGtB d.dependents_cumulative_tip
          d.dependents_cumulative_gas tip gas = true
      · rw [hratio, if_pos rfl] at hstep
        constructor
        · intro vs hvs
          rw [hstep] at hvs
          cases hvs
        · intro e he
          rw [hstep] at he
          injection he with he
          refine ⟨he.symm, [], i :: rest, rfl, ?_, ?_,
            Or.inr ⟨i, rest, rfl, ?_⟩⟩
          · intro v hv
            cases hv
          · simpa [sumSubGas, sumSubBytes, sumSubCount] using hover
          · simp only [ratioGtB, decide_eq_true_eq] at hratio
            rw [e1, e2]
            omega
      · have hratio2 : ratioGtB d.dependents_cumulative_tip
            d.dependents_cumulative_gas tip gas = false :=
          Bool.not_eq_true _ ▸ (Bool.eq_false_iff.mpr hratio)
        rw [hratio2] at hstep
        simp only [Bool.false_eq_true, if_false] at hstep
        have hle : tip * d.dependents_cumulative_gas
            ≥ d.dependents_cumulative_tip * gas := by
          simp only [ratioGtB, decide_eq_false_iff_not, not_lt] at hratio2
          omega
        cases hrec : findFreeSpaceLoop limits entries [] tip gas rest
            (satSub g d.dependents_cumulative_gas)
            (satSub b d.dependents_cumulative_bytes_size)
            (satSub t d.number_dependents_in_chain) with
        | error e2 =>
          rw [hrec] at hstep
          constructor
          · intro vs hvs
            rw [hstep] at hvs
            cases hvs
          · intro e he
            rw [hstep] at he
            injection he with he
            obtain ⟨he3, pre, suf, hps, hpre, hover2, hsuf⟩ :=
              (ih _ _ _ hlive2).2 e2 hrec
            subst he
            refine ⟨he3, i :: pre, suf, by rw [hps]; rfl, ?_, ?_, hsuf⟩
            · intro v hv
              rcases List.mem_cons.mp hv with rfl | hv2
              · rw [e1, e2]
                omega
              · exact hpre v hv2
            · have hg : sumSubGas entries (i :: pre)
                  = d.dependents_cumulative_gas + sumSubGas entries pre := by
                simp [sumSubGas, subtreeGas, hd]
              have hb : sumSubBytes entries (i :: pre)
                  = d.dependents_cumulative_bytes_size
                    + sumSubBytes entries pre := by
                simp [sumSubBytes, subtreeBytes, hd]
              have ht : sumSubCount entries (i :: pre)
                  = d.number_dependents_in_chain
                    + sumSubCount entries pre := by
                simp [sumSubCount, subtreeCount, hd]
              rw [hg, hb, ht]
              simp only [overLimit, satSub] at hover2 ⊢
              omega
        | ok l2 =>
          rw [hrec] at hstep
          constructor
          · intro vs hvs
            rw [hstep] at hvs
            injection hvs with hvs
            obtain ⟨hsub, hles, hfit⟩ := ((ih _ _ _ hlive2).1 l2 hrec)
            rw [← hvs]
            refine ⟨hsub.cons₂ i, ?_, ?_⟩
            · intro v hv
              rcases List.mem_cons.mp hv with rfl | hv2
              · rw [e1, e2]
                omega
              · exact hles v hv2
            · have hg : sumSubGas entries (i :: l2)
                  = d.dependents_cumulative_gas + sumSubGas entries l2 := by
                simp [sumSubGas, subtreeGas, hd]
              have hb : sumSubBytes entries (i :: l2)
                  = d.dependents_cumulative_bytes_size
                    + sumSubBytes entries l2 := by
                simp [sumSubBytes, subtreeBytes, hd]
              have ht : sumSubCount entries (i :: l2)
                  = d.number_dependents_in_chain
                    + sumSubCount entries l2 := by
                simp [sumSubCount, subtreeCount, hd]
              rw [hg, hb, ht]
              simp only [overLimit, satSub, not_or, not_lt] at hfit ⊢
              omega
          · intro e he
            rw [hstep] at he
            cases he
    · have heq : findFreeSpaceLoop limits entries [] tip gas (i :: rest)
          g b t = .ok [] := by
        rw [findFreeSpaceLoop,
          if_neg (show ¬(g > limits.max_gas ∨ b > limits.max_bytes_size
            ∨ t > limits.max_txs) from hover)]
      constructor
      · intro vs hvs
        rw [heq] at hvs
        injection hvs with hvs
        rw [← hvs]
        refine ⟨List.nil_sublist _, ?_, ?_⟩
        · intro v hv
          cases hv
        · simpa [sumSubGas, sumSubBytes, sumSubCount] using hover
      · intro e he
        rw [heq] at he
        cases he

/-- C5, amended.  `find_free_space` walks the executable transactions in
ascending order of the selection key (per-transaction `tip / max_gas`
ratio, not subtree ratio): on success the victims are taken along that
iterator, each victim's subtree ratio does not exceed the candidate's
`tip / max_gas` ratio, and the projected aggregates all fit; on failure
the error is `NotInsertedLimitHit`, after a prefix of not-exceeding
victims that still leaves a limit exceeded, the iterator being exhausted
or stopped at a transaction of strictly greater subtree ratio. -/
theorem c5_find_free_space_order (p : Pool) (left : NotEnoughSpace)
    (checked : CheckedTx) (hdeps : checked.all_dependencies = [])
    (hExec : ∀ i ∈ p.get_less_worth_txs,
      ∃ d, getEntry p.entries i = some d ∧ d.parents = []) :
    (∀ vs, p.find_free_space left checked = .ok vs →
      vs.Sublist p.get_less_worth_txs
      ∧ (∀ v ∈ vs, ∃ d, getEntry p.entries v = some d ∧ d.parents = [])
      ∧ (∀ v ∈ vs, subtreeTip p.entries v * checked.tx.max_gas
          ≤ checked.tx.tip * subtreeGas p.entries v)
      ∧ ¬overLimit p.config.pool_limits
          (left.gas_left - sumSubGas p.entries vs)
          (left.bytes_left - sumSubBytes p.entries vs)
          (left.txs_left - sumSubCount p.entries vs))
    ∧ (∀ e, p.find_free_space left checked = .error e →
        e = .NotInsertedLimitHit
        ∧ ∃ pre suf, p.get_less_worth_txs = pre ++ suf
          ∧ (∀ v ∈ pre, subtreeTip p.entries v * checked.tx.max_gas
              ≤ checked.tx.tip * subtreeGas p.entries v)
          ∧ overLimit p.config.pool_limits
              (left.gas_left - sumSubGas p.entries pre)
              (left.bytes_left - sumSubBytes p.entries pre)
              (left.txs_left - sumSubCount p.entries pre)
          ∧ (suf = [] ∨ ∃ j rest2, suf = j :: rest2
              ∧ checked.tx.tip * subtreeGas p.entries j
                  < subtreeTip p.entries j * checked.tx.max_gas)) := by
  have hlive : ∀ i ∈ p.get_less_worth_txs,
      ∃ d, getEntry p.entries i = some d :=
    fun i hi => (hExec i hi).elim (fun d hd => ⟨d, hd.1⟩)
  have hspec := findFreeSpaceLoop_spec p.config.pool_limits p.entries
    checked.tx.tip checked.tx.max_gas p.get_less_worth_txs
    left.gas_left left.bytes_left left.txs_left hlive
  have hff : p.find_free_space left checked
      = findFreeSpaceLoop p.config.pool_limits p.entries [] checked.tx.tip
        checked.tx.max_gas p.get_less_worth_txs left.gas_left
        left.bytes_left left.txs_left := by
    simp only [Pool.find_free_space, hdeps]
  constructor
  · intro vs hvs
    rw [hff] at hvs
    obtain ⟨hsub, hles, hfit⟩ := hspec.1 vs hvs
    exact ⟨hsub, fun v hv => hExec v (hsub.subset hv), hles, hfit⟩
  · intro e he
    rw [hff] at he
    exact hspec.2 e he

/-- A pool with room for three transactions, holding an executable
transaction 1 (tip 1, gas 1) with a dependent child 2 (tip 100, gas 1)
and an executable transaction 3 (tip 2, gas 1). -/
def evictPool : Pool :=
  ((({ emptyPool with
    config := { sampleConfig with
      pool_limits :=
        { max_txs := 3, max_gas := 10000, max_bytes_size := 10000 } } }
      : Pool).afterInsert (mkTx 1 1 1 10 [] []) 0).afterInsert
    (mkTx 2 100 1 10 [(1, 0)] []) 1).afterInsert (mkTx 3 2 1 10 [] []) 2

/-- C5, counterexample.  In `evictPool` the `get_less_worth_txs` iterator
is `[0, 2]`, but the subtree ratio of index 0 (`101/2`) strictly exceeds
that of index 2 (`2/1`), so the order is NOT from lowest subtree ratio
upward; consequently inserting the executable candidate (tip 3, gas 1)
fails with `NotInsertedLimitHit` at the first iterator element, although
the later victim (index 2) has subtree ratio `2 ≤ 3` and evicting it
alone would bring every aggregate under its limit. -/
theorem c5_counterexample :
    evictPool.get_less_worth_txs = [0, 2]
    ∧ subtreeTip evictPool.entries 2 * subtreeGas evictPool.entries 0
        < subtreeTip evictPool.entries 0 * subtreeGas evictPool.entries 2
    ∧ evictPool.insert (mkTx 4 3 1 10 [] []) 3 = .error .NotInsertedLimitHit
    ∧ subtreeTip evictPool.entries 2 * 1 ≤ 3 * subtreeGas evictPool.entries 2
    ∧ sumGas (removeSubtree evictPool.entries 2).2 + 1
        ≤ evictPool.config.pool_limits.max_gas
    ∧ (evictPool.tx_id_to_storage_id.length - 1) + 1
        ≤ evictPool.config.pool_limits.max_txs
    ∧ sumBytes (removeSubtree evictPool.entries 2).2 + 10
        ≤ evictPool.config.pool_limits.max_bytes_size := by
  refine ⟨by decide, by decide, by decide, by decide, by decide, by decide,
    by decide⟩

/-- Witness for `c5_find_free_space_order`: evicting the only executable
transaction of `tinyPool` for a higher-ratio candidate. -/
theorem c5_find_free_space_order_witness :
    tinyPool.find_free_space ⟨200, 20, 2⟩ ⟨mkTx 2 50 100 10 [] [], []⟩
        = .ok [0]
    ∧ ([0] : List Nat).Sublist tinyPool.get_less_worth_txs
    ∧ ¬overLimit tinyPool.config.pool_limits
        (200 - sumSubGas tinyPool.entries [0])
        (20 - sumSubBytes tinyPool.entries [0])
        (2 - sumSubCount tinyPool.entries [0]) := by
  have hExec : ∀ i ∈ tinyPool.get_less_worth_txs,
      ∃ d, getEntry tinyPool.entries i = some d ∧ d.parents = [] := by
    intro i hi
    have h0 : tinyPool.get_less_worth_txs = [0] := by decide
    rw [h0] at hi
    have : i = 0 := by simpa using hi
    subst this
    exact ⟨{ transaction := mkTx 1 5 100 10 [] [], creation_instant := 0
             dependents_cumulative_tip := 5, dependents_cumulative_gas := 100
             dependents_cumulative_bytes_size := 10
             number_dependents_in_chain := 1, parents := [], children := [] },
      by decide, rfl⟩
  have h := (c5_find_free_space_order tinyPool ⟨200, 20, 2⟩
    ⟨mkTx 2 50 100 10 [] [], []⟩ rfl hExec).1 [0] (by decide)
  exact ⟨by decide, h.1, h.2.2.2⟩

/-!  Exact rational comparison arithmetic for `Key`, needed to reason
about the ordered selection index. -/

/-- Cross-multiplied strict < composes with strict <. -/
theorem cross_lt_lt {na da nb db nc dc : Nat} (hdc : 0 < dc)
    (h1 : nb * da < na * db) (h2 : nc * db < nb * dc) :
    nc * da < na * dc := by
  have key : nc * da * db < na * dc * db := by
    calc nc * da * db = nc * db * da := by ring
      _ ≤ nb * dc * da := mul_le_mul_right' (Nat.le_of_lt h2) da
      _ = nb * da * dc := by ring
      _ < na * db * dc := mul_lt_mul_of_pos_right h1 hdc
      _ = na * dc * db := by ring
  exact lt_of_mul_lt_mul_right key (Nat.zero_le _)

/-- Cross-multiplied equality composes with strict <. -/
theorem cross_eq_lt {na da nb db nc dc : Nat} (hda : 0 < da)
    (h1 : na * db = nb * da) (h2 : nc * db < nb * dc) :
    nc * da < na * dc := by
  have key : nc * da * db < na * dc * db := by
    calc nc * da * db = nc * db * da := by ring
      _ < nb * dc * da := mul_lt_mul_of_pos_right h2 hda
      _ = nb * da * dc := by ring
      _ = na * db * dc := by rw [h1]
      _ = na * dc * db := by ring
  exact lt_of_mul_lt_mul_right key (Nat.zero_le _)

/-- Cross-multiplied strict < composes with equality. -/
theorem cross_lt_eq {na da nb db nc dc : Nat} (hdc : 0 < dc)
    (h1 : nb * da < na * db) (h2 : nb * dc = nc * db) :
    nc * da < na * dc := by
  have key : nc * da * db < na * dc * db := by
    calc nc * da * db = nc * db * da := by ring
      _ = nb * dc * da := by rw [h2]
      _ = nb * da * dc := by ring
      _ < na * db * dc := mul_lt_mul_of_pos_right h1 hdc
      _ = na * dc * db := by ring
  exact lt_of_mul_lt_mul_right key (Nat.zero_le _)

/-- Cross-multiplied equality is transitive over a positive middle
denominator. -/
theorem cross_eq_eq {na da nb db nc dc : Nat} (hdb : 0 < db)
    (h1 : na * db = nb * da) (h2 : nb * dc = nc * db) :
    na * dc = nc * da := by
  have key : na * dc * db = nc * da * db := by
    calc na * dc * db = na * db * dc := by ring
      _ = nb * da * dc := by rw [h1]
      _ = nb * dc * da := by ring
      _ = nc * db * da := by rw [h2]
      _ = nc * da * db := by ring
  exact Nat.eq_of_mul_eq_mul_right hdb key

/-- Arithmetic characterization of `keyCmp _ _ = .eq`. -/
theorem keyCmp_eq_char {a b : Key} : keyCmp a b = .eq ↔
    a.ratio_num * b.ratio_den = b.ratio_num * a.ratio_den
    ∧ a.creation_instant = b.creation_instant ∧ a.tx_id = b.tx_id := by
  simp only [keyCmp, ratioCmp]
  by_cases h1 : cmpNat (a.ratio_num * b.ratio_den)
      (b.ratio_num * a.ratio_den) = .eq
  · rw [if_pos h1]
    have he := cmpNat_eq_iff.mp h1
    by_cases h2 : cmpNat b.creation_instant a.creation_instant = .eq
    · rw [if_pos h2]
      have hi := cmpNat_eq_iff.mp h2
      constructor
      · intro h3
        exact ⟨he, hi.symm, cmpNat_eq_iff.mp h3⟩
      · rintro ⟨_, _, h3⟩
        exact cmpNat_eq_iff.mpr h3
    · rw [if_neg h2]
      constructor
      · intro h3; exact absurd h3 h2
      · rintro ⟨_, h3, _⟩
        exact absurd (cmpNat_eq_iff.mpr h3.symm) h2
  · rw [if_neg h1]
    constructor
    · intro h3; exact absurd h3 h1
    · rintro ⟨h3, _, _⟩
      exact absurd (cmpNat_eq_iff.mpr h3) h1

/-- Arithmetic characterization of `keyCmp _ _ = .gt`. -/
theorem keyCmp_gt_char {a b : Key} : keyCmp a b = .gt ↔
    b.ratio_num * a.ratio_den < a.ratio_num * b.ratio_den
    ∨ (a.ratio_num * b.ratio_den = b.ratio_num * a.ratio_den
        ∧ (a.creation_instant < b.creation_instant
            ∨ (a.creation_instant = b.creation_instant
                ∧ b.tx_id < a.tx_id))) := by
  simp only [keyCmp, ratioCmp]
  by_cases h1 : cmpNat (a.ratio_num * b.ratio_den)
      (b.ratio_num * a.ratio_den) = .eq
  · rw [if_pos h1]
    have he := cmpNat_eq_iff.mp h1
    by_cases h2 : cmpNat b.creation_instant a.creation_instant = .eq
    · rw [if_pos h2]
      have hi := cmpNat_eq_iff.mp h2
      constructor
      · intro h3
        exact Or.inr ⟨he, Or.inr ⟨hi.symm, cmpNat_gt_iff.mp h3⟩⟩
      · rintro (h3 | ⟨_, h3 | ⟨_, h3⟩⟩)
        · exact absurd h3 (by omega)
        · exact absurd h3 (by omega)
        · exact cmpNat_gt_iff.mpr h3
    · rw [if_neg h2]
      constructor
      · intro h3
        exact Or.inr ⟨he, Or.inl (cmpNat_gt_iff.mp h3)⟩
      · rintro (h3 | ⟨_, h3 | ⟨h3, _⟩⟩)
        · exact absurd h3 (by omega)
        · exact cmpNat_gt_iff.mpr h3
        · exact absurd (cmpNat_eq_iff.mpr h3.symm) h2
  · rw [if_neg h1]
    constructor
    · intro h3
      exact Or.inl (cmpNat_gt_iff.mp h3)
    · rintro (h3 | ⟨h3, _⟩)
      · exact cmpNat_gt_iff.mpr h3
      · exact absurd (cmpNat_eq_iff.mpr h3) h1

/-- Arithmetic characterization of `keyCmp _ _ = .lt`. -/
theorem keyCmp_lt_char {a b : Key} : keyCmp a b = .lt ↔
    a.ratio_num * b.ratio_den < b.ratio_num * a.ratio_den
    ∨ (a.ratio_num * b.ratio_den = b.ratio_num * a.ratio_den
        ∧ (b.creation_instant < a.creation_instant
            ∨ (a.creation_instant = b.creation_instant
                ∧ a.tx_id < b.tx_id))) := by
  simp only [keyCmp, ratioCmp]
  by_cases h1 : cmpNat (a.ratio_num * b.ratio_den)
      (b.ratio_num * a.ratio_den) = .eq
  · rw [if_pos h1]
    have he := cmpNat_eq_iff.mp h1
    by_cases h2 : cmpNat b.creation_instant a.creation_instant = .eq
    · rw [if_pos h2]
      have hi := cmpNat_eq_iff.mp h2
      constructor
      · intro h3
        exact Or.inr ⟨he, Or.inr ⟨hi.symm, cmpNat_lt_iff.mp h3⟩⟩
      · rintro (h3 | ⟨_, h3 | ⟨_, h3⟩⟩)
        · exact absurd h3 (by omega)
        · exact absurd h3 (by omega)
        · exact cmpNat_lt_iff.mpr h3
    · rw [if_neg h2]
      constructor
      · intro h3
        exact Or.inr ⟨he, Or.inl (cmpNat_lt_iff.mp h3)⟩
      · rintro (h3 | ⟨_, h3 | ⟨h3, _⟩⟩)
        · exact absurd h3 (by omega)
        · exact cmpNat_lt_iff.mpr h3
        · exact absurd (cmpNat_eq_iff.mpr h3.symm) h2
  · rw [if_neg h1]
    constructor
    · intro h3
      exact Or.inl (cmpNat_lt_iff.mp h3)
    · rintro (h3 | ⟨h3, _⟩)
      · exact cmpNat_lt_iff.mpr h3
      · exact absurd (cmpNat_eq_iff.mpr h3) h1

/-- Every key compares equal to itself. -/
theorem keyCmp_self (k : Key) : keyCmp k k = .eq := by
  rw [keyCmp_eq_char]
  exact ⟨rfl, rfl, rfl⟩

/-- Key equality is symmetric. -/
theorem keyCmp_eq_symm {a b : Key} (h : keyCmp a b = .eq) :
    keyCmp b a = .eq := by
  rw [keyCmp_eq_char] at h ⊢
  omega

/-- Key equality is transitive over a positive middle denominator. -/
theorem keyCmp_eq_trans {a b c : Key} (hdb : 0 < b.ratio_den)
    (h1 : keyCmp a b = .eq) (h2 : keyCmp b c = .eq) : keyCmp a c = .eq := by
  rw [keyCmp_eq_char] at h1 h2 ⊢
  exact ⟨cross_eq_eq hdb h1.1 h2.1, by omega, by omega⟩

/-- The strict descending key order is transitive (positive
denominators). -/
theorem keyCmp_gt_trans {a b c : Key} (hda : 0 < a.ratio_den)
    (hdb : 0 < b.ratio_den) (hdc : 0 < c.ratio_den)
    (h1 : keyCmp a b = .gt) (h2 : keyCmp b c = .gt) : keyCmp a c = .gt := by
  rw [keyCmp_gt_char] at h1 h2 ⊢
  rcases h1 with h1 | ⟨he1, h1⟩
  · rcases h2 with h2 | ⟨he2, h2⟩
    · exact Or.inl (cross_lt_lt hdc h1 h2)
    · exact Or.inl (cross_lt_eq hdc h1 he2)
  · rcases h2 with h2 | ⟨he2, h2⟩
    · exact Or.inl (cross_eq_lt hda he1 h2)
    · exact Or.inr ⟨cross_eq_eq hdb he1 he2, by omega⟩

/-- An equal key strictly dominates whatever the other key strictly
dominates. -/
theorem keyCmp_eq_gt_trans {a b c : Key} (hda : 0 < a.ratio_den)
    (hdb : 0 < b.ratio_den) (h1 : keyCmp a b = .eq)
    (h2 : keyCmp b c = .gt) : keyCmp a c = .gt := by
  rw [keyCmp_eq_char] at h1
  rw [keyCmp_gt_char] at h2 ⊢
  obtain ⟨h1e, h1i, h1t⟩ := h1
  rcases h2 with h2 | ⟨he2, h2⟩
  · exact Or.inl (cross_eq_lt hda h1e h2)
  · exact Or.inr ⟨cross_eq_eq hdb h1e he2, by omega⟩

/-- Strict domination is preserved by replacing the smaller key with an
equal one. -/
theorem keyCmp_gt_eq_trans {a b c : Key} (hdb : 0 < b.ratio_den)
    (hdc : 0 < c.ratio_den) (h1 : keyCmp a b = .gt)
    (h2 : keyCmp b c = .eq) : keyCmp a c = .gt := by
  rw [keyCmp_eq_char] at h2
  rw [keyCmp_gt_char] at h1 ⊢
  obtain ⟨h2e, h2i, h2t⟩ := h2
  rcases h1 with h1 | ⟨he1, h1⟩
  · exact Or.inl (cross_lt_eq hdc h1 h2e)
  · exact Or.inr ⟨cross_eq_eq hdb he1 h2e, by omega⟩

/-- A strictly smaller key seen from the other side is strictly
greater. -/
theorem keyCmp_lt_gt {a b : Key} (h : keyCmp a b = .lt) :
    keyCmp b a = .gt := by
  rw [keyCmp_lt_char] at h
  rw [keyCmp_gt_char]
  omega

/-- A strictly greater key does not compare equal. -/
theorem keyCmp_gt_ne_eq {a b : Key} (h : keyCmp a b = .gt) :
    keyCmp a b ≠ .eq := by
  intro hc
  rw [h] at hc
  exact Ordering.noConfusion hc

/-- A strictly greater key does not compare equal from the other side
either. -/
theorem keyCmp_gt_ne_eq_flip {a b : Key} (h : keyCmp a b = .gt) :
    keyCmp b a ≠ .eq := by
  intro hc
  have h2 := keyCmp_eq_symm hc
  rw [h] at h2
  exact Ordering.noConfusion h2

/-!  Membership and order lemmas for the selection index. -/

/-- `orderedRemove` yields a sublist. -/
theorem orderedRemove_sublist (l : List (Key × Nat)) (k : Key) :
    (orderedRemove l k).Sublist l := by
  induction l with
  | nil => simp [orderedRemove]
  | cons kv rest ih =>
    obtain ⟨k0, i0⟩ := kv
    simp only [orderedRemove]
    split
    · exact (List.Sublist.refl rest).cons (k0, i0)
    · exact ih.cons₂ (k0, i0)

/-- A pair whose key differs from the removed key survives the
removal. -/
theorem mem_orderedRemove_of_ne {k : Key} :
    ∀ (l : List (Key × Nat)) (x : Key × Nat), x ∈ l →
      keyCmp k x.1 ≠ .eq → x ∈ orderedRemove l k := by
  intro l
  induction l with
  | nil => intro x hx; cases hx
  | cons kv rest ih =>
    intro x hx hne
    obtain ⟨k0, i0⟩ := kv
    simp only [orderedRemove]
    split
    · rename_i h0
      rcases List.mem_cons.mp hx with h | h
      · subst h
        exact absurd h0 hne
      · exact h
    · rcases List.mem_cons.mp hx with h | h
      · subst h
        exact List.mem_cons_self _ _
      · exact List.mem_cons_of_mem _ (ih x h hne)

/-- In a strictly descending index with positive denominators, removal
by an equal key deletes the matching pair. -/
theorem not_mem_orderedRemove {k : Key} (hk : 0 < k.ratio_den) :
    ∀ l : List (Key × Nat), (∀ kv ∈ l, 0 < kv.1.ratio_den) →
      l.Pairwise (fun a b => keyCmp a.1 b.1 = .gt) →
      ∀ x ∈ l, keyCmp k x.1 = .eq → x ∉ orderedRemove l k := by
  intro l
  induction l with
  | nil => intro _ _ x hx; cases hx
  | cons kv rest ih =>
    intro hd hs x hx heq
    obtain ⟨k0, i0⟩ := kv
    rw [List.pairwise_cons] at hs
    simp only [orderedRemove]
    split
    · rename_i h0
      intro hxr
      have hgt : keyCmp k0 x.1 = .gt := hs.1 x hxr
      have heq0 : keyCmp k0 x.1 = .eq :=
        keyCmp_eq_trans hk (keyCmp_eq_symm h0) heq
      rw [hgt] at heq0
      exact Ordering.noConfusion heq0
    · rename_i h0
      intro hxr
      rcases List.mem_cons.mp hxr with h | h
      · subst h
        exact h0 heq
      · have hxrest : x ∈ rest := by
          rcases List.mem_cons.mp hx with h2 | h2
          · subst h2
            exact absurd heq h0
          · exact h2
        exact ih (fun kv hkv => hd kv (List.mem_cons_of_mem _ hkv)) hs.2
          x hxrest heq h

/-- Membership in the index after a removal, characterized (strictly
descending index, positive denominators). -/
theorem mem_orderedRemove_iff {k : Key} (hk : 0 < k.ratio_den)
    {l : List (Key × Nat)} (hd : ∀ kv ∈ l, 0 < kv.1.ratio_den)
    (hs : l.Pairwise (fun a b => keyCmp a.1 b.1 = .gt)) {x : Key × Nat} :
    x ∈ orderedRemove l k ↔ x ∈ l ∧ keyCmp k x.1 ≠ .eq := by
  constructor
  · intro hx
    have hxl : x ∈ l := (orderedRemove_sublist l k).subset hx
    refine ⟨hxl, fun heq => ?_⟩
    exact not_mem_orderedRemove hk l hd hs x hxl heq hx
  · rintro ⟨hxl, hne⟩
    exact mem_orderedRemove_of_ne l x hxl hne

/-- A fold of removals yields a sublist. -/
theorem foldl_orderedRemove_sublist :
    ∀ (keys : List Key) (l : List (Key × Nat)),
      (keys.foldl orderedRemove l).Sublist l := by
  intro keys
  induction keys with
  | nil => intro l; exact .refl _
  | cons k rest ih =>
    intro l
    rw [List.foldl_cons]
    exact (ih (orderedRemove l k)).trans (orderedRemove_sublist l k)

/-- Membership after a fold of removals, characterized (strictly
descending index, positive denominators everywhere). -/
theorem mem_foldl_orderedRemove_iff :
    ∀ (keys : List Key) (l : List (Key × Nat)),
      (∀ key ∈ keys, 0 < key.ratio_den) →
      (∀ kv ∈ l, 0 < kv.1.ratio_den) →
      l.Pairwise (fun a b => keyCmp a.1 b.1 = .gt) →
      ∀ x : Key × Nat,
        (x ∈ keys.foldl orderedRemove l ↔
          x ∈ l ∧ ∀ key ∈ keys, keyCmp key x.1 ≠ .eq) := by
  intro keys
  induction keys with
  | nil =>
    intro l _ _ _ x
    simp
  | cons k rest ih =>
    intro l hkd hd hs x
    rw [List.foldl_cons]
    rw [ih (orderedRemove l k)
      (fun key hkey => hkd key (List.mem_cons_of_mem _ hkey))
      (fun kv hkv => hd kv ((orderedRemove_sublist l k).subset hkv))
      (hs.sublist (orderedRemove_sublist l k))]
    rw [mem_orderedRemove_iff (hkd k (List.mem_cons_self _ _)) hd hs]
    constructor
    · rintro ⟨⟨hxl, hne⟩, hrest⟩
      refine ⟨hxl, ?_⟩
      intro key hkey
      rcases List.mem_cons.mp hkey with h | h
      · subst h
        exact hne
      · exact hrest key h
    · rintro ⟨hxl, hall⟩
      exact ⟨⟨hxl, hall k (List.mem_cons_self _ _)⟩,
        fun key hkey => hall key (List.mem_cons_of_mem _ hkey)⟩

/-- Everything in the index after an insertion is the inserted pair or
was already there. -/
theorem mem_orderedInsert {k : Key} {j : Nat} :
    ∀ (l : List (Key × Nat)) (x : Key × Nat), x ∈ orderedInsert l k j →
      x = (k, j) ∨ x ∈ l := by
  intro l
  induction l with
  | nil =>
    intro x hx
    simp only [orderedInsert] at hx
    exact Or.inl (by simpa using hx)
  | cons kv rest ih =>
    intro x hx
    obtain ⟨k0, i0⟩ := kv
    cases hcmp : keyCmp k k0 with
    | lt =>
      simp only [orderedInsert, hcmp] at hx
      rcases List.mem_cons.mp hx with h | h
      · exact Or.inr (h ▸ List.mem_cons_self _ _)
      · rcases ih x h with h2 | h2
        · exact Or.inl h2
        · exact Or.inr (List.mem_cons_of_mem _ h2)
    | eq =>
      simp only [orderedInsert, hcmp] at hx
      rcases List.mem_cons.mp hx with h | h
      · exact Or.inl h
      · exact Or.inr (List.mem_cons_of_mem _ h)
    | gt =>
      simp only [orderedInsert, hcmp] at hx
      rcases List.mem_cons.mp hx with h | h
      · exact Or.inl h
      · exact Or.inr h

/-- The inserted pair is in the index after the insertion. -/
theorem self_mem_orderedInsert (k : Key) (j : Nat) :
    ∀ l : List (Key × Nat), (k, j) ∈ orderedInsert l k j := by
  intro l
  induction l with
  | nil => simp [orderedInsert]
  | cons kv rest ih =>
    obtain ⟨k0, i0⟩ := kv
    cases hcmp : keyCmp k k0 with
    | lt =>
      simp only [orderedInsert, hcmp]
      exact List.mem_cons_of_mem _ ih
    | eq =>
      simp only [orderedInsert, hcmp]
      exact List.mem_cons_self _ _
    | gt =>
      simp only [orderedInsert, hcmp]
      exact List.mem_cons_self _ _

/-- A pair survives an insertion whenever an equal-key insertion could
only be the pair itself. -/
theorem mem_orderedInsert_of_compat {k : Key} {j : Nat} :
    ∀ (l : List (Key × Nat)) (x : Key × Nat), x ∈ l →
      (keyCmp k x.1 = .eq → (k, j) = x) → x ∈ orderedInsert l k j := by
  intro l
  induction l with
  | nil => intro x hx; cases hx
  | cons kv rest ih =>
    intro x hx hc
    obtain ⟨k0, i0⟩ := kv
    cases hcmp : keyCmp k k0 with
    | lt =>
      simp only [orderedInsert, hcmp]
      rcases List.mem_cons.mp hx with h | h
      · subst h
        exact List.mem_cons_self _ _
      · exact List.mem_cons_of_mem _ (ih x h hc)
    | eq =>
      simp only [orderedInsert, hcmp]
      rcases List.mem_cons.mp hx with h | h
      · subst h
        have hkx : (k, j) = ((k0, i0) : Key × Nat) := hc hcmp
        rw [← hkx]
        exact List.mem_cons_self _ _
      · exact List.mem_cons_of_mem _ h
    | gt =>
      simp only [orderedInsert, hcmp]
      exact List.mem_cons_of_mem _ hx

/-- An insertion into a strictly descending index keeps it strictly
descending (positive denominators everywhere). -/
theorem orderedInsert_sorted {k : Key} {j : Nat} (hk : 0 < k.ratio_den) :
    ∀ l : List (Key × Nat), (∀ kv ∈ l, 0 < kv.1.ratio_den) →
      l.Pairwise (fun a b => keyCmp a.1 b.1 = .gt) →
      (orderedInsert l k j).Pairwise (fun a b => keyCmp a.1 b.1 = .gt) := by
  intro l
  induction l with
  | nil =>
    intro _ _
    simp [orderedInsert]
  | cons kv rest ih =>
    intro hd hs
    obtain ⟨k0, i0⟩ := kv
    rw [List.pairwise_cons] at hs
    have hd0 : 0 < k0.ratio_den := hd (k0, i0) (List.mem_cons_self _ _)
    have hdr : ∀ kv ∈ rest, 0 < kv.1.ratio_den :=
      fun kv hkv => hd kv (List.mem_cons_of_mem _ hkv)
    cases hcmp : keyCmp k k0 with
    | lt =>
      simp only [orderedInsert, hcmp]
      rw [List.pairwise_cons]
      refine ⟨?_, ih hdr hs.2⟩
      intro y hy
      rcases mem_orderedInsert _ y hy with h | h
      · rw [h]
        exact keyCmp_lt_gt hcmp
      · exact hs.1 y h
    | eq =>
      simp only [orderedInsert, hcmp]
      rw [List.pairwise_cons]
      refine ⟨?_, hs.2⟩
      intro y hy
      exact keyCmp_eq_gt_trans hk hd0 hcmp (hs.1 y hy)
    | gt =>
      simp only [orderedInsert, hcmp]
      rw [List.pairwise_cons]
      refine ⟨?_, List.Pairwise.cons hs.1 hs.2⟩
      intro y hy
      rcases List.mem_cons.mp hy with h | h
      · rw [h]
        exact hcmp
      · exact keyCmp_gt_trans hk hd0 (hdr y h) hcmp (hs.1 y h)

/-!  Arena lemmas: lookup, membership and bulk removal. -/

/-- Unlinking an empty index set changes nothing. -/
theorem unlink_nil (d : StorageData) : unlink [] d = d := by
  cases d
  simp [unlink, List.filter_eq_self]

/-- Removing an empty index set changes nothing. -/
theorem removeIds_nil (entries : Entries) : removeIds [] entries = entries := by
  induction entries with
  | nil => rfl
  | cons e rest ih =>
    simp only [removeIds, List.filter_cons] at ih ⊢
    rw [if_pos (by simp)]
    simp only [List.map_cons]
    have he : ((e.1, unlink [] e.2) : Nat × StorageData) = e := by
      rw [unlink_nil]
    rw [he, ih]

/-- Unlinking composes into unlinking the concatenated index set. -/
theorem unlink_unlink (s1 s2 : List Nat) (d : StorageData) :
    unlink s2 (unlink s1 d) = unlink (s1 ++ s2) d := by
  have hp : ∀ l : List Nat,
      (l.filter (fun j => !s1.contains j)).filter (fun j => !s2.contains j)
        = l.filter (fun j => !(s1 ++ s2).contains j) := by
    intro l
    rw [List.filter_filter]
    apply List.filter_congr
    intro a _
    by_cases h1 : a ∈ s1 <;> by_cases h2 : a ∈ s2 <;>
      simp [h1, h2, List.mem_append]
  cases d
  simp only [unlink]
  rw [hp, hp]

/-- Bulk removal composes into removal of the concatenated index set. -/
theorem removeIds_removeIds (s1 s2 : List Nat) :
    ∀ entries : Entries,
      removeIds s2 (removeIds s1 entries) = removeIds (s1 ++ s2) entries := by
  intro entries
  induction entries with
  | nil => rfl
  | cons e rest ih =>
    by_cases h1 : e.1 ∈ s1
    · have hL : removeIds s1 (e :: rest) = removeIds s1 rest := by
        simp only [removeIds, List.filter_cons]
        rw [if_neg (by simp [h1])]
      have hR : removeIds (s1 ++ s2) (e :: rest)
          = removeIds (s1 ++ s2) rest := by
        simp only [removeIds, List.filter_cons]
        rw [if_neg (by simp [List.mem_append, h1])]
      rw [hL, hR, ih]
    · have hL : removeIds s1 (e :: rest)
          = (e.1, unlink s1 e.2) :: removeIds s1 rest := by
        simp only [removeIds, List.filter_cons]
        rw [if_pos (by simp [h1])]
        simp [removeIds]
      rw [hL]
      by_cases h2 : e.1 ∈ s2
      · have hL2 : removeIds s2 ((e.1, unlink s1 e.2) :: removeIds s1 rest)
            = removeIds s2 (removeIds s1 rest) := by
          simp only [removeIds, List.filter_cons]
          rw [if_neg (by simp [h2])]
        have hR : removeIds (s1 ++ s2) (e :: rest)
            = removeIds (s1 ++ s2) rest := by
          simp only [removeIds, List.filter_cons]
          rw [if_neg (by simp [List.mem_append, h2])]
        rw [hL2, hR, ih]
      · have hL2 : removeIds s2 ((e.1, unlink s1 e.2) :: removeIds s1 rest)
            = (e.1, unlink s2 (unlink s1 e.2)) :: removeIds s2
                (removeIds s1 rest) := by
          simp only [removeIds, List.filter_cons]
          rw [if_pos (by simp [h2])]
          simp [removeIds]
        have hR : removeIds (s1 ++ s2) (e :: rest)
            = (e.1, unlink (s1 ++ s2) e.2) :: removeIds (s1 ++ s2) rest := by
          simp only [removeIds, List.filter_cons]
          rw [if_pos (by simp [List.mem_append, h1, h2])]
          simp [removeIds]
        rw [hL2, hR, ih, unlink_unlink]

/-- Lookup after bulk removal: removed indices are gone, surviving
records are unlinked. -/
theorem getEntry_removeIds (s : List Nat) :
    ∀ (entries : Entries) (j : Nat),
      getEntry (removeIds s entries) j =
        if j ∈ s then none else (getEntry entries j).map (unlink s) := by
  intro entries
  induction entries with
  | nil =>
    intro j
    by_cases h : j ∈ s <;> simp [removeIds, getEntry, h]
  | cons e rest ih =>
    intro j
    by_cases he : e.1 ∈ s
    · have hda : removeIds s (e :: rest) = removeIds s rest := by
        simp only [removeIds, List.filter_cons]
        rw [if_neg (by simp [he])]
      rw [hda, ih j]
      by_cases hj : j ∈ s
      · rw [if_pos hj, if_pos hj]
      · rw [if_neg hj, if_neg hj]
        have hne : ¬e.1 = j := fun hc => hj (hc ▸ he)
        have : getEntry (e :: rest) j = getEntry rest j := by
          simp only [getEntry]
          rw [List.find?_cons_of_neg _ (by simp [hne])]
        rw [this]
    · have hda : removeIds s (e :: rest)
          = (e.1, unlink s e.2) :: removeIds s rest := by
        simp only [removeIds, List.filter_cons]
        rw [if_pos (by simp [he])]
        simp [removeIds]
      rw [hda]
      by_cases hj : j ∈ s
      · rw [if_pos hj]
        have hne : ¬e.1 = j := fun hc => he (hc ▸ hj)
        have h1 : getEntry ((e.1, unlink s e.2) :: removeIds s rest) j
            = getEntry (removeIds s rest) j := by
          simp only [getEntry]
          rw [List.find?_cons_of_neg _ (by simp [hne])]
        rw [h1, ih j, if_pos hj]
      · by_cases hej : e.1 = j
        · rw [if_neg hj]
          have h1 : getEntry ((e.1, unlink s e.2) :: removeIds s rest) j
              = some (unlink s e.2) := by
            simp only [getEntry]
            rw [List.find?_cons_of_pos _ (by simp [hej])]
            rfl
          have h2 : getEntry (e :: rest) j = some e.2 := by
            simp only [getEntry]
            rw [List.find?_cons_of_pos _ (by simp [hej])]
            rfl
          rw [h1, h2]
          rfl
        · rw [if_neg hj]
          have h1 : getEntry ((e.1, unlink s e.2) :: removeIds s rest) j
              = getEntry (removeIds s rest) j := by
            simp only [getEntry]
            rw [List.find?_cons_of_neg _ (by simp [hej])]
          have h2 : getEntry (e :: rest) j = getEntry rest j := by
            simp only [getEntry]
            rw [List.find?_cons_of_neg _ (by simp [hej])]
          rw [h1, h2, ih j, if_neg hj]

/-- Membership in the arena after bulk removal. -/
theorem mem_removeIds {s : List Nat} {entries : Entries}
    {x : Nat × StorageData} :
    x ∈ removeIds s entries ↔
      ∃ d0, (x.1, d0) ∈ entries ∧ x.1 ∉ s ∧ x.2 = unlink s d0 := by
  simp only [removeIds, List.mem_map, List.mem_filter]
  constructor
  · rintro ⟨a, ⟨ha, hp⟩, he⟩
    have h1 : x.1 = a.1 := by rw [← he]
    refine ⟨a.2, ?_, ?_, ?_⟩
    · rw [h1]
      exact ha
    · rw [h1]
      simpa using hp
    · rw [← he]
  · rintro ⟨d0, hmem, hns, hx2⟩
    refine ⟨(x.1, d0), ⟨hmem, by simpa using hns⟩, ?_⟩
    show (x.1, unlink s d0) = x
    rw [← hx2]

/-- Lookup success yields arena membership. -/
theorem getEntry_mem {entries : Entries} {i : Nat} {d : StorageData}
    (h : getEntry entries i = some d) : (i, d) ∈ entries := by
  simp only [getEntry] at h
  rcases hf : entries.find? (fun e => e.1 = i) with _ | x
  · rw [hf] at h
    cases h
  · rw [hf] at h
    have hx2 : x.2 = d := by simpa using h
    have hmem := List.mem_of_find?_eq_some hf
    have hx1 : x.1 = i := by simpa using List.find?_some hf
    have hx : x = (i, d) := by
      rw [← hx1, ← hx2]
    rw [← hx]
    exact hmem

/-- Arena membership with distinct indices determines the lookup. -/
theorem mem_getEntry :
    ∀ {entries : Entries}, (entries.map (·.1)).Nodup →
      ∀ {i : Nat} {d : StorageData}, (i, d) ∈ entries →
        getEntry entries i = some d := by
  intro entries
  induction entries with
  | nil =>
    intro _ i d h
    cases h
  | cons e rest ih =>
    intro hnd i d h
    simp only [List.map_cons, List.nodup_cons] at hnd
    rcases List.mem_cons.mp h with h1 | h1
    · have hi : e.1 = i := by rw [← h1]
      have hd2 : e.2 = d := by rw [← h1]
      simp only [getEntry]
      rw [List.find?_cons_of_pos _ (by simp [hi])]
      simp [hd2]
    · have hne : ¬e.1 = i := by
        intro hcontra
        exact hnd.1 (List.mem_map.mpr ⟨(i, d), h1, hcontra.symm⟩)
      have h2 : getEntry (e :: rest) i = getEntry rest i := by
        simp only [getEntry]
        rw [List.find?_cons_of_neg _ (by simp [hne])]
      rw [h2]
      exact ih hnd.2 h1

/-- A projection invariant under unlinking turns bulk removal into a
sublist of the projected arena. -/
theorem removeIds_map_sublist {α : Type} (f : Nat × StorageData → α)
    (s : List Nat) (hf : ∀ e : Nat × StorageData, f (e.1, unlink s e.2) = f e) :
    ∀ entries : Entries,
      ((removeIds s entries).map f).Sublist (entries.map f) := by
  intro entries
  induction entries with
  | nil => simp [removeIds]
  | cons e rest ih =>
    simp only [removeIds, List.filter_cons, List.map_cons] at ih ⊢
    split
    · simp only [List.map_cons]
      rw [hf e]
      exact ih.cons₂ (f e)
    · exact ih.cons (f e)

/-- Unlinking does not change the selection key. -/
theorem selectionKey_unlink (s : List Nat) (d : StorageData) :
    selectionKey (unlink s d) = selectionKey d := rfl

/-- Membership in the parent links after unlinking. -/
theorem mem_unlink_parents {s : List Nat} {d : StorageData} {j : Nat} :
    j ∈ (unlink s d).parents ↔ j ∈ d.parents ∧ j ∉ s := by
  simp [unlink]

/-- Membership in the child links after unlinking. -/
theorem mem_unlink_children {s : List Nat} {d : StorageData} {j : Nat} :
    j ∈ (unlink s d).children ↔ j ∈ d.children ∧ j ∉ s := by
  simp [unlink]

/-- The dependency-graph invariant of the arena (spec invariants I3/I4
and the bookkeeping needed to maintain them): distinct indices, distinct
transaction ids, positive gas, mutually mirrored parent/child links that
point to live records, and parents created before their children. -/
structure GraphInv (entries : Entries) : Prop where
  idx_nodup : (entries.map (·.1)).Nodup
  txid_nodup : (entries.map (·.2.transaction.tx_id)).Nodup
  gas_pos : ∀ e ∈ entries, 0 < e.2.transaction.max_gas
  mirror : ∀ e1 ∈ entries, ∀ e2 ∈ entries,
    (e1.1 ∈ e2.2.parents ↔ e2.1 ∈ e1.2.children)
  parents_mem : ∀ e ∈ entries, ∀ j ∈ e.2.parents,
    ∃ d, getEntry entries j = some d
  parents_lt : ∀ e ∈ entries, ∀ j ∈ e.2.parents, j < e.1
  children_mem : ∀ e ∈ entries, ∀ j ∈ e.2.children,
    ∃ d, getEntry entries j = some d

/-- Bulk removal preserves the dependency-graph invariant. -/
theorem GraphInv.shrink {entries : Entries} (h : GraphInv entries)
    (s : List Nat) : GraphInv (removeIds s entries) := by
  refine ⟨?_, ?_, ?_, ?_, ?_, ?_, ?_⟩
  · exact (removeIds_map_sublist (·.1) s (fun e => rfl) entries).nodup
      h.idx_nodup
  · exact (removeIds_map_sublist (·.2.transaction.tx_id) s (fun e => rfl)
      entries).nodup h.txid_nodup
  · intro e he
    obtain ⟨d0, hm, _, he2⟩ := mem_removeIds.mp he
    have := h.gas_pos (e.1, d0) hm
    rw [he2]
    exact this
  · intro e1 he1 e2 he2
    obtain ⟨d1, hm1, hn1, hx1⟩ := mem_removeIds.mp he1
    obtain ⟨d2, hm2, hn2, hx2⟩ := mem_removeIds.mp he2
    rw [hx1, hx2, mem_unlink_parents, mem_unlink_children]
    constructor
    · rintro ⟨hp, _⟩
      exact ⟨(h.mirror (e1.1, d1) hm1 (e2.1, d2) hm2).mp hp, hn2⟩
    · rintro ⟨hc, _⟩
      exact ⟨(h.mirror (e1.1, d1) hm1 (e2.1, d2) hm2).mpr hc, hn1⟩
  · intro e he j hj
    obtain ⟨d0, hm, hn, he2⟩ := mem_removeIds.mp he
    rw [he2, mem_unlink_parents] at hj
    obtain ⟨d, hd⟩ := h.parents_mem (e.1, d0) hm j hj.1
    refine ⟨unlink s d, ?_⟩
    rw [getEntry_removeIds s entries j, if_neg hj.2, hd]
    rfl
  · intro e he j hj
    obtain ⟨d0, hm, _, he2⟩ := mem_removeIds.mp he
    rw [he2, mem_unlink_parents] at hj
    exact h.parents_lt (e.1, d0) hm j hj.1
  · intro e he j hj
    obtain ⟨d0, hm, hn, he2⟩ := mem_removeIds.mp he
    rw [he2, mem_unlink_children] at hj
    obtain ⟨d, hd⟩ := h.children_mem (e.1, d0) hm j hj.1
    refine ⟨unlink s d, ?_⟩
    rw [getEntry_removeIds s entries j, if_neg hj.2, hd]
    rfl

/-- Distinct transaction ids make arena elements with equal ids equal. -/
theorem txid_unique {entries : Entries}
    (hB : (entries.map (·.2.transaction.tx_id)).Nodup)
    {x y : Nat × StorageData} (hx : x ∈ entries) (hy : y ∈ entries)
    (ht : x.2.transaction.tx_id = y.2.transaction.tx_id) : x = y :=
  List.inj_on_of_nodup_map hB hx hy ht

/-- Keys of a sound selection index have positive denominators. -/
theorem sound_dens {entries : Entries} {sorted : List (Key × Nat)}
    (hG : ∀ e ∈ entries, 0 < e.2.transaction.max_gas)
    (hD : ∀ kv ∈ sorted, ∃ d, getEntry entries kv.2 = some d
      ∧ kv.1 = selectionKey d) :
    ∀ kv ∈ sorted, 0 < kv.1.ratio_den := by
  intro kv hkv
  obtain ⟨d, hg, hk⟩ := hD kv hkv
  rw [hk]
  exact hG (kv.2, d) (getEntry_mem hg)

/-- In a sound index over distinct transaction ids, pairs with equal
keys are equal. -/
theorem sound_eq_pairs {entries : Entries} {sorted : List (Key × Nat)}
    (hB : (entries.map (·.2.transaction.tx_id)).Nodup)
    (hD : ∀ kv ∈ sorted, ∃ d, getEntry entries kv.2 = some d
      ∧ kv.1 = selectionKey d)
    {kv1 kv2 : Key × Nat} (h1 : kv1 ∈ sorted) (h2 : kv2 ∈ sorted)
    (he : keyCmp kv1.1 kv2.1 = .eq) : kv1 = kv2 := by
  obtain ⟨d1, hg1, hk1⟩ := hD kv1 h1
  obtain ⟨d2, hg2, hk2⟩ := hD kv2 h2
  have ht : d1.transaction.tx_id = d2.transaction.tx_id := by
    have h3 := (keyCmp_eq_char.mp he).2.2
    rw [hk1, hk2] at h3
    exact h3
  have hxy : ((kv1.2, d1) : Nat × StorageData) = (kv2.2, d2) :=
    txid_unique hB (getEntry_mem hg1) (getEntry_mem hg2) ht
  have hi : kv1.2 = kv2.2 := congrArg (·.1) hxy
  have hdd : d1 = d2 := congrArg (·.2) hxy
  have hk : kv1.1 = kv2.1 := by
    rw [hk1, hk2, hdd]
  exact Prod.ext hk hi

/-- Full characterization of one pass of `gather_best_txs` over a sound
executable snapshot of a well-formed arena: some sublist `sel` of the
snapshot is selected; storage loses exactly the selected indices; their
keys are appended to the clean-up list; no key is ever marked stale; the
promoted indices `newP` were dependent before the pass and are live and
parentless after it; every record parentless after the pass was
parentless before it or is promoted; and the result grows by exactly the
selected records. -/
theorem gatherPass_full_spec (maxFee : PoolTx → Option Nat) :
    ∀ (l : List (Key × Nat)) (st : PassState),
      GraphInv st.entries →
      (∀ kv ∈ l, ∃ d, getEntry st.entries kv.2 = some d
        ∧ kv.1 = selectionKey d ∧ d.parents = []) →
      (l.map (·.2)).Nodup →
      ∃ sel : List (Key × Nat), ∃ newP : List Nat,
        sel.Sublist l
        ∧ (gatherPass maxFee l st).entries
            = removeIds (sel.map (·.2)) st.entries
        ∧ (gatherPass maxFee l st).clean_up_list
            = st.clean_up_list ++ sel.map (·.1)
        ∧ (gatherPass maxFee l st).transactions_to_remove
            = st.transactions_to_remove
        ∧ (gatherPass maxFee l st).transactions_to_promote
            = st.transactions_to_promote ++ newP
        ∧ (∀ j ∈ newP,
            (∃ d0, getEntry st.entries j = some d0 ∧ d0.parents ≠ [])
            ∧ ∃ dj, getEntry (gatherPass maxFee l st).entries j = some dj
              ∧ dj.parents = [])
        ∧ (∀ j dj, getEntry (gatherPass maxFee l st).entries j = some dj →
            dj.parents = [] →
            (∃ d0, getEntry st.entries j = some d0 ∧ d0.parents = [])
            ∨ j ∈ newP)
        ∧ (gatherPass maxFee l st).result.length
            = st.result.length + sel.length
        ∧ (∀ kv ∈ sel, ∃ d0, getEntry st.entries kv.2 = some d0
            ∧ tx_is_gas_price_valid maxFee d0.transaction = true) := by
  intro l
  induction l with
  | nil =>
    intro st hG hsnap hlnd
    refine ⟨[], [], List.Sublist.refl _, ?_, by simp [gatherPass], rfl, by
      simp [gatherPass], by simp, ?_, by simp [gatherPass], by simp⟩
    · show st.entries = removeIds [] st.entries
      rw [removeIds_nil]
    · intro j dj hj hp
      exact Or.inl ⟨dj, hj, hp⟩
  | cons kv rest ih =>
    intro st hG hsnap hlnd
    obtain ⟨key, storage_id⟩ := kv
    obtain ⟨d, hd, hkey, hpar⟩ := hsnap (key, storage_id)
      (List.mem_cons_self _ _)
    rcases hget : getEntry st.entries storage_id with _ | stored
    · rw [hget] at hd
      cases hd
    · have hds : d = stored := by
        rw [hget] at hd
        injection hd with h3
        exact h3.symm
      subst hds
      simp only [List.map_cons, List.nodup_cons] at hlnd
      have hsnaprest : ∀ kv ∈ rest, ∃ d2, getEntry st.entries kv.2 = some d2
          ∧ kv.1 = selectionKey d2 ∧ d2.parents = [] :=
        fun kv hkv => hsnap kv (List.mem_cons_of_mem _ hkv)
      simp only [gatherPass, hget]
      split
      · -- fee invalid: plain skip
        obtain ⟨sel', newP', i1, i2, i3, i4, i5, i6, i7, i8, i9⟩ :=
          ih st hG hsnaprest hlnd.2
        exact ⟨sel', newP', i1.cons _, i2, i3, i4, i5, i6, i7, i8, i9⟩
      · split
        · -- does not fit: plain skip
          obtain ⟨sel', newP', i1, i2, i3, i4, i5, i6, i7, i8, i9⟩ :=
            ih st hG hsnaprest hlnd.2
          exact ⟨sel', newP', i1.cons _, i2, i3, i4, i5, i6, i7, i8, i9⟩
        · -- selected
          rename_i hvalid hfit
          have hmemd : (storage_id, d) ∈ st.entries := getEntry_mem hget
          -- facts about the children of the selected record
          have hchild : ∀ j ∈ d.children,
              ∃ dj0, getEntry st.entries j = some dj0
                ∧ storage_id ∈ dj0.parents := by
            intro j hj
            obtain ⟨dj0, hdj0⟩ := hG.children_mem (storage_id, d) hmemd j hj
            refine ⟨dj0, hdj0, ?_⟩
            exact (hG.mirror (storage_id, d) hmemd (j, dj0)
              (getEntry_mem hdj0)).mpr hj
          have hchild_ne : ∀ j ∈ d.children, j ≠ storage_id := by
            intro j hj heq
            obtain ⟨dj0, hdj0, hpj⟩ := hchild j hj
            rw [heq, hget] at hdj0
            have hinj : dj0 = d := by
              injection hdj0 with h3
              exact h3.symm
            rw [hinj, hpar] at hpj
            cases hpj
          have hchild_nrest : ∀ j ∈ d.children, j ∉ rest.map (·.2) := by
            intro j hj hmem
            obtain ⟨kv', hkv', hkv2⟩ := List.mem_map.mp hmem
            obtain ⟨d', hg', _, hp'⟩ := hsnaprest kv' hkv'
            obtain ⟨dj0, hdj0, hpj⟩ := hchild j hj
            rw [hkv2] at hg'
            rw [hg'] at hdj0
            have hinj : dj0 = d' := by
              injection hdj0 with h3
              exact h3.symm
            rw [hinj, hp'] at hpj
            cases hpj
          -- lookup in the shrunk arena
          have hlook : ∀ j, j ≠ storage_id →
              getEntry (removeEntry st.entries storage_id) j
                = (getEntry st.entries j).map (unlink [storage_id]) := by
            intro j hne
            show getEntry (removeIds [storage_id] st.entries) j = _
            rw [getEntry_removeIds]
            rw [if_neg (by simp [hne])]
          -- the recursive state
          obtain ⟨sel', newP', i1, i2, i3, i4, i5, i6, i7, i8, i9⟩ :=
            ih { gas_left := satSub st.gas_left d.transaction.max_gas
                 space_left :=
                   satSub st.space_left d.transaction.metered_bytes_size
                 nb_left := satSub st.nb_left 1
                 entries := removeEntry st.entries storage_id
                 clean_up_list := st.clean_up_list ++ [key]
                 transactions_to_remove := st.transactions_to_remove
                 transactions_to_promote := st.transactions_to_promote
                   ++ d.children.filter
                     (fun x => !hasDependencies
                       (removeEntry st.entries storage_id) x)
                 result := st.result ++ [d] }
              (hG.shrink [storage_id])
              (by
                intro kv hkv
                obtain ⟨d2, hg2, hk2, hp2⟩ := hsnaprest kv hkv
                have hne : kv.2 ≠ storage_id := by
                  intro heq
                  exact hlnd.1 (List.mem_map.mpr ⟨kv, hkv, heq⟩)
                refine ⟨unlink [storage_id] d2, ?_, ?_, ?_⟩
                · show getEntry (removeEntry st.entries storage_id) kv.2 = _
                  rw [hlook kv.2 hne, hg2]
                  rfl
                · rw [hk2, selectionKey_unlink]
                · rw [show (unlink [storage_id] d2).parents
                    = d2.parents.filter (fun j => !(([storage_id] : List Nat).contains j))
                    from rfl, hp2]
                  rfl)
              hlnd.2
          -- assemble
          refine ⟨(key, storage_id) :: sel',
            d.children.filter
              (fun x => !hasDependencies
                (removeEntry st.entries storage_id) x) ++ newP',
            i1.cons₂ _, ?_, ?_, i4, ?_, ?_, ?_, ?_, ?_⟩
          · rw [i2]
            show removeIds (sel'.map (·.2)) (removeIds [storage_id] st.entries)
              = _
            rw [removeIds_removeIds]
            rfl
          · rw [i3]
            simp
          · rw [i5]
            simp
          · -- the promoted indices
            intro j hj
            rcases List.mem_append.mp hj with hj1 | hj1
            · -- promoted at this step
              obtain ⟨hjc, hjd⟩ := List.mem_filter.mp hj1
              obtain ⟨dj0, hdj0, hpj⟩ := hchild j hjc
              have hne := hchild_ne j hjc
              have hjn := hchild_nrest j hjc
              have hlive2 : getEntry (removeEntry st.entries storage_id) j
                  = some (unlink [storage_id] dj0) := by
                rw [hlook j hne, hdj0]
                rfl
              have hp2 : (unlink [storage_id] dj0).parents = [] := by
                have hdep : hasDependencies
                    (removeEntry st.entries storage_id) j = false := by
                  simpa using hjd
                rw [hasDependencies, hlive2] at hdep
                simpa using hdep
              refine ⟨⟨dj0, hdj0, fun hc => by rw [hc] at hpj; cases hpj⟩,
                ?_⟩
              have hjnsel : j ∉ sel'.map (·.2) := by
                intro hmem
                exact hjn ((i1.map (·.2)).subset hmem)
              refine ⟨unlink (sel'.map (·.2)) (unlink [storage_id] dj0),
                ?_, ?_⟩
              · rw [i2, getEntry_removeIds, if_neg hjnsel, hlive2]
                rfl
              · rw [show (unlink (sel'.map (·.2))
                  (unlink [storage_id] dj0)).parents
                  = (unlink [storage_id] dj0).parents.filter
                    (fun x => !(sel'.map (·.2)).contains x) from rfl, hp2]
                rfl
            · -- promoted later in the pass
              obtain ⟨⟨d2, hg2, hp2⟩, hjend⟩ := i6 j hj1
              constructor
              · by_cases hne : j = storage_id
                · subst hne
                  rw [show getEntry (removeEntry st.entries j) j = none from by
                    show getEntry (removeIds [j] st.entries) j = _
                    rw [getEntry_removeIds]
                    simp] at hg2
                  cases hg2
                · rw [hlook j hne] at hg2
                  rcases hg0 : getEntry st.entries j with _ | d0
                  · rw [hg0] at hg2
                    cases hg2
                  · rw [hg0] at hg2
                    have hd2 : d2 = unlink [storage_id] d0 := by
                      injection hg2.symm
                    refine ⟨d0, rfl, fun hc => hp2 ?_⟩
                    rw [hd2]
                    rw [show (unlink [storage_id] d0).parents
                      = d0.parents.filter
                        (fun x => !(([storage_id] : List Nat).contains x)) from rfl, hc]
                    rfl
              · exact hjend
          · -- parentless at the end of the pass
            intro j dj hjend hpend
            rcases i7 j dj hjend hpend with ⟨d2, hg2, hp2⟩ | hjp
            · by_cases hne : j = storage_id
              · subst hne
                rw [show getEntry (removeEntry st.entries j) j = none from by
                  show getEntry (removeIds [j] st.entries) j = _
                  rw [getEntry_removeIds]
                  simp] at hg2
                cases hg2
              · rw [hlook j hne] at hg2
                rcases hg0 : getEntry st.entries j with _ | d0
                · rw [hg0] at hg2
                  cases hg2
                · rw [hg0] at hg2
                  have hd2 : d2 = unlink [storage_id] d0 := by
                    injection hg2.symm
                  have hfilter : d0.parents.filter
                      (fun x => !(([storage_id] : List Nat).contains x)) = [] := by
                    rw [← show (unlink [storage_id] d0).parents
                      = d0.parents.filter
                        (fun x => !(([storage_id] : List Nat).contains x)) from rfl,
                      ← hd2]
                    exact hp2
                  rcases hp0 : d0.parents with _ | ⟨x, xs⟩
                  · exact Or.inl ⟨d0, rfl, hp0⟩
                  · have hall : ∀ y ∈ d0.parents, y = storage_id := by
                      intro y hy
                      have := List.filter_eq_nil_iff.mp hfilter y hy
                      simpa using this
                    have hsid : storage_id ∈ d0.parents := by
                      rw [hp0]
                      rw [← hall x (by rw [hp0]; exact List.mem_cons_self _ _)]
                      exact List.mem_cons_self _ _
                    have hjc : j ∈ d.children :=
                      (hG.mirror (storage_id, d) hmemd
                        (j, d0) (getEntry_mem hg0)).mp hsid
                    refine Or.inr (List.mem_append.mpr (Or.inl ?_))
                    refine List.mem_filter.mpr ⟨hjc, ?_⟩
                    have hdep : hasDependencies
                        (removeEntry st.entries storage_id) j = false := by
                      rw [hasDependencies, hlook j hne, hg0]
                      show (!(unlink [storage_id] d0).parents.isEmpty) = false
                      rw [show (unlink [storage_id] d0).parents
                        = d0.parents.filter
                          (fun x => !(([storage_id] : List Nat).contains x)) from rfl,
                        hfilter]
                      rfl
                    rw [hdep]
                    rfl
            · exact Or.inr (List.mem_append.mpr (Or.inr hjp))
          · rw [i8]
            simp only [List.length_append, List.length_cons,
              List.length_nil]
            omega
          · -- the selected entries were fee-valid when selected
            intro kv hkv
            rcases List.mem_cons.mp hkv with hh | hh
            · subst hh
              exact ⟨d, hget, by simpa using hvalid⟩
            · obtain ⟨d0', hg', hval'⟩ := i9 kv hh
              have hne : kv.2 ≠ storage_id := by
                intro heq
                exact hlnd.1 (List.mem_map.mpr ⟨kv, i1.subset hh, heq⟩)
              have hg2 : getEntry (removeEntry st.entries storage_id) kv.2
                  = some d0' := hg'
              rw [hlook kv.2 hne] at hg2
              rcases hg0 : getEntry st.entries kv.2 with _ | d0
              · rw [hg0] at hg2
                simp at hg2
              · rw [hg0] at hg2
                simp only [Option.map_some'] at hg2
                have hd0' : d0' = unlink [storage_id] d0 :=
                  (Option.some.inj hg2).symm
                have htr2 : d0'.transaction = d0.transaction := by
                  rw [hd0']
                  rfl
                rw [htr2] at hval'
                exact ⟨d0, rfl, hval'⟩

/-!  The promotion fold at the end of a `gather_best_txs` iteration. -/

/-- Everything in the index after the promotion fold is a promoted pair
or was already there. -/
theorem mem_foldl_promote (E : Entries) :
    ∀ (js : List Nat) (l : List (Key × Nat)) (x : Key × Nat),
      x ∈ js.foldl (fun s i =>
        match getEntry E i with
        | some d => orderedInsert s (selectionKey d) i
        | none => s) l →
      x ∈ l ∨ ∃ j ∈ js, ∃ d, getEntry E j = some d
        ∧ x = (selectionKey d, j) := by
  intro js
  induction js with
  | nil =>
    intro l x hx
    exact Or.inl hx
  | cons j rest ih =>
    intro l x hx
    rcases hget : getEntry E j with _ | dj
    · simp only [List.foldl_cons, hget] at hx
      rcases ih l x hx with h | ⟨j2, hj2, d2, hg2, hx2⟩
      · exact Or.inl h
      · exact Or.inr ⟨j2, List.mem_cons_of_mem _ hj2, d2, hg2, hx2⟩
    · simp only [List.foldl_cons, hget] at hx
      rcases ih _ x hx with h | ⟨j2, hj2, d2, hg2, hx2⟩
      · rcases mem_orderedInsert _ x h with h2 | h2
        · exact Or.inr ⟨j, List.mem_cons_self _ _, dj, hget, h2⟩
        · exact Or.inl h2
      · exact Or.inr ⟨j2, List.mem_cons_of_mem _ hj2, d2, hg2, hx2⟩

/-- A pair compatible with every promotion insert survives the fold. -/
theorem mem_foldl_promote_of_compat (E : Entries) :
    ∀ (js : List Nat) (l : List (Key × Nat)) (x : Key × Nat),
      x ∈ l →
      (∀ j ∈ js, ∀ d, getEntry E j = some d →
        keyCmp (selectionKey d) x.1 = .eq → (selectionKey d, j) = x) →
      x ∈ js.foldl (fun s i =>
        match getEntry E i with
        | some d => orderedInsert s (selectionKey d) i
        | none => s) l := by
  intro js
  induction js with
  | nil =>
    intro l x hx _
    exact hx
  | cons j rest ih =>
    intro l x hx hc
    rcases hget : getEntry E j with _ | dj
    · simp only [List.foldl_cons, hget]
      exact ih l x hx (fun j2 hj2 => hc j2 (List.mem_cons_of_mem _ hj2))
    · simp only [List.foldl_cons, hget]
      refine ih _ x ?_ (fun j2 hj2 => hc j2 (List.mem_cons_of_mem _ hj2))
      exact mem_orderedInsert_of_compat _ x hx
        (fun he => hc j (List.mem_cons_self _ _) dj hget he)

/-- Each promoted pair is in the index after the fold, provided equal
keys among promotions pin the same pair. -/
theorem promoted_mem_foldl (E : Entries) :
    ∀ (js : List Nat) (l : List (Key × Nat)) (j0 : Nat) (d0 : StorageData),
      j0 ∈ js → getEntry E j0 = some d0 →
      (∀ j ∈ js, ∀ d, getEntry E j = some d →
        keyCmp (selectionKey d) (selectionKey d0) = .eq →
        (selectionKey d, j) = (selectionKey d0, j0)) →
      (selectionKey d0, j0) ∈ js.foldl (fun s i =>
        match getEntry E i with
        | some d => orderedInsert s (selectionKey d) i
        | none => s) l := by
  intro js
  induction js with
  | nil =>
    intro l j0 d0 h _ _
    cases h
  | cons j rest ih =>
    intro l j0 d0 hj0 hg0 hc
    by_cases hjr : j0 ∈ rest
    · rcases hget : getEntry E j with _ | dj
      · simp only [List.foldl_cons, hget]
        exact ih _ j0 d0 hjr hg0
          (fun j2 hj2 => hc j2 (List.mem_cons_of_mem _ hj2))
      · simp only [List.foldl_cons, hget]
        exact ih _ j0 d0 hjr hg0
          (fun j2 hj2 => hc j2 (List.mem_cons_of_mem _ hj2))
    · have hj : j0 = j := by
        rcases List.mem_cons.mp hj0 with h | h
        · exact h
        · exact absurd h hjr
      subst hj
      simp only [List.foldl_cons, hg0]
      exact mem_foldl_promote_of_compat E rest _ _
        (self_mem_orderedInsert _ _ _)
        (fun j2 hj2 d2 hg2 he => hc j2 (List.mem_cons_of_mem _ hj2) d2 hg2 he)

/-- The promotion fold preserves strict descending order and positive
denominators. -/
theorem foldl_promote_sorted (E : Entries)
    (hG : ∀ e ∈ E, 0 < e.2.transaction.max_gas) :
    ∀ (js : List Nat) (l : List (Key × Nat)),
      (∀ kv ∈ l, 0 < kv.1.ratio_den) →
      l.Pairwise (fun a b => keyCmp a.1 b.1 = .gt) →
      (js.foldl (fun s i =>
          match getEntry E i with
          | some d => orderedInsert s (selectionKey d) i
          | none => s) l).Pairwise (fun a b => keyCmp a.1 b.1 = .gt)
        ∧ ∀ kv ∈ js.foldl (fun s i =>
            match getEntry E i with
            | some d => orderedInsert s (selectionKey d) i
            | none => s) l, 0 < kv.1.ratio_den := by
  intro js
  induction js with
  | nil =>
    intro l hd hs
    exact ⟨hs, hd⟩
  | cons j rest ih =>
    intro l hd hs
    rcases hget : getEntry E j with _ | dj
    · simp only [List.foldl_cons, hget]
      exact ih l hd hs
    · simp only [List.foldl_cons, hget]
      have hdk : 0 < (selectionKey dj).ratio_den :=
        hG (j, dj) (getEntry_mem hget)
      refine ih _ ?_ (orderedInsert_sorted hdk l hd hs)
      intro kv hkv
      rcases mem_orderedInsert _ kv hkv with h | h
      · rw [h]
        exact hdk
      · exact hd kv h

/-- The selection-index invariant tying the arena and the sorted
executable index together: the arena is graph-well-formed, the index is
strictly descending, sound (every pair points to a live, parentless
record carrying that exact key) and complete (every live parentless
record appears). -/
structure SelInv (entries : Entries) (sorted : List (Key × Nat)) : Prop where
  graph : GraphInv entries
  sorted_desc : sorted.Pairwise (fun a b => keyCmp a.1 b.1 = .gt)
  sound : ∀ kv ∈ sorted, ∃ d, getEntry entries kv.2 = some d
    ∧ kv.1 = selectionKey d ∧ d.parents = []
  complete : ∀ j d, getEntry entries j = some d → d.parents = [] →
    (selectionKey d, j) ∈ sorted

/-- Keys of an invariant index have positive denominators. -/
theorem SelInv.dens {entries : Entries} {sorted : List (Key × Nat)}
    (h : SelInv entries sorted) : ∀ kv ∈ sorted, 0 < kv.1.ratio_den :=
  sound_dens h.graph.gas_pos
    (fun kv hkv => (h.sound kv hkv).imp (fun _ hd => ⟨hd.1, hd.2.1⟩))

/-- An invariant index never repeats a storage id. -/
theorem SelInv.ids_nodup {entries : Entries} {sorted : List (Key × Nat)}
    (h : SelInv entries sorted) : (sorted.map (·.2)).Nodup := by
  have hp : sorted.Pairwise (fun a b => a.2 ≠ b.2) := by
    refine h.sorted_desc.imp_of_mem ?_
    intro a b ha hb hgt heq
    obtain ⟨da, hga, hka, _⟩ := h.sound a ha
    obtain ⟨db, hgb, hkb, _⟩ := h.sound b hb
    rw [heq] at hga
    have hdd : da = db := by
      have h2 := hga.symm.trans hgb
      injection h2 with h3
    rw [hka, hkb, hdd, keyCmp_self] at hgt
    exact Ordering.noConfusion hgt
  exact List.Pairwise.map _ (fun a b hab => hab) hp

/-- One iteration of the `gather_best_txs` loop: starting from an
invariant pool, the pass never marks a key stale; after deleting the
consumed keys and inserting the promoted transactions the
selection-index invariant holds again over the shrunk arena; and a
fee-invalid executable transaction survives the iteration in both the
arena and the index. -/
theorem gather_iteration (maxFee : PoolTx → Option Nat)
    (sorted : List (Key × Nat)) (entries : Entries) (g sp nb : Nat)
    (h : SelInv entries sorted) (st : PassState)
    (hst : gatherPass maxFee sorted
      { gas_left := g, space_left := sp, nb_left := nb, entries := entries
        clean_up_list := [], transactions_to_remove := []
        transactions_to_promote := [], result := [] } = st) :
    st.transactions_to_remove = []
    ∧ SelInv st.entries
        (st.transactions_to_promote.foldl (fun s2 i =>
          match getEntry st.entries i with
          | some d => orderedInsert s2 (selectionKey d) i
          | none => s2)
          (st.clean_up_list.foldl orderedRemove
            (st.transactions_to_remove.foldl orderedRemove sorted)))
    ∧ ∀ (k : Key) (i : Nat) (d : StorageData), (k, i) ∈ sorted →
        getEntry entries i = some d →
        tx_is_gas_price_valid maxFee d.transaction = false →
        ∃ d2, getEntry st.entries i = some d2
          ∧ d2.transaction = d.transaction
          ∧ (k, i) ∈ st.transactions_to_promote.foldl (fun s2 i2 =>
              match getEntry st.entries i2 with
              | some d3 => orderedInsert s2 (selectionKey d3) i2
              | none => s2)
              (st.clean_up_list.foldl orderedRemove
                (st.transactions_to_remove.foldl orderedRemove sorted)) := by
  obtain ⟨sel, newP, i1, i2, i3, i4, i5, i6, i7, i8, i9⟩ :=
    gatherPass_full_spec maxFee sorted
      { gas_left := g, space_left := sp, nb_left := nb, entries := entries
        clean_up_list := [], transactions_to_remove := []
        transactions_to_promote := [], result := [] }
      h.graph (fun kv hkv => h.sound kv hkv) h.ids_nodup
  rw [hst] at i2 i3 i4 i5 i6 i7
  have hstale : st.transactions_to_remove = [] := i4
  have hclean : st.clean_up_list = sel.map (·.1) := i3
  have hpromo : st.transactions_to_promote = newP := i5
  have hvalsel : ∀ kv ∈ sel, ∃ d0, getEntry entries kv.2 = some d0
      ∧ tx_is_gas_price_valid maxFee d0.transaction = true :=
    fun kv hkv => i9 kv hkv
  have hlook : ∀ j, getEntry st.entries j
      = if j ∈ sel.map (·.2) then none
        else (getEntry entries j).map (unlink (sel.map (·.2))) := by
    intro j
    rw [i2]
    exact getEntry_removeIds _ entries j
  have hgraphE : GraphInv st.entries := by
    rw [i2]
    exact h.graph.shrink _
  have hselmem : ∀ kv ∈ sel, kv ∈ sorted := fun kv hkv => i1.subset hkv
  have hsound2 : ∀ kv ∈ sorted, ∃ d, getEntry entries kv.2 = some d
      ∧ kv.1 = selectionKey d :=
    fun kv hkv => (h.sound kv hkv).imp (fun d hd => ⟨hd.1, hd.2.1⟩)
  have hkeydens : ∀ key ∈ sel.map (·.1), 0 < key.ratio_den := by
    intro key hkey
    obtain ⟨kv, hkv, hk⟩ := List.mem_map.mp hkey
    rw [← hk]
    exact h.dens kv (hselmem kv hkv)
  have hmem2 : ∀ x : Key × Nat,
      x ∈ (sel.map (·.1)).foldl orderedRemove sorted ↔
        x ∈ sorted ∧ ∀ key ∈ sel.map (·.1), keyCmp key x.1 ≠ .eq :=
    mem_foldl_orderedRemove_iff (sel.map (·.1)) sorted hkeydens h.dens
      h.sorted_desc
  have hbridge : ∀ x ∈ sorted, ((∀ key ∈ sel.map (·.1),
      keyCmp key x.1 ≠ .eq) ↔ x.2 ∉ sel.map (·.2)) := by
    intro x hx
    constructor
    · intro hne hmem
      obtain ⟨kv, hkv, hk2⟩ := List.mem_map.mp hmem
      obtain ⟨d, hg, hk⟩ := hsound2 kv (hselmem kv hkv)
      obtain ⟨d', hg', hk'⟩ := hsound2 x hx
      rw [hk2] at hg
      have hdd : d = d' := Option.some.inj (hg.symm.trans hg')
      refine hne kv.1 (List.mem_map.mpr ⟨kv, hkv, rfl⟩) ?_
      rw [hk, hk', hdd]
      exact keyCmp_self _
    · intro hnid key hkey heq
      obtain ⟨kv, hkv, hk2⟩ := List.mem_map.mp hkey
      rw [← hk2] at heq
      have hx2 : kv = x := sound_eq_pairs h.graph.txid_nodup hsound2
        (hselmem kv hkv) hx heq
      exact hnid (List.mem_map.mpr ⟨kv, hkv, by rw [hx2]⟩)
  have hsorted2 : ((sel.map (·.1)).foldl orderedRemove sorted).Pairwise
      (fun a b => keyCmp a.1 b.1 = .gt) :=
    h.sorted_desc.sublist (foldl_orderedRemove_sublist _ _)
  have hdens2 : ∀ kv ∈ (sel.map (·.1)).foldl orderedRemove sorted,
      0 < kv.1.ratio_den :=
    fun kv hkv => h.dens kv ((foldl_orderedRemove_sublist _ _).subset hkv)
  have huniq : ∀ (j1 j2 : Nat) (d1 d2 : StorageData),
      getEntry st.entries j1 = some d1 → getEntry st.entries j2 = some d2 →
      keyCmp (selectionKey d1) (selectionKey d2) = .eq →
      j1 = j2 ∧ d1 = d2 := by
    intro j1 j2 d1 d2 hg1 hg2 he
    have ht : d1.transaction.tx_id = d2.transaction.tx_id :=
      (keyCmp_eq_char.mp he).2.2
    have hxy := txid_unique hgraphE.txid_nodup (getEntry_mem hg1)
      (getEntry_mem hg2) ht
    exact ⟨congrArg (·.1) hxy, congrArg (·.2) hxy⟩
  refine ⟨hstale, ?_, ?_⟩
  · rw [hstale, hclean, hpromo, List.foldl_nil]
    refine ⟨hgraphE, ?_, ?_, ?_⟩
    · exact (foldl_promote_sorted st.entries hgraphE.gas_pos newP _
        hdens2 hsorted2).1
    · intro kv hkv
      rcases mem_foldl_promote st.entries newP _ kv hkv with hin
        | ⟨j, hj, dj, hgj, hxj⟩
      · obtain ⟨hins, hne⟩ := (hmem2 kv).mp hin
        have hnid := (hbridge kv hins).mp hne
        obtain ⟨d, hg, hk, hp⟩ := h.sound kv hins
        refine ⟨unlink (sel.map (·.2)) d, ?_, ?_, ?_⟩
        · rw [hlook kv.2, if_neg hnid, hg]
          rfl
        · rw [hk, selectionKey_unlink]
        · rw [show (unlink (sel.map (·.2)) d).parents
            = d.parents.filter (fun x => !((sel.map (·.2)).contains x))
            from rfl, hp]
          rfl
      · obtain ⟨_, dj', hgj', hpj'⟩ := i6 j hj
        have hdd : dj = dj' := Option.some.inj (hgj.symm.trans hgj')
        rw [hxj]
        exact ⟨dj, hgj, rfl, by rw [hdd]; exact hpj'⟩
    · intro j d hgd hpd
      rcases i7 j d hgd hpd with ⟨d0, hg0, hp0⟩ | hjP
      · have hx := h.complete j d0 hg0 hp0
        have hnid : j ∉ sel.map (·.2) := by
          intro hmem
          have hgd2 := hgd
          rw [hlook j, if_pos hmem] at hgd2
          cases hgd2
        have hdu : d = unlink (sel.map (·.2)) d0 := by
          have hgd2 := hgd
          rw [hlook j, if_neg hnid, hg0] at hgd2
          exact (Option.some.inj hgd2).symm
        have hkey0 : selectionKey d = selectionKey d0 := by
          rw [hdu, selectionKey_unlink]
        have hx2 : (selectionKey d0, j) ∈ (sel.map (·.1)).foldl
            orderedRemove sorted := by
          refine (hmem2 _).mpr ⟨hx, ?_⟩
          exact (hbridge _ hx).mpr (by simpa using hnid)
        rw [hkey0]
        refine mem_foldl_promote_of_compat st.entries newP _ _ hx2 ?_
        intro j2 hj2 d2 hg2 he
        have hun := huniq j2 j d2 d hg2 hgd (by rw [hkey0]; exact he)
        rw [hun.1, hun.2, hkey0]
      · refine promoted_mem_foldl st.entries newP _ j d hjP hgd ?_
        intro j2 hj2 d2 hg2 he
        have hun := huniq j2 j d2 d hg2 hgd he
        rw [hun.1, hun.2]
  · rw [hstale, hclean, hpromo, List.foldl_nil]
    intro k i d hki hgi hinvalid
    have hknotsel : (k, i) ∉ sel := by
      intro hmem
      obtain ⟨d0, hg0, hval⟩ := hvalsel (k, i) hmem
      have hdd : d0 = d := Option.some.inj
        ((show getEntry entries i = some d0 from hg0).symm.trans hgi)
      rw [hdd, hinvalid] at hval
      cases hval
    have hidnotsel : i ∉ sel.map (·.2) := by
      intro hmem
      obtain ⟨kv, hkv, hk2⟩ := List.mem_map.mp hmem
      obtain ⟨dd, hgg, hkk⟩ := hsound2 kv (hselmem kv hkv)
      obtain ⟨dd', hgg', hkk'⟩ := hsound2 (k, i) hki
      rw [hk2] at hgg
      have hdd : dd = dd' := Option.some.inj
        (hgg.symm.trans (show getEntry entries i = some dd' from hgg'))
      have hkveq : kv = (k, i) := Prod.ext (by rw [hkk, hkk', hdd]) hk2
      rw [hkveq] at hkv
      exact hknotsel hkv
    have hsurv1 : (k, i) ∈ (sel.map (·.1)).foldl orderedRemove sorted :=
      (hmem2 _).mpr ⟨hki, (hbridge (k, i) hki).mpr (by simpa using hidnotsel)⟩
    have hgE : getEntry st.entries i = some (unlink (sel.map (·.2)) d) := by
      rw [hlook i, if_neg hidnotsel, hgi]
      rfl
    obtain ⟨dd', hgg', hkk'⟩ := hsound2 (k, i) hki
    have hddd : dd' = d := Option.some.inj
      ((show getEntry entries i = some dd' from hgg').symm.trans hgi)
    have hkd : k = selectionKey d := by
      rw [show k = ((k, i) : Key × Nat).1 from rfl, hkk', hddd]
    refine ⟨unlink (sel.map (·.2)) d, hgE, rfl, ?_⟩
    refine mem_foldl_promote_of_compat st.entries newP _ _ hsurv1 ?_
    intro j2 hj2 d2 hg2 he
    have he' : keyCmp (selectionKey d2)
        (selectionKey (unlink (sel.map (·.2)) d)) = .eq := by
      rw [selectionKey_unlink, ← hkd]
      exact he
    have hun := huniq j2 i d2 _ hg2 hgE he'
    rw [hun.1, hun.2, selectionKey_unlink, ← hkd]

/-- The whole `gather_best_txs` loop preserves the selection-index
invariant. -/
theorem gatherLoop_SelInv (maxFee : PoolTx → Option Nat) :
    ∀ (fuel : Nat) (sorted : List (Key × Nat)) (entries : Entries)
      (g sp nb : Nat), SelInv entries sorted →
      SelInv (gatherLoop maxFee fuel sorted entries g sp nb).2.2
        (gatherLoop maxFee fuel sorted entries g sp nb).2.1 := by
  intro fuel
  induction fuel with
  | zero =>
    intro sorted entries g sp nb h
    exact h
  | succ fuel ih =>
    intro sorted entries g sp nb h
    simp only [gatherLoop]
    split
    · generalize hst : gatherPass maxFee sorted
        { gas_left := g, space_left := sp, nb_left := nb, entries := entries
          clean_up_list := [], transactions_to_remove := []
          transactions_to_promote := [], result := [] } = st
      obtain ⟨hstale, hinv, _⟩ :=
        gather_iteration maxFee sorted entries g sp nb h st hst
      split
      · rename_i hempty
        have hcl : st.clean_up_list = [] := by
          have h2 := hempty.1
          cases hx : st.clean_up_list with
          | nil => rfl
          | cons a l =>
            rw [hx] at h2
            cases h2
        have hpm : st.transactions_to_promote = [] := by
          have h2 := hempty.2
          cases hx : st.transactions_to_promote with
          | nil => rfl
          | cons a l =>
            rw [hx] at h2
            cases h2
        rw [hstale, List.foldl_nil]
        rw [hstale, hcl, hpm, List.foldl_nil, List.foldl_nil,
          List.foldl_nil] at hinv
        exact hinv
      · exact ih _ st.entries st.gas_left st.space_left st.nb_left hinv
    · exact h

/-- A fee-invalid executable transaction is skipped but retained by the
whole `gather_best_txs` loop: its record survives in storage with the
same transaction and its key survives in the selection index. -/
theorem gatherLoop_skip_invalid (maxFee : PoolTx → Option Nat) :
    ∀ (fuel : Nat) (sorted : List (Key × Nat)) (entries : Entries)
      (g sp nb : Nat), SelInv entries sorted →
      ∀ (k : Key) (i : Nat) (d : StorageData),
        (k, i) ∈ sorted → getEntry entries i = some d →
        tx_is_gas_price_valid maxFee d.transaction = false →
        ∃ d2, getEntry (gatherLoop maxFee fuel sorted entries g sp nb).2.2 i
            = some d2
          ∧ d2.transaction = d.transaction
          ∧ (k, i) ∈ (gatherLoop maxFee fuel sorted entries g sp nb).2.1 := by
  intro fuel
  induction fuel with
  | zero =>
    intro sorted entries g sp nb h k i d hki hgi hinv
    exact ⟨d, hgi, rfl, hki⟩
  | succ fuel ih =>
    intro sorted entries g sp nb h k i d hki hgi hinv
    simp only [gatherLoop]
    split
    · generalize hst : gatherPass maxFee sorted
        { gas_left := g, space_left := sp, nb_left := nb, entries := entries
          clean_up_list := [], transactions_to_remove := []
          transactions_to_promote := [], result := [] } = st
      obtain ⟨hstale, hinv2, hret⟩ :=
        gather_iteration maxFee sorted entries g sp nb h st hst
      obtain ⟨d2, hg2, htr2, hmemk⟩ := hret k i d hki hgi hinv
      split
      · rw [hstale, List.foldl_nil]
        exact ⟨d2, hg2, htr2, hki⟩
      · have hinv3 : tx_is_gas_price_valid maxFee d2.transaction = false := by
          rw [htr2]
          exact hinv
        obtain ⟨d3, hg3, htr3, hmem3⟩ := ih _ st.entries st.gas_left
          st.space_left st.nb_left hinv2 k i d2 hmemk hg2 hinv3
        exact ⟨d3, hg3, htr3.trans htr2, hmem3⟩
    · exact ⟨d, hgi, rfl, hki⟩

/-- A pair survives the cache updates of `update_components_and_caches_on_removal`
provided no removed record carries an equal key. -/
theorem update_on_removal_exec (l : List StorageData) :
    ∀ (q : Pool) (x : Key × Nat), x ∈ q.exec_sorted →
      (∀ r ∈ l, keyCmp (selectionKey r) x.1 ≠ .eq) →
      x ∈ (q.update_on_removal l).exec_sorted := by
  induction l with
  | nil =>
    intro q x hx _
    exact hx
  | cons r l ih =>
    intro q x hx hne
    simp only [Pool.update_on_removal, List.foldl_cons] at ih ⊢
    refine ih _ x ?_ (fun r2 hr2 => hne r2 (List.mem_cons_of_mem _ hr2))
    exact mem_orderedRemove_of_ne _ x hx (hne r (List.mem_cons_self _ _))

/-- A fee oracle under which no transaction is gas-price valid (the fee
computation fails, as when the gas price is unavailable). -/
def feeNone : PoolTx → Option Nat := fun _ => none

/-- The stored record of the single transaction of `c9Pool`. -/
def c9Data : StorageData :=
  { transaction := mkTx 1 5 100 10 [] []
    creation_instant := 0
    dependents_cumulative_tip := 5
    dependents_cumulative_gas := 100
    dependents_cumulative_bytes_size := 10
    number_dependents_in_chain := 1
    parents := []
    children := [] }

/-- A pool holding one executable transaction, with its caches laid out
explicitly. -/
def c9Pool : Pool where
  config := sampleConfig
  view := some sampleView
  entries := [(0, c9Data)]
  next_free_index := 1
  exec_sorted := [(selectionKey c9Data, 0)]
  tx_id_to_storage_id := [(1, 0)]
  current_gas := 100
  current_bytes_size := 10

/-- C9.  During `gather_best_txs`, a transaction whose max fee computed
from the current gas price exceeds its `max_fee_limit` policy (modelled:
the fee oracle rejects it) is skipped but not removed: over any pool
satisfying the selection-index invariant, after
`extract_transactions_for_block` its record is still in storage with the
same transaction, its key/index pair is still in the ordered executable
set, and no transaction of the returned batch carries its id. -/
theorem c9_fee_invalid_skip (p : Pool) (maxFee : PoolTx → Option Nat)
    (k : Key) (i : Nat) (d : StorageData)
    (hsel : SelInv p.entries p.exec_sorted)
    (hki : (k, i) ∈ p.exec_sorted)
    (hgi : getEntry p.entries i = some d)
    (hinv : tx_is_gas_price_valid maxFee d.transaction = false) :
    (∃ d2, getEntry (p.extract_transactions_for_block maxFee).1.entries i
        = some d2 ∧ d2.transaction = d.transaction)
    ∧ (k, i) ∈ (p.extract_transactions_for_block maxFee).1.exec_sorted
    ∧ ∀ t ∈ (p.extract_transactions_for_block maxFee).2,
        t.tx_id ≠ d.transaction.tx_id := by
  obtain ⟨d2, hg2, htr2, hmemk⟩ := gatherLoop_skip_invalid maxFee
    (p.entries.length + 1) p.exec_sorted p.entries p.config.max_block_gas
    USIZEMAX USIZEMAX hsel k i d hki hgi hinv
  obtain ⟨hsplit, hsub⟩ := gatherLoop_entries_spec maxFee
    (p.entries.length + 1) p.exec_sorted p.entries p.config.max_block_gas
    USIZEMAX USIZEMAX hsel.graph.idx_nodup
  obtain ⟨_, _, _, hids⟩ := sums_of_split hsplit
  have hc := congrArg (Multiset.count d.transaction.tx_id) hids
  simp only [Multiset.count_add] at hc
  have h1le : 1 ≤ Multiset.count d.transaction.tx_id
      (((gatherLoop maxFee (p.entries.length + 1) p.exec_sorted p.entries
        p.config.max_block_gas USIZEMAX USIZEMAX).2.2.map
          (·.2.transaction.tx_id) : List Nat) : Multiset Nat) := by
    rw [Multiset.one_le_count_iff_mem, Multiset.mem_coe]
    exact List.mem_map.mpr ⟨(i, d2), getEntry_mem hg2, by rw [htr2]⟩
  have hcle : Multiset.count d.transaction.tx_id
      ((p.entries.map (·.2.transaction.tx_id) : List Nat) : Multiset Nat)
        ≤ 1 := by
    rw [Multiset.coe_count]
    exact List.nodup_iff_count_le_one.mp hsel.graph.txid_nodup _
  have hzero : Multiset.count d.transaction.tx_id
      (((gatherLoop maxFee (p.entries.length + 1) p.exec_sorted p.entries
        p.config.max_block_gas USIZEMAX USIZEMAX).1.map
          (·.transaction.tx_id) : List Nat) : Multiset Nat) = 0 := by
    omega
  have hresne : ∀ rr ∈ (gatherLoop maxFee (p.entries.length + 1)
      p.exec_sorted p.entries p.config.max_block_gas USIZEMAX
      USIZEMAX).1, rr.transaction.tx_id ≠ d.transaction.tx_id := by
    intro rr hrr heq
    rw [Multiset.count_eq_zero] at hzero
    exact hzero (Multiset.mem_coe.mpr (List.mem_map.mpr ⟨rr, hrr, heq⟩))
  have hkd : k = selectionKey d := by
    obtain ⟨dk, hgk, hkk, _⟩ := hsel.sound (k, i) hki
    have hdd : dk = d := Option.some.inj
      ((show getEntry p.entries i = some dk from hgk).symm.trans hgi)
    rw [show k = ((k, i) : Key × Nat).1 from rfl, hkk, hdd]
  obtain ⟨hu1, hu2, hu3, hu4, hu5, hu6, hu7⟩ := update_on_removal_spec
    (gatherLoop maxFee (p.entries.length + 1) p.exec_sorted p.entries
      p.config.max_block_gas USIZEMAX USIZEMAX).1
    { p with
      exec_sorted := (gatherLoop maxFee (p.entries.length + 1) p.exec_sorted
        p.entries p.config.max_block_gas USIZEMAX USIZEMAX).2.1
      entries := (gatherLoop maxFee (p.entries.length + 1) p.exec_sorted
        p.entries p.config.max_block_gas USIZEMAX USIZEMAX).2.2 }
  simp only [Pool.extract_transactions_for_block, gatherBestTxs]
  refine ⟨⟨d2, ?_, htr2⟩, ?_, ?_⟩
  · rw [hu3]
    exact hg2
  · refine update_on_removal_exec _ _ (k, i) hmemk ?_
    intro rr hrr heq
    have ht : (selectionKey rr).tx_id = k.tx_id := (keyCmp_eq_char.mp heq).2.2
    rw [hkd] at ht
    exact hresne rr hrr ht
  · intro t hmt
    obtain ⟨rr, hrr, hteq⟩ := List.mem_map.mp hmt
    rw [← hteq]
    exact hresne rr hrr

/-- The selection-index invariant holds of `c9Pool`. -/
theorem c9Pool_SelInv : SelInv c9Pool.entries c9Pool.exec_sorted := by
  refine ⟨⟨by decide, by decide, by decide, by decide, ?_, by decide, ?_⟩,
    by decide, ?_, ?_⟩
  · intro e he j hj
    have he2 : e ∈ [((0 : Nat), c9Data)] := he
    rcases List.mem_cons.mp he2 with h | h
    · subst h
      simp [c9Data] at hj
    · cases h
  · intro e he j hj
    have he2 : e ∈ [((0 : Nat), c9Data)] := he
    rcases List.mem_cons.mp he2 with h | h
    · subst h
      simp [c9Data] at hj
    · cases h
  · intro kv hkv
    have hkv2 : kv ∈ [(selectionKey c9Data, (0 : Nat))] := hkv
    rcases List.mem_cons.mp hkv2 with h | h
    · subst h
      exact ⟨c9Data, rfl, rfl, rfl⟩
    · cases h
  · intro j d hgd hpd
    by_cases h0 : j = 0
    · subst h0
      have h1 : getEntry c9Pool.entries 0 = some c9Data := rfl
      have hdc : c9Data = d := Option.some.inj (h1.symm.trans hgd)
      show (selectionKey d, 0) ∈ [(selectionKey c9Data, 0)]
      rw [← hdc]
      exact List.mem_cons_self _ _
    · exfalso
      have hnone : getEntry c9Pool.entries j = none := by
        show getEntry [((0 : Nat), c9Data)] j = none
        simp only [getEntry]
        rw [List.find?_cons_of_neg _ (by simp; omega)]
        rfl
      rw [hnone] at hgd
      cases hgd

/-- Witness for `c9_fee_invalid_skip`: under the rejecting fee oracle the
single transaction of `c9Pool` survives extraction in storage and in the
index, and the batch is free of its id. -/
theorem c9_fee_invalid_skip_witness :
    (∃ d2, getEntry (c9Pool.extract_transactions_for_block feeNone).1.entries
        0 = some d2 ∧ d2.transaction = c9Data.transaction)
    ∧ (selectionKey c9Data, 0)
        ∈ (c9Pool.extract_transactions_for_block feeNone).1.exec_sorted
    ∧ ∀ t ∈ (c9Pool.extract_transactions_for_block feeNone).2,
        t.tx_id ≠ c9Data.transaction.tx_id :=
  c9_fee_invalid_skip c9Pool feeNone (selectionKey c9Data) 0 c9Data
    c9Pool_SelInv (by decide) rfl rfl

/-!  Progress and accounting helpers for repeated extraction. -/

/-- Following parent links (always to smaller indices) from any live
record reaches a parentless record. -/
theorem exists_executable_aux (entries : Entries) (hG : GraphInv entries) :
    ∀ i, ∀ d, getEntry entries i = some d →
      ∃ j dj, getEntry entries j = some dj ∧ dj.parents = [] := by
  intro i
  induction i using Nat.strong_induction_on with
  | _ i ih =>
    intro d hgd
    rcases hp : d.parents with _ | ⟨x, xs⟩
    · exact ⟨i, d, hgd, hp⟩
    · have hx : x ∈ d.parents := by
        rw [hp]
        exact List.mem_cons_self _ _
      obtain ⟨dx, hdx⟩ := hG.parents_mem (i, d) (getEntry_mem hgd) x hx
      have hlt : x < i := hG.parents_lt (i, d) (getEntry_mem hgd) x hx
      exact ih x hlt dx hdx

/-- A non-empty well-formed arena holds an executable record. -/
theorem exists_executable {entries : Entries} (hG : GraphInv entries)
    (hne : entries ≠ []) :
    ∃ j dj, getEntry entries j = some dj ∧ dj.parents = [] := by
  obtain ⟨e, hmem⟩ := List.exists_mem_of_ne_nil entries hne
  have hg : getEntry entries e.1 = some e.2 :=
    mem_getEntry hG.idx_nodup (show (e.1, e.2) ∈ entries from hmem)
  exact exists_executable_aux entries hG e.1 e.2 hg

/-- Removal by a key with no equal key present changes nothing. -/
theorem orderedRemove_of_no_eq {k : Key} :
    ∀ l : List (Key × Nat), (∀ kv ∈ l, keyCmp k kv.1 ≠ .eq) →
      orderedRemove l k = l := by
  intro l
  induction l with
  | nil =>
    intro _
    rfl
  | cons kv rest ih =>
    intro hne
    obtain ⟨k0, i0⟩ := kv
    simp only [orderedRemove]
    rw [if_neg (hne (k0, i0) (List.mem_cons_self _ _))]
    rw [ih (fun kv hkv => hne kv (List.mem_cons_of_mem _ hkv))]

/-- The cache updates leave the selection index unchanged when none of
the removed records carries a key equal to an index key. -/
theorem update_on_removal_exec_eq (l : List StorageData) :
    ∀ q : Pool, (∀ r ∈ l, ∀ kv ∈ q.exec_sorted,
      keyCmp (selectionKey r) kv.1 ≠ .eq) →
      (q.update_on_removal l).exec_sorted = q.exec_sorted := by
  induction l with
  | nil =>
    intro q _
    rfl
  | cons r rest ih =>
    intro q hne
    simp only [Pool.update_on_removal, List.foldl_cons] at ih ⊢
    have hq : orderedRemove q.exec_sorted (selectionKey r) = q.exec_sorted :=
      orderedRemove_of_no_eq _
        (fun kv hkv => hne r (List.mem_cons_self _ _) kv hkv)
    have hcond : ∀ r2 ∈ rest, ∀ kv ∈ ({ q with
        current_gas := satSub q.current_gas r.transaction.max_gas
        current_bytes_size :=
          satSub q.current_bytes_size r.transaction.metered_bytes_size
        tx_id_to_storage_id :=
          removeById q.tx_id_to_storage_id r.transaction.tx_id
        exec_sorted := orderedRemove q.exec_sorted (selectionKey r) }
          : Pool).exec_sorted,
        keyCmp (selectionKey r2) kv.1 ≠ .eq := by
      intro r2 hr2 kv hkv
      have hkv2 : kv ∈ orderedRemove q.exec_sorted (selectionKey r) := hkv
      rw [hq] at hkv2
      exact hne r2 (List.mem_cons_of_mem _ hr2) kv hkv2
    rw [ih _ hcond]
    exact hq

/-- Over distinct transaction ids, a storage split separates the ids of
the extracted records from those of the survivors. -/
theorem split_txids_disjoint {E E2 : Entries} {l : List StorageData}
    (hB : (E.map (·.2.transaction.tx_id)).Nodup)
    (hsplit : txsM E2 + dataTxsM l = txsM E) :
    ∀ rr ∈ l, ∀ e ∈ E2, rr.transaction.tx_id ≠ e.2.transaction.tx_id := by
  intro rr hrr e he heq
  obtain ⟨_, _, _, hids⟩ := sums_of_split hsplit
  have hc := congrArg (Multiset.count rr.transaction.tx_id) hids
  simp only [Multiset.count_add] at hc
  have h1 : 1 ≤ Multiset.count rr.transaction.tx_id
      ((l.map (·.transaction.tx_id) : List Nat) : Multiset Nat) := by
    rw [Multiset.one_le_count_iff_mem, Multiset.mem_coe]
    exact List.mem_map.mpr ⟨rr, hrr, rfl⟩
  have h2 : 1 ≤ Multiset.count rr.transaction.tx_id
      ((E2.map (·.2.transaction.tx_id) : List Nat) : Multiset Nat) := by
    rw [Multiset.one_le_count_iff_mem, Multiset.mem_coe]
    exact List.mem_map.mpr ⟨e, he, heq.symm⟩
  have h3 : Multiset.count rr.transaction.tx_id
      ((E.map (·.2.transaction.tx_id) : List Nat) : Multiset Nat) ≤ 1 := by
    rw [Multiset.coe_count]
    exact List.nodup_iff_count_le_one.mp hB _
  omega

/-- Every surviving record's transaction already lived in the arena
before the split. -/
theorem split_txs_subset {E E2 : Entries} {l : List StorageData}
    (hsplit : txsM E2 + dataTxsM l = txsM E) :
    ∀ e ∈ E2, ∃ e0 ∈ E, e0.2.transaction = e.2.transaction := by
  intro e he
  have hle : txsM E2 ≤ txsM E := by
    rw [← hsplit]
    exact Multiset.le_add_right _ _
  have h1 : e.2.transaction ∈ txsM E2 := by
    show e.2.transaction ∈ ((E2.map (·.2.transaction) : List PoolTx)
      : Multiset PoolTx)
    rw [Multiset.mem_coe]
    exact List.mem_map.mpr ⟨e, he, rfl⟩
  have h2 : e.2.transaction ∈ txsM E := Multiset.mem_of_le hle h1
  have h3 : e.2.transaction ∈ (E.map (·.2.transaction)) := by
    rw [← Multiset.mem_coe]
    exact h2
  obtain ⟨e0, he0, heq⟩ := List.mem_map.mp h3
  exact ⟨e0, he0, heq⟩

/-- The pass result only grows. -/
theorem gatherPass_result_mono (maxFee : PoolTx → Option Nat) :
    ∀ (l : List (Key × Nat)) (st : PassState),
      st.result.length ≤ (gatherPass maxFee l st).result.length := by
  intro l
  induction l with
  | nil =>
    intro st
    exact Nat.le_refl _
  | cons kv rest ih =>
    intro st
    obtain ⟨key, storage_id⟩ := kv
    rcases hget : getEntry st.entries storage_id with _ | stored
    · simp only [gatherPass, hget]
      exact ih { st with
        transactions_to_remove := st.transactions_to_remove ++ [key] }
    · simp only [gatherPass, hget]
      split
      · exact ih st
      · split
        · exact ih st
        · refine Nat.le_trans ?_ (ih _)
          simp

/-- A live, valid, fitting head of the snapshot is selected by the
pass. -/
theorem gatherPass_head_select (maxFee : PoolTx → Option Nat)
    (key : Key) (i : Nat) (rest : List (Key × Nat)) (st : PassState)
    (d : StorageData) (hd : getEntry st.entries i = some d)
    (hval : tx_is_gas_price_valid maxFee d.transaction = true)
    (hgas : d.transaction.max_gas ≤ st.gas_left)
    (hsz : d.transaction.metered_bytes_size ≤ st.space_left) :
    st.result.length + 1
      ≤ (gatherPass maxFee ((key, i) :: rest) st).result.length := by
  simp only [gatherPass, hd]
  rw [if_neg (by simp [hval]), if_neg (by omega)]
  have hm := gatherPass_result_mono maxFee rest
    { gas_left := satSub st.gas_left d.transaction.max_gas
      space_left := satSub st.space_left d.transaction.metered_bytes_size
      nb_left := satSub st.nb_left 1
      entries := removeEntry st.entries i
      clean_up_list := st.clean_up_list ++ [key]
      transactions_to_remove := st.transactions_to_remove
      transactions_to_promote := st.transactions_to_promote
        ++ d.children.filter
          (fun x => !hasDependencies (removeEntry st.entries i) x)
      result := st.result ++ [d] }
  simp only [List.length_append, List.length_cons, List.length_nil] at hm
  omega

/-- One iteration of the loop over a non-empty invariant index whose
transactions are all valid and fit the budgets extracts at least one
transaction. -/
theorem gatherLoop_progress (maxFee : PoolTx → Option Nat) (fuel : Nat)
    (sorted : List (Key × Nat)) (entries : Entries) (g sp nb : Nat)
    (h : SelInv entries sorted) (hne : sorted ≠ [])
    (hall : ∀ e ∈ entries,
      tx_is_gas_price_valid maxFee e.2.transaction = true
      ∧ e.2.transaction.max_gas ≤ g
      ∧ e.2.transaction.metered_bytes_size ≤ sp)
    (hg : 0 < g) (hsp : 0 < sp) (hnb : 0 < nb) :
    1 ≤ (gatherLoop maxFee (fuel + 1) sorted entries g sp nb).1.length := by
  simp only [gatherLoop]
  split
  · cases hs : sorted with
    | nil => exact absurd hs hne
    | cons kv rest =>
      obtain ⟨key, i⟩ := kv
      have hki : ((key, i) : Key × Nat) ∈ sorted := by
        rw [hs]
        exact List.mem_cons_self _ _
      obtain ⟨d, hgd, hkd, hpd⟩ := h.sound (key, i) hki
      obtain ⟨hval, hgas, hsz⟩ := hall (i, d) (getEntry_mem hgd)
      have hsel1 := gatherPass_head_select maxFee key i rest
        { gas_left := g, space_left := sp, nb_left := nb, entries := entries
          clean_up_list := [], transactions_to_remove := []
          transactions_to_promote := [], result := [] } d hgd hval hgas hsz
      simp only [List.length_nil] at hsel1
      split
      · simpa using hsel1
      · simp only [List.length_append]
        omega
  · rename_i hcond
    exfalso
    apply hcond
    refine ⟨hg, hnb, hsp, ?_⟩
    intro hempty
    cases hs : sorted with
    | nil => exact hne hs
    | cons kv rest =>
      rw [hs] at hempty
      cases hempty

/-- One call of `extract_transactions_for_block` from an invariant pool:
the invariant survives, the configuration is untouched, the extracted
transactions and the survivors split the arena exactly, every survivor's
transaction was already pooled, the arena shrinks by the batch size, and
from a non-empty all-valid all-fitting pool the batch is non-empty. -/
theorem extract_step (p : Pool) (maxFee : PoolTx → Option Nat)
    (hsel : SelInv p.entries p.exec_sorted) :
    SelInv (p.extract_transactions_for_block maxFee).1.entries
      (p.extract_transactions_for_block maxFee).1.exec_sorted
    ∧ (p.extract_transactions_for_block maxFee).1.config = p.config
    ∧ ((p.extract_transactions_for_block maxFee).2 : Multiset PoolTx)
        + txsM (p.extract_transactions_for_block maxFee).1.entries
      = txsM p.entries
    ∧ (∀ e ∈ (p.extract_transactions_for_block maxFee).1.entries,
        ∃ e0 ∈ p.entries, e0.2.transaction = e.2.transaction)
    ∧ (p.extract_transactions_for_block maxFee).1.entries.length
        + (p.extract_transactions_for_block maxFee).2.length
      = p.entries.length
    ∧ (p.entries ≠ [] →
        (∀ e ∈ p.entries,
          tx_is_gas_price_valid maxFee e.2.transaction = true
          ∧ e.2.transaction.max_gas ≤ p.config.max_block_gas
          ∧ e.2.transaction.metered_bytes_size ≤ USIZEMAX) →
        (p.extract_transactions_for_block maxFee).2 ≠ []) := by
  obtain ⟨hsplit, hsub⟩ := gatherLoop_entries_spec maxFee
    (p.entries.length + 1) p.exec_sorted p.entries p.config.max_block_gas
    USIZEMAX USIZEMAX hsel.graph.idx_nodup
  have hSel2 := gatherLoop_SelInv maxFee (p.entries.length + 1)
    p.exec_sorted p.entries p.config.max_block_gas USIZEMAX USIZEMAX hsel
  have hdisj := split_txids_disjoint hsel.graph.txid_nodup hsplit
  obtain ⟨hu1, hu2, hu3, hu4, hu5, hu6, hu7⟩ := update_on_removal_spec
    (gatherLoop maxFee (p.entries.length + 1) p.exec_sorted p.entries
      p.config.max_block_gas USIZEMAX USIZEMAX).1
    { p with
      exec_sorted := (gatherLoop maxFee (p.entries.length + 1) p.exec_sorted
        p.entries p.config.max_block_gas USIZEMAX USIZEMAX).2.1
      entries := (gatherLoop maxFee (p.entries.length + 1) p.exec_sorted
        p.entries p.config.max_block_gas USIZEMAX USIZEMAX).2.2 }
  have hexeq := update_on_removal_exec_eq
    (gatherLoop maxFee (p.entries.length + 1) p.exec_sorted p.entries
      p.config.max_block_gas USIZEMAX USIZEMAX).1
    { p with
      exec_sorted := (gatherLoop maxFee (p.entries.length + 1) p.exec_sorted
        p.entries p.config.max_block_gas USIZEMAX USIZEMAX).2.1
      entries := (gatherLoop maxFee (p.entries.length + 1) p.exec_sorted
        p.entries p.config.max_block_gas USIZEMAX USIZEMAX).2.2 }
    (by
      intro rr hrr kv hkv heq
      have hkv2 : kv ∈ (gatherLoop maxFee (p.entries.length + 1)
          p.exec_sorted p.entries p.config.max_block_gas USIZEMAX
          USIZEMAX).2.1 := hkv
      obtain ⟨dkv, hgkv, hkkv, _⟩ := hSel2.sound kv hkv2
      have ht : rr.transaction.tx_id = dkv.transaction.tx_id := by
        have h2 := (keyCmp_eq_char.mp heq).2.2
        rw [hkkv] at h2
        exact h2
      exact hdisj rr hrr (kv.2, dkv) (getEntry_mem hgkv) ht)
  simp only [Pool.extract_transactions_for_block, gatherBestTxs]
  refine ⟨?_, ?_, ?_, ?_, ?_, ?_⟩
  · rw [hu3, hexeq]
    exact hSel2
  · rw [hu4]
  · rw [hu3]
    rw [show (((gatherLoop maxFee (p.entries.length + 1) p.exec_sorted
      p.entries p.config.max_block_gas USIZEMAX USIZEMAX).1.map
        (·.transaction) : List PoolTx) : Multiset PoolTx)
      = dataTxsM (gatherLoop maxFee (p.entries.length + 1) p.exec_sorted
        p.entries p.config.max_block_gas USIZEMAX USIZEMAX).1 from rfl]
    rw [add_comm]
    exact hsplit
  · intro e he
    rw [hu3] at he
    exact split_txs_subset hsplit e he
  · rw [hu3, List.length_map]
    exact (sums_of_split hsplit).2.2.1
  · intro hne hall
    have hgpos : 0 < p.config.max_block_gas := by
      obtain ⟨j0, dj0, hgj0, hpj0⟩ := exists_executable hsel.graph hne
      obtain ⟨_, hle, _⟩ := hall (j0, dj0) (getEntry_mem hgj0)
      have := hsel.graph.gas_pos (j0, dj0) (getEntry_mem hgj0)
      omega
    have hsne : p.exec_sorted ≠ [] := by
      obtain ⟨j0, dj0, hgj0, hpj0⟩ := exists_executable hsel.graph hne
      have hpair := hsel.complete j0 dj0 hgj0 hpj0
      intro hnil
      rw [hnil] at hpair
      cases hpair
    have hprog := gatherLoop_progress maxFee p.entries.length
      p.exec_sorted p.entries p.config.max_block_gas USIZEMAX USIZEMAX
      hsel hsne hall hgpos (by decide) (by decide)
    intro hnil
    have hlenm := congrArg List.length hnil
    rw [List.length_map] at hlenm
    simp only [List.length_nil] at hlenm
    omega

/-- The cache fields of an invariant pool with an empty arena. -/
theorem pool_empty_state (p : Pool) (hent : p.entries = [])
    (hsel : SelInv p.entries p.exec_sorted) (hagg : AggInv p) :
    p.exec_sorted = [] ∧ p.current_gas = 0 ∧ p.current_bytes_size = 0
      ∧ p.tx_id_to_storage_id = [] := by
  have hso : p.exec_sorted = [] := by
    cases hx : p.exec_sorted with
    | nil => rfl
    | cons kv rest =>
      obtain ⟨d, hg, _⟩ := hsel.sound kv
        (by rw [hx]; exact List.mem_cons_self _ _)
      rw [hent] at hg
      cases hg
  refine ⟨hso, ?_, ?_, ?_⟩
  · rw [hagg.gas_exact, hent]
    rfl
  · rw [hagg.bytes_exact, hent]
    rfl
  · have hc := hagg.count
    rw [hent] at hc
    simp only [List.length_nil] at hc
    exact List.length_eq_zero.mp hc

/-- Draining a pool whose arena is already empty stops immediately. -/
theorem drain_empty_step (maxFee : PoolTx → Option Nat) (fuel : Nat)
    (p : Pool) (hent : p.entries = [])
    (hsel : SelInv p.entries p.exec_sorted) :
    drainLoop maxFee (fuel + 1) p = (p, []) := by
  have hso : p.exec_sorted = [] := by
    cases hx : p.exec_sorted with
    | nil => rfl
    | cons kv rest =>
      obtain ⟨d, hg, _⟩ := hsel.sound kv
        (by rw [hx]; exact List.mem_cons_self _ _)
      rw [hent] at hg
      cases hg
  have hloop : gatherLoop maxFee (p.entries.length + 1) p.exec_sorted
      p.entries p.config.max_block_gas USIZEMAX USIZEMAX
      = ([], p.exec_sorted, p.entries) := by
    rw [hent, hso]
    simp [gatherLoop]
  have hext : p.extract_transactions_for_block maxFee = (p, []) := by
    simp only [Pool.extract_transactions_for_block, gatherBestTxs, hloop]
    rfl
  simp [drainLoop, hext]

/-- Repeated extraction with enough fuel from an invariant, exact,
all-valid, all-fitting pool returns exactly the pooled transactions and
leaves every component empty. -/
theorem drain_spec (maxFee : PoolTx → Option Nat) :
    ∀ (n : Nat) (p : Pool), p.entries.length ≤ n →
      SelInv p.entries p.exec_sorted → AggInv p →
      (∀ e ∈ p.entries,
        tx_is_gas_price_valid maxFee e.2.transaction = true
        ∧ e.2.transaction.max_gas ≤ p.config.max_block_gas
        ∧ e.2.transaction.metered_bytes_size ≤ USIZEMAX) →
      ((drainLoop maxFee (n + 1) p).2 : Multiset PoolTx) = txsM p.entries
        ∧ (drainLoop maxFee (n + 1) p).1.entries = []
        ∧ (drainLoop maxFee (n + 1) p).1.exec_sorted = []
        ∧ (drainLoop maxFee (n + 1) p).1.current_gas = 0
        ∧ (drainLoop maxFee (n + 1) p).1.current_bytes_size = 0
        ∧ (drainLoop maxFee (n + 1) p).1.tx_id_to_storage_id = [] := by
  intro n
  induction n with
  | zero =>
    intro p hlen hsel hagg hall
    have hent : p.entries = [] :=
      List.length_eq_zero.mp (Nat.le_zero.mp hlen)
    obtain ⟨hso, hg0, hb0, hm0⟩ := pool_empty_state p hent hsel hagg
    rw [drain_empty_step maxFee 0 p hent hsel]
    exact ⟨by rw [hent]; rfl, hent, hso, hg0, hb0, hm0⟩
  | succ n ih =>
    intro p hlen hsel hagg hall
    by_cases hent : p.entries = []
    · obtain ⟨hso, hg0, hb0, hm0⟩ := pool_empty_state p hent hsel hagg
      rw [drain_empty_step maxFee (n + 1) p hent hsel]
      exact ⟨by rw [hent]; rfl, hent, hso, hg0, hb0, hm0⟩
    · obtain ⟨hSel2, hconf, hsum, hsub, hcount, hprogress⟩ :=
        extract_step p maxFee hsel
      have hAgg2 := extract_preserves_AggInv p maxFee hagg
      have hne2 := hprogress hent hall
      have hr2f : (p.extract_transactions_for_block maxFee).2.isEmpty
          = false := by
        cases hx : (p.extract_transactions_for_block maxFee).2 with
        | nil => exact absurd hx hne2
        | cons a l => rfl
      have hlen2 : (p.extract_transactions_for_block
          maxFee).1.entries.length ≤ n := by
        have h1 : 1 ≤ (p.extract_transactions_for_block maxFee).2.length := by
          cases hx : (p.extract_transactions_for_block maxFee).2 with
          | nil => exact absurd hx hne2
          | cons a l => simp
        omega
      have hall2 : ∀ e ∈ (p.extract_transactions_for_block
          maxFee).1.entries,
          tx_is_gas_price_valid maxFee e.2.transaction = true
          ∧ e.2.transaction.max_gas
              ≤ (p.extract_transactions_for_block maxFee).1.config.max_block_gas
          ∧ e.2.transaction.metered_bytes_size ≤ USIZEMAX := by
        intro e he
        obtain ⟨e0, he0, heq⟩ := hsub e he
        obtain ⟨hv, hg2, hs2⟩ := hall e0 he0
        rw [heq] at hv hg2 hs2
        rw [hconf]
        exact ⟨hv, hg2, hs2⟩
      obtain ⟨ht1, ht2, ht3, ht4, ht5, ht6⟩ :=
        ih (p.extract_transactions_for_block maxFee).1 hlen2 hSel2 hAgg2
          hall2
      simp only [drainLoop]
      rw [if_neg (by simp [hr2f])]
      refine ⟨?_, ht2, ht3, ht4, ht5, ht6⟩
      show (((p.extract_transactions_for_block maxFee).2
          ++ (drainLoop maxFee (n + 1)
            (p.extract_transactions_for_block maxFee).1).2 : List PoolTx)
          : Multiset PoolTx) = txsM p.entries
      rw [← Multiset.coe_add]
      rw [ht1]
      rw [← hsum]

/-- Counterexample to C8 as stated: a pool reached by a single
successful insert, all of whose transactions are fee-valid, from which
repeated extraction returns nothing and leaves the pool non-empty — the
transaction's `max_gas` exceeds `max_block_gas`, so every
`extract_transactions_for_block` skips it forever. -/
theorem c8_counterexample :
    emptyPool.insert (mkTx 1 5 2000 10 [] []) 0
        = .ok (emptyPool.afterInsert (mkTx 1 5 2000 10 [] []) 0, [])
    ∧ poolTxs (emptyPool.afterInsert (mkTx 1 5 2000 10 [] []) 0) ≠ []
    ∧ (∀ tx ∈ poolTxs (emptyPool.afterInsert (mkTx 1 5 2000 10 [] []) 0),
        tx_is_gas_price_valid feeZero tx = true)
    ∧ (drainLoop feeZero
        ((emptyPool.afterInsert (mkTx 1 5 2000 10 [] []) 0).entries.length
          + 1)
        (emptyPool.afterInsert (mkTx 1 5 2000 10 [] []) 0)).2 = []
    ∧ (drainLoop feeZero
        ((emptyPool.afterInsert (mkTx 1 5 2000 10 [] []) 0).entries.length
          + 1)
        (emptyPool.afterInsert (mkTx 1 5 2000 10 [] []) 0)).1.entries
        ≠ [] := by
  refine ⟨by decide, by decide, by decide, by decide, by decide⟩

/-- C8, amended.  From any pool satisfying the selection-index and
aggregate invariants whose transactions are all fee-valid, fit the block
gas limit and the `usize` size budget, repeatedly calling
`extract_transactions_for_block` until it returns an empty batch
returns every pooled transaction exactly once and leaves the pool
empty: storage, selection index and id map empty and both aggregates
zero.  Without the fit conditions this fails (see the counterexample). -/
theorem c8_drain_to_empty (p : Pool) (maxFee : PoolTx → Option Nat)
    (hsel : SelInv p.entries p.exec_sorted) (hagg : AggInv p)
    (hall : ∀ e ∈ p.entries,
      tx_is_gas_price_valid maxFee e.2.transaction = true
      ∧ e.2.transaction.max_gas ≤ p.config.max_block_gas
      ∧ e.2.transaction.metered_bytes_size ≤ USIZEMAX) :
    ((drainLoop maxFee (p.entries.length + 1) p).2 : Multiset PoolTx)
        = (poolTxs p : Multiset PoolTx)
    ∧ (drainLoop maxFee (p.entries.length + 1) p).1.entries = []
    ∧ (drainLoop maxFee (p.entries.length + 1) p).1.exec_sorted = []
    ∧ (drainLoop maxFee (p.entries.length + 1) p).1.current_gas = 0
    ∧ (drainLoop maxFee (p.entries.length + 1) p).1.current_bytes_size = 0
    ∧ (drainLoop maxFee (p.entries.length + 1) p).1.tx_id_to_storage_id
        = [] := by
  have h := drain_spec maxFee p.entries.length p (Nat.le_refl _) hsel hagg
    hall
  exact h

/-- Witness for `c8_drain_to_empty`: draining the one-transaction pool
`c9Pool` under the accepting fee oracle extracts its transaction and
empties every component. -/
theorem c8_drain_to_empty_witness :
    ((drainLoop feeZero (c9Pool.entries.length + 1) c9Pool).2
        : Multiset PoolTx) = (poolTxs c9Pool : Multiset PoolTx)
    ∧ (drainLoop feeZero (c9Pool.entries.length + 1) c9Pool).1.entries = []
    ∧ (drainLoop feeZero (c9Pool.entries.length + 1) c9Pool).1.exec_sorted
        = []
    ∧ (drainLoop feeZero (c9Pool.entries.length + 1) c9Pool).1.current_gas
        = 0
    ∧ (drainLoop feeZero
        (c9Pool.entries.length + 1) c9Pool).1.current_bytes_size = 0
    ∧ (drainLoop feeZero
        (c9Pool.entries.length + 1) c9Pool).1.tx_id_to_storage_id = [] :=
  c8_drain_to_empty c9Pool feeZero c9Pool_SelInv
    ⟨by decide, by decide, by decide, by decide, by decide⟩
    (by decide)

end TxPool
